import Mathlib

/-!
# ArrayLookup (source/blender/blenlib/BLI_array_lookup.hpp)

A shallow embedding of the open-addressing index structure `BLI::ArrayLookup`, followed by the
properties of its operations.

* The mapping table `m_map` is a list of signed 32-bit slot values (`State`), modelled as `Int`.
  Its container `SmallVector` is not part of the sources; of it the embedding uses that
  `Mapping(size)` followed by `fill(SLOT_EMPTY)` is a table of `size` empty slots, that `size()`
  is a `uint`, and that `m_map[slot]` is defined for `slot < size()`.
* `uint` / `uint32_t` values are natural numbers, reduced modulo `2 ^ 32` where the source
  computes in unsigned arithmetic.
* The caller-owned `Item *array` is a total function from (signed) offsets to items.
* The template parameters `GetKey` and `Hash` are explicit arguments, `N_EXP` is the argument
  of the constructor.
* Every probe loop of the source (`ITER_SLOTS`) has no exit condition of its own, so it is
  modelled with a `fuel` argument bounding the number of iterations.  A result `none` of an
  operation means that it did not return normally: the loop was still running when the fuel was
  used up, a `BLI_assert` failed, or the table was read outside its bounds.
-/

namespace BLI

/-- The slot value `SLOT_EMPTY`. -/
def SLOT_EMPTY : Int := -1

/-- The slot value `SLOT_DUMMY` (tombstone). -/
def SLOT_DUMMY : Int := -2

/-- The constant `PERTURB_SHIFT`. -/
def PERTURB_SHIFT : Nat := 5

/-- The conversion `(State)index` from `Index = uint32_t` to `State = int32_t`. -/
def to_state (index : Nat) : Int :=
  if index % 2 ^ 32 < 2 ^ 31 then ((index % 2 ^ 32 : Nat) : Int)
  else ((index % 2 ^ 32 : Nat) : Int) - 2 ^ 32

/-- The conversion of a `State` to `uint32_t` that C++ applies to the left operand of
`state == index`. -/
def to_index (state : Int) : Nat := (state % 2 ^ 32).toNat

/-- Modelled from the spec: the bit-counting utility `count_bits_i` of `BLI_math_bits.h`, which
is not part of the sources.  It is the number of set bits of a 32-bit value. -/
def count_bits_i (size : Nat) : Nat := (List.range 32).countP (fun b => size.testBit b)

/-- The fields of `ArrayLookup`. -/
structure ArrayLookup where
  /-- The mapping table. -/
  m_map : List Int
  /-- Remaining number of insertions before the table has to grow. -/
  m_usable_slots : Nat
  /-- Number of recorded entries. -/
  m_length : Nat
  /-- Size of the mapping table minus one. -/
  m_slot_mask : Nat
deriving DecidableEq, Repr, Inhabited

section Operations

variable {Key Item : Type}

/-- The method `first_slot`: the first probed slot and the initial perturbation. -/
def first_slot (Hash : Key → Nat) (s : ArrayLookup) (key : Key) : Nat × Nat :=
  let hash_value := Hash key % 2 ^ 32
  (hash_value &&& s.m_slot_mask, hash_value)

/-- The method `next_slot`: `*slot = m_slot_mask & ((5 + *slot) + 1 + *perturb)` followed by
`*perturb >>= PERTURB_SHIFT`, in 32-bit unsigned arithmetic. -/
def next_slot (s : ArrayLookup) (slot perturb : Nat) : Nat × Nat :=
  (s.m_slot_mask &&& (((5 + slot) + 1 + perturb) % 2 ^ 32), perturb >>> PERTURB_SHIFT)

/-- The loop of the macro `ITER_SLOTS`, started at a given slot and perturbation.  The loop body
`body slot state` returns `some r` when it leaves the loop (`return` or `break`) with result `r`
and `none` when the loop continues with the next slot. -/
def ITER_SLOTS_from {β : Type} (s : ArrayLookup) (body : Nat → Int → Option β) :
    Nat → Nat → Nat → Option β
  | 0, _, _ => none
  | fuel + 1, slot, perturb =>
    match s.m_map[slot]? with
    | none => none
    | some state =>
      match body slot state with
      | some r => some r
      | none =>
        ITER_SLOTS_from s body fuel (next_slot s slot perturb).1 (next_slot s slot perturb).2

/-- The macro `ITER_SLOTS(KEY, SLOT, STATE)`: the loop started at `first_slot`. -/
def ITER_SLOTS {β : Type} (Hash : Key → Nat) (s : ArrayLookup) (key : Key)
    (body : Nat → Int → Option β) (fuel : Nat) : Option β :=
  ITER_SLOTS_from s body fuel (first_slot Hash s key).1 (first_slot Hash s key).2

/-- The method `reset_map`.  The assertion `count_bits_i(size) == 1` admits powers of two only;
for those the conversion of `size` to `float` and the product with `LOAD_FACTOR = 0.6f`, which
is the binary32 number `10066330 / 2 ^ 24`, are exact, and the conversion back to `uint`
truncates. -/
def reset_map (s : ArrayLookup) (size : Nat) : Option ArrayLookup :=
  if count_bits_i size = 1 then
    some { m_map := List.replicate size SLOT_EMPTY
           m_usable_slots := size * 10066330 / 2 ^ 24
           m_length := s.m_length
           m_slot_mask := (size + 2 ^ 32 - 1) % 2 ^ 32 }
  else none

/-- The constructor `ArrayLookup()`, for the template argument `N_EXP`: `reset_map(1 << N_EXP)`
followed by `m_length = 0`. -/
def ArrayLookup.construct (N_EXP : Nat) : Option ArrayLookup :=
  (reset_map ⟨[], 0, 0, 0⟩ ((1 <<< N_EXP) % 2 ^ 32)).map fun s => { s with m_length := 0 }

/-- The method `insert_index`. -/
def insert_index (Hash : Key → Nat) (fuel : Nat) (s : ArrayLookup) (key : Key) (index : Nat) :
    Option ArrayLookup :=
  ITER_SLOTS Hash s key
    (fun slot state =>
      if state = SLOT_EMPTY then some { s with m_map := s.m_map.set slot (to_state index) }
      else none)
    fuel

/-- The method `ensure_can_add`. -/
def ensure_can_add (GetKey : Item → Key) (Hash : Key → Nat) (fuel : Nat) (s : ArrayLookup)
    (array : Int → Item) (amount : Nat) : Option ArrayLookup :=
  if s.m_usable_slots ≥ amount then some s
  else
    (reset_map s (s.m_map.length * 2 % 2 ^ 32)).bind fun s1 =>
      ((List.range s1.m_length).foldlM
        (fun st (i : Nat) => insert_index Hash fuel st (GetKey (array (i : Int))) i) s1).bind fun s2 =>
        some { s2 with m_usable_slots := (s2.m_usable_slots + 2 ^ 32 - s2.m_length) % 2 ^ 32 }

/-- The method `contains`. -/
def contains [DecidableEq Key] (GetKey : Item → Key) (Hash : Key → Nat) (fuel : Nat) (s : ArrayLookup)
    (array : Int → Item) (key : Key) : Option Bool :=
  ITER_SLOTS Hash s key
    (fun _ state =>
      if state = SLOT_EMPTY then some false
      else if state = SLOT_DUMMY then none
      else if GetKey (array state) = key then some true
      else none)
    fuel

/-- The method `add_new__fast`. -/
def add_new__fast (Hash : Key → Nat) (fuel : Nat) (s : ArrayLookup) (key : Key) (index : Nat) :
    Option ArrayLookup :=
  ITER_SLOTS Hash s key
    (fun slot state =>
      if state = SLOT_EMPTY then some { s with m_map := s.m_map.set slot (to_state index) }
      else none)
    fuel

/-- The method `add_new`. -/
def add_new (GetKey : Item → Key) (Hash : Key → Nat) (fuel : Nat) (s : ArrayLookup)
    (array : Int → Item) (index : Nat) : Option ArrayLookup :=
  (ensure_can_add GetKey Hash fuel s array 1).bind fun s1 =>
    (add_new__fast Hash fuel s1 (GetKey (array (index : Int))) index).bind fun s2 =>
      some { s2 with m_usable_slots := (s2.m_usable_slots + 2 ^ 32 - 1) % 2 ^ 32
                     m_length := (s2.m_length + 1) % 2 ^ 32 }

/-- The method `add_new_range`.  Its loop reads `GetKey(array[index])`, where `index` is not a
name declared in the method; the value this free name denotes is the argument `index`. -/
def add_new_range (GetKey : Item → Key) (Hash : Key → Nat) (fuel : Nat) (s : ArrayLookup)
    (array : Int → Item) (start stop index : Nat) : Option ArrayLookup :=
  if start ≤ stop then
    (ensure_can_add GetKey Hash fuel s array (stop - start)).bind fun s1 =>
      ((List.range' start (stop - start)).foldlM
        (fun st (i : Nat) => add_new__fast Hash fuel st (GetKey (array (index : Int))) i) s1).bind fun s2 =>
        some { s2 with m_usable_slots := (s2.m_usable_slots + 2 ^ 32 - (stop - start)) % 2 ^ 32
                       m_length := (s2.m_length + (stop - start)) % 2 ^ 32 }
  else none

/-- The method `remove`. -/
def remove (Hash : Key → Nat) (fuel : Nat) (s : ArrayLookup) (key : Key) (index : Nat) :
    Option ArrayLookup :=
  ITER_SLOTS Hash s key
    (fun slot state =>
      if to_index state = index % 2 ^ 32 then
        some { s with m_map := s.m_map.set slot SLOT_DUMMY
                      m_length := (s.m_length + 2 ^ 32 - 1) % 2 ^ 32 }
      else none)
    fuel

/-- The method `update_index`. -/
def update_index (Hash : Key → Nat) (fuel : Nat) (s : ArrayLookup) (key : Key)
    (old_index new_index : Nat) : Option ArrayLookup :=
  ITER_SLOTS Hash s key
    (fun slot state =>
      if to_index state = old_index % 2 ^ 32 then
        some { s with m_map := s.m_map.set slot (to_state new_index) }
      else none)
    fuel

/-- The method `find`. -/
def find [DecidableEq Key] (GetKey : Item → Key) (Hash : Key → Nat) (fuel : Nat) (s : ArrayLookup)
    (array : Int → Item) (key : Key) : Option Int :=
  ITER_SLOTS Hash s key
    (fun _ state =>
      if state = SLOT_EMPTY then some (-1)
      else if state = SLOT_DUMMY then none
      else if GetKey (array state) = key then some state
      else none)
    fuel

/-- Successive calls `add_new(array, i)` for the indices of a list, in order. -/
def add_new_list (GetKey : Item → Key) (Hash : Key → Nat) (fuel : Nat) (s : ArrayLookup)
    (array : Int → Item) (indices : List Nat) : Option ArrayLookup :=
  indices.foldlM (fun st i => add_new GetKey Hash fuel st array i) s

end Operations

/-! ## Notions used to state and prove the properties -/

section Notions

variable {Key Item : Type}

/-- The slot and perturbation after `n` applications of `next_slot`. -/
def probe (s : ArrayLookup) (p : Nat × Nat) (n : Nat) : Nat × Nat :=
  (fun q => next_slot s q.1 q.2)^[n] p

/-- The `n`-th slot probed for `key`: `first_slot` followed by `n` times `next_slot`. -/
def slot_at (Hash : Key → Nat) (s : ArrayLookup) (key : Key) (n : Nat) : Nat :=
  (probe s (first_slot Hash s key) n).1

/-- The shape of the mapping table that `reset_map` establishes: its size is a power of two that
fits a `uint`, and `m_slot_mask` is the size minus one. -/
def WF (s : ArrayLookup) : Prop :=
  ∃ k, k ≤ 31 ∧ s.m_map.length = 2 ^ k ∧ s.m_slot_mask = 2 ^ k - 1

/-- The set of the slots of the mapping table that are not `SLOT_EMPTY`. -/
def non_empty_slots (s : ArrayLookup) : Finset Nat :=
  (Finset.range s.m_map.length).filter (fun i => s.m_map[i]? ≠ some SLOT_EMPTY)

/-- The consistency of a mapping table with the set `R` of recorded array indices: the table is
well formed, the recorded indices fit the signed slot type and have pairwise-distinct keys, every
slot is empty, a tombstone or a recorded index, every recorded index is met on the probe sequence
of its key before any empty slot, and no index is stored twice. -/
structure Core (GetKey : Item → Key) (Hash : Key → Nat) (array : Int → Item) (s : ArrayLookup)
    (R : Finset Nat) : Prop where
  wf : WF s
  lt : ∀ i ∈ R, i < 2 ^ 31
  inj : ∀ i ∈ R, ∀ j ∈ R, GetKey (array (i : Int)) = GetKey (array (j : Int)) → i = j
  slots : ∀ (slot : Nat) (st : Int), s.m_map[slot]? = some st →
    st = SLOT_EMPTY ∨ st = SLOT_DUMMY ∨ ∃ i ∈ R, st = (i : Int)
  path : ∀ i ∈ R, ∃ n, s.m_map[slot_at Hash s (GetKey (array (i : Int))) n]? = some (i : Int) ∧
    ∀ m, m < n → s.m_map[slot_at Hash s (GetKey (array (i : Int))) m]? ≠ some SLOT_EMPTY ∧
      s.m_map[slot_at Hash s (GetKey (array (i : Int))) m]? ≠ some (i : Int)
  uniq : ∀ (a b i : Nat), i ∈ R → s.m_map[a]? = some (i : Int) →
    s.m_map[b]? = some (i : Int) → a = b

/-- The states of an `ArrayLookup` that its callers can reach, together with the array and the
set `R` of array indices recorded in the lookup.  The calls meet the preconditions of the
methods: `add_new` is called for a new index below `2 ^ 31` whose key is new, and, because the
rebuild in `ensure_can_add` reinserts the indices `0, ..., m_length - 1`, a call that has to grow
the table is made when exactly these indices are recorded; `remove` is called for a recorded
index with its key; `update_index` replaces a recorded index by an unrecorded one whose array
element has the same key.  Between calls the caller may change the array at indices that are
not recorded. -/
inductive Reachable (GetKey : Item → Key) (Hash : Key → Nat) (N_EXP : Nat) :
    (Int → Item) → ArrayLookup → Finset Nat → Prop
  | construct {array : Int → Item} {s : ArrayLookup} :
      ArrayLookup.construct N_EXP = some s → Reachable GetKey Hash N_EXP array s ∅
  | add_new {array : Int → Item} {s s' : ArrayLookup} {R : Finset Nat} {index fuel : Nat} :
      Reachable GetKey Hash N_EXP array s R → index ∉ R → index < 2 ^ 31 →
      (∀ j ∈ R, GetKey (array (j : Int)) ≠ GetKey (array (index : Int))) →
      (s.m_usable_slots = 0 → R = Finset.range s.m_length) →
      BLI.add_new GetKey Hash fuel s array index = some s' →
      Reachable GetKey Hash N_EXP array s' (insert index R)
  | remove {array : Int → Item} {s s' : ArrayLookup} {R : Finset Nat} {index fuel : Nat} :
      Reachable GetKey Hash N_EXP array s R → index ∈ R →
      BLI.remove Hash fuel s (GetKey (array (index : Int))) index = some s' →
      Reachable GetKey Hash N_EXP array s' (R.erase index)
  | update_index {array : Int → Item} {s s' : ArrayLookup} {R : Finset Nat}
      {old_index new_index fuel : Nat} :
      Reachable GetKey Hash N_EXP array s R → old_index ∈ R → new_index ∉ R →
      new_index < 2 ^ 31 →
      GetKey (array (new_index : Int)) = GetKey (array (old_index : Int)) →
      BLI.update_index Hash fuel s (GetKey (array (old_index : Int))) old_index new_index =
        some s' →
      Reachable GetKey Hash N_EXP array s' (insert new_index (R.erase old_index))
  | array_changed {array array' : Int → Item} {s : ArrayLookup} {R : Finset Nat} :
      Reachable GetKey Hash N_EXP array s R →
      (∀ i ∈ R, GetKey (array' (i : Int)) = GetKey (array (i : Int))) →
      Reachable GetKey Hash N_EXP array' s R

/-- The set of the Occupied slots of the mapping table: the slots whose value is neither
`SLOT_EMPTY` nor `SLOT_DUMMY`. -/
def occupied_slots (s : ArrayLookup) : Finset Nat :=
  (Finset.range s.m_map.length).filter
    (fun i => s.m_map[i]? ≠ some SLOT_EMPTY ∧ s.m_map[i]? ≠ some SLOT_DUMMY)

/-- The set of the Tombstone slots of the mapping table: the slots that hold `SLOT_DUMMY`. -/
def tombstone_slots (s : ArrayLookup) : Finset Nat :=
  (Finset.range s.m_map.length).filter (fun i => s.m_map[i]? = some SLOT_DUMMY)

/-- The insert budget `(uint)(LOAD_FACTOR * size)` that `reset_map` gives a table of `size`
slots, for the `float` constant `LOAD_FACTOR = 0.6f = 10066330 / 2 ^ 24`. -/
def load_capacity (size : Nat) : Nat := size * 10066330 / 2 ^ 24

/-- One call of a method that changes the lookup and returns.  The indices passed to the call
are below `bound`; calls of `add_new_range` are included when `with_range` is `true`.  Nothing
else is required of the arguments: the array, the keys and the amounts are arbitrary. -/
inductive Step (GetKey : Item → Key) (Hash : Key → Nat) (bound : Nat) (with_range : Bool) :
    ArrayLookup → ArrayLookup → Prop
  | ensure_can_add {s s' : ArrayLookup} (fuel : Nat) (array : Int → Item) (amount : Nat) :
      BLI.ensure_can_add GetKey Hash fuel s array amount = some s' →
      Step GetKey Hash bound with_range s s'
  | add_new {s s' : ArrayLookup} (fuel : Nat) (array : Int → Item) (index : Nat) :
      index < bound → BLI.add_new GetKey Hash fuel s array index = some s' →
      Step GetKey Hash bound with_range s s'
  | add_new_range {s s' : ArrayLookup} (fuel : Nat) (array : Int → Item)
      (start stop index : Nat) :
      with_range = true → stop ≤ bound →
      BLI.add_new_range GetKey Hash fuel s array start stop index = some s' →
      Step GetKey Hash bound with_range s s'
  | remove {s s' : ArrayLookup} (fuel : Nat) (key : Key) (index : Nat) :
      index < bound → BLI.remove Hash fuel s key index = some s' →
      Step GetKey Hash bound with_range s s'
  | update_index {s s' : ArrayLookup} (fuel : Nat) (key : Key) (old_index new_index : Nat) :
      old_index < bound → new_index < bound →
      BLI.update_index Hash fuel s key old_index new_index = some s' →
      Step GetKey Hash bound with_range s s'

/-- The states that a freshly constructed `ArrayLookup` reaches by a sequence of calls of its
methods, see `Step`. -/
inductive Reached (GetKey : Item → Key) (Hash : Key → Nat) (N_EXP bound : Nat)
    (with_range : Bool) : ArrayLookup → Prop
  | construct {s : ArrayLookup} :
      ArrayLookup.construct N_EXP = some s → Reached GetKey Hash N_EXP bound with_range s
  | step {s s' : ArrayLookup} :
      Reached GetKey Hash N_EXP bound with_range s → Step GetKey Hash bound with_range s s' →
      Reached GetKey Hash N_EXP bound with_range s'

/-- The slot values of a table whose Occupied slots store indices below `2 ^ 31`: every slot
holds `SLOT_EMPTY`, `SLOT_DUMMY` or a non-negative value below `2 ^ 31`. -/
def SlotRange (s : ArrayLookup) : Prop :=
  ∀ st ∈ s.m_map, -2 ≤ st ∧ st < 2 ^ 31

end Notions

/-! ## Concrete inputs -/

/-- The function `get_key_from_item`, the default of the template parameter `GetKey`. -/
def get_key_from_item {T : Type} (item : T) : T := item

/-- A hash function on `int` keys: a non-negative key is its own hash value. -/
def int_hash (key : Int) : Nat := key.toNat

/-- A hash function on `int` keys with two hash values: `0` for the key `0` and `1` for
every other key. -/
def zero_one_hash (key : Int) : Nat := if key = 0 then 0 else 1

/-- The array whose item at index `i` is `i`. -/
def items_identity : Int → Int := fun i => i

/-- The array whose item at index `i` is `2 * i`. -/
def items_even : Int → Int := fun i => 2 * i

/-- The array whose item at index `i` is `i`, except that the item at index `7` is `0`. -/
def items_relocated : Int → Int := fun i => if i = 7 then 0 else i

/-- The lookup that the constructor yields for the default `N_EXP = 3`. -/
def default_lookup : ArrayLookup :=
  { m_map := [-1, -1, -1, -1, -1, -1, -1, -1], m_usable_slots := 4, m_length := 0,
    m_slot_mask := 7 }

/-- The default lookup after `add_new(array, 0)` and `add_new(array, 1)` for items that are
their own keys and hash values. -/
def lookup_two_items : ArrayLookup :=
  { m_map := [0, 1, -1, -1, -1, -1, -1, -1], m_usable_slots := 2, m_length := 2,
    m_slot_mask := 7 }

/-- The default lookup after `add_new(array, 0), ..., add_new(array, 3)` for the array
`items_even` and the hash function `int_hash`: the keys `0, 2, 4, 6` fill the even slots. -/
def lookup_even_four : ArrayLookup :=
  { m_map := [0, -1, 1, -1, 2, -1, 3, -1], m_usable_slots := 0, m_length := 4,
    m_slot_mask := 7 }

/-- The default lookup after `add_new(array, 0), ..., add_new(array, 7)` for the array
`items_even` and the hash function `int_hash`: the keys `0, 2, ..., 14` fill the even slots of
the grown table. -/
def lookup_even_eight : ArrayLookup :=
  { m_map := [0, -1, 1, -1, 2, -1, 3, -1, 4, -1, 5, -1, 6, -1, 7, -1], m_usable_slots := 1,
    m_length := 8, m_slot_mask := 15 }

/-- The default lookup after `add_new(array, 0), ..., add_new(array, 3)` for the array
`items_identity` and the hash function `int_hash`. -/
def lookup_four : ArrayLookup :=
  { m_map := [0, 1, 2, 3, -1, -1, -1, -1], m_usable_slots := 0, m_length := 4,
    m_slot_mask := 7 }

/-- The default lookup after `add_new(array, 1), ..., add_new(array, 4)` for the array
`items_identity` and the hash function `int_hash`. -/
def lookup_shifted : ArrayLookup :=
  { m_map := [-1, 1, 2, 3, 4, -1, -1, -1], m_usable_slots := 0, m_length := 4,
    m_slot_mask := 7 }

/-- The table of sixteen slots that stores the indices `0, 1, 2, 3` in the slots of the same
number, with `m_usable_slots = 9 - 4`. -/
def lookup_rebuilt : ArrayLookup :=
  { m_map := [0, 1, 2, 3, -1, -1, -1, -1, -1, -1, -1, -1, -1, -1, -1, -1],
    m_usable_slots := 5, m_length := 4, m_slot_mask := 15 }

/-- The default lookup after `add_new` of the indices `4, 3, 2, 1, 0`, in this order, for items
that are their own keys and hash values: the rebuild during the fifth call has reinserted the
indices `0, ..., 3`, and the fifth call has stored index `0` a second time. -/
def lookup_out_of_order : ArrayLookup :=
  { m_map := [0, 1, 2, 3, -1, -1, 0, -1, -1, -1, -1, -1, -1, -1, -1, -1],
    m_usable_slots := 4, m_length := 5, m_slot_mask := 15 }

/-- The lookup that the constructor yields for `N_EXP = 0`: one slot and no insert budget. -/
def single_slot_lookup : ArrayLookup :=
  { m_map := [-1], m_usable_slots := 0, m_length := 0, m_slot_mask := 0 }

/-- The default lookup after `add_new(array, 0)` for items that are their own keys and hash
values. -/
def lookup_one_item : ArrayLookup :=
  { m_map := [0, -1, -1, -1, -1, -1, -1, -1], m_usable_slots := 3, m_length := 1,
    m_slot_mask := 7 }

/-- The lookup `lookup_one_item` after `remove(0, 0)`. -/
def lookup_one_removed : ArrayLookup :=
  { m_map := [-2, -1, -1, -1, -1, -1, -1, -1], m_usable_slots := 3, m_length := 0,
    m_slot_mask := 7 }

/-- The lookup `lookup_two_items` after `remove(0, 0)`. -/
def lookup_tombstone_one : ArrayLookup :=
  { m_map := [-2, 1, -1, -1, -1, -1, -1, -1], m_usable_slots := 2, m_length := 1,
    m_slot_mask := 7 }

/-- The default lookup after `add_new(array, 4294967295)` for items that are their own keys and
hash values: the slot value `(State)4294967295` is `-1`, so the table is as before. -/
def lookup_max_index : ArrayLookup :=
  { m_map := [-1, -1, -1, -1, -1, -1, -1, -1], m_usable_slots := 3, m_length := 1,
    m_slot_mask := 7 }

/-- The default lookup after `add_new(array, 4294967294)` for items that are their own keys and
hash values: the slot value `(State)4294967294` is `-2`. -/
def lookup_dummy_index : ArrayLookup :=
  { m_map := [-1, -1, -1, -1, -1, -1, -2, -1], m_usable_slots := 3, m_length := 1,
    m_slot_mask := 7 }

end BLI

/-! ## The type descriptors of `cpp_type_info.hpp` -/

namespace FN

/-- The template parameter `T` of `CPPTypeInfoForType<T>`, given by what the methods of the class
use of it: `sizeof(T)`, and the effect on the memory of the default constructor
`new (ptr) T()`, of the copy assignment `*dst = *src`, of the copy constructor
`new (dst) T(*src)` and of the one-element helpers `BLI::destruct(ptr)`,
`BLI::relocate(src, dst)` and `BLI::uninitialized_relocate(src, dst)`.  An address is a number
of bytes; the operations with two addresses take the source first. -/
structure ElementType (Memory : Type) where
  size : Nat
  default_constructor : Nat → Memory → Memory
  copy_assignment : Nat → Nat → Memory → Memory
  copy_constructor : Nat → Nat → Memory → Memory
  destruct : Nat → Memory → Memory
  relocate : Nat → Nat → Memory → Memory
  uninitialized_relocate : Nat → Nat → Memory → Memory

/-- The loop `for (uint i = ...; i < n; i++) body(i)`, entered with the counter at `i`. -/
def for_uint {Memory : Type} (n : Nat) (body : Nat → Memory → Memory) (i : Nat)
    (mem : Memory) : Memory :=
  if i < n then for_uint n body (i + 1) (body i mem) else mem
termination_by n - i

/-- Modelled from the spec: "invoking the unbatched operation `n` times in order", where
`single i` is the unbatched operation on slot `i` of the buffer, for the slots
`0, 1, ..., n - 1`. -/
def invoke_in_order {Memory : Type} (n : Nat) (single : Nat → Memory → Memory)
    (mem : Memory) : Memory :=
  (List.range n).foldl (fun m i => single i m) mem

end FN

namespace BLI

variable {Memory : Type}

/-- Modelled from the spec: the helper `BLI::descruct_n(ptr, n)` that `destruct_n` calls is not
part of the sources at hand; by the spec a batched operation applies the one-element operation
to `n` contiguous slots in order. -/
def descruct_n (T : FN.ElementType Memory) (ptr n : Nat) (mem : Memory) : Memory :=
  FN.for_uint n (fun i => T.destruct (ptr + i * T.size)) 0 mem

/-- Modelled from the spec: the helper `BLI::copy_n(src, n, dst)` that `copy_to_initialized_n`
calls is not part of the sources at hand; it assigns slot `i` of the source to slot `i` of the
destination, for `n` contiguous slots in order. -/
def copy_n (T : FN.ElementType Memory) (src n dst : Nat) (mem : Memory) : Memory :=
  FN.for_uint n (fun i => T.copy_assignment (src + i * T.size) (dst + i * T.size)) 0 mem

/-- Modelled from the spec: the helper `BLI::uninitialized_copy_n(src, n, dst)` that
`copy_to_uninitialized_n` calls is not part of the sources at hand; it copy-constructs slot `i`
of the destination from slot `i` of the source, for `n` contiguous slots in order. -/
def uninitialized_copy_n (T : FN.ElementType Memory) (src n dst : Nat) (mem : Memory) :
    Memory :=
  FN.for_uint n (fun i => T.copy_constructor (src + i * T.size) (dst + i * T.size)) 0 mem

/-- Modelled from the spec: the helper `BLI::relocate_n(src, n, dst)` that
`relocate_to_initialized_n` calls is not part of the sources at hand; it relocates slot `i` of
the source to slot `i` of the destination, for `n` contiguous slots in order. -/
def relocate_n (T : FN.ElementType Memory) (src n dst : Nat) (mem : Memory) : Memory :=
  FN.for_uint n (fun i => T.relocate (src + i * T.size) (dst + i * T.size)) 0 mem

/-- Modelled from the spec: the helper `BLI::uninitialized_relocate_n(src, n, dst)` that
`relocate_to_uninitialized_n` calls is not part of the sources at hand; it relocates slot `i`
of the source to the uninitialized slot `i` of the destination, for `n` contiguous slots in
order. -/
def uninitialized_relocate_n (T : FN.ElementType Memory) (src n dst : Nat) (mem : Memory) :
    Memory :=
  FN.for_uint n
    (fun i => T.uninitialized_relocate (src + i * T.size) (dst + i * T.size)) 0 mem

end BLI

namespace FN

namespace CPPTypeInfoForType

variable {Memory : Type}

/-- The method `construct_default`: `new (ptr) T()`. -/
def construct_default (T : ElementType Memory) (ptr : Nat) (mem : Memory) : Memory :=
  T.default_constructor ptr mem

/-- The method `construct_default_n`: the loop over `i < n` of `new (ptr_ + i) T()`, where
`ptr_ + i` is the address `ptr + i * sizeof(T)`. -/
def construct_default_n (T : ElementType Memory) (ptr n : Nat) (mem : Memory) : Memory :=
  for_uint n (fun i => T.default_constructor (ptr + i * T.size)) 0 mem

/-- The method `destruct`. -/
def destruct (T : ElementType Memory) (ptr : Nat) (mem : Memory) : Memory :=
  T.destruct ptr mem

/-- The method `destruct_n`. -/
def destruct_n (T : ElementType Memory) (ptr n : Nat) (mem : Memory) : Memory :=
  BLI.descruct_n T ptr n mem

/-- The method `copy_to_initialized`: `*dst_ = *src_`. -/
def copy_to_initialized (T : ElementType Memory) (src dst : Nat) (mem : Memory) : Memory :=
  T.copy_assignment src dst mem

/-- The method `copy_to_initialized_n`. -/
def copy_to_initialized_n (T : ElementType Memory) (src dst n : Nat) (mem : Memory) : Memory :=
  BLI.copy_n T src n dst mem

/-- The method `copy_to_uninitialized`: `new (dst) T(src_)`. -/
def copy_to_uninitialized (T : ElementType Memory) (src dst : Nat) (mem : Memory) : Memory :=
  T.copy_constructor src dst mem

/-- The method `copy_to_uninitialized_n`. -/
def copy_to_uninitialized_n (T : ElementType Memory) (src dst n : Nat) (mem : Memory) :
    Memory :=
  BLI.uninitialized_copy_n T src n dst mem

/-- The method `relocate_to_initialized`. -/
def relocate_to_initialized (T : ElementType Memory) (src dst : Nat) (mem : Memory) : Memory :=
  T.relocate src dst mem

/-- The method `relocate_to_initialized_n`. -/
def relocate_to_initialized_n (T : ElementType Memory) (src dst n : Nat) (mem : Memory) :
    Memory :=
  BLI.relocate_n T src n dst mem

/-- The method `relocate_to_uninitialized`. -/
def relocate_to_uninitialized (T : ElementType Memory) (src dst : Nat) (mem : Memory) :
    Memory :=
  T.uninitialized_relocate src dst mem

/-- The method `relocate_to_uninitialized_n`. -/
def relocate_to_uninitialized_n (T : ElementType Memory) (src dst n : Nat) (mem : Memory) :
    Memory :=
  BLI.uninitialized_relocate_n T src n dst mem

end CPPTypeInfoForType

end FN

namespace BLI

/-! ## Conversions between `Index` and `State` -/

theorem to_state_of_lt {i : Nat} (h : i < 2 ^ 31) : to_state i = (i : Int) := by
  have h1 : i % 2 ^ 32 = i := Nat.mod_eq_of_lt (by omega)
  unfold to_state
  rw [h1, if_pos h]

theorem to_index_natCast {i : Nat} (h : i < 2 ^ 32) : to_index (i : Int) = i := by
  unfold to_index
  have : ((i : Int) % 2 ^ 32) = (i : Int) := Int.emod_eq_of_lt (by omega) (by omega)
  rw [this]; simp

theorem to_index_empty : to_index SLOT_EMPTY = 2 ^ 32 - 1 := by decide

theorem to_index_dummy : to_index SLOT_DUMMY = 2 ^ 32 - 2 := by decide

/-! ## The probe sequence -/

section Probe

variable {Key Item : Type}

theorem probe_zero (s : ArrayLookup) (p : Nat × Nat) : probe s p 0 = p := rfl

theorem probe_succ (s : ArrayLookup) (p : Nat × Nat) (n : Nat) :
    probe s p (n + 1) = probe s (next_slot s p.1 p.2) n := by
  simp [probe, Function.iterate_succ_apply]

theorem probe_succ_last (s : ArrayLookup) (p : Nat × Nat) (n : Nat) :
    probe s p (n + 1) = next_slot s (probe s p n).1 (probe s p n).2 := by
  simp [probe, Function.iterate_succ_apply']

theorem probe_add (s : ArrayLookup) (p : Nat × Nat) (a b : Nat) :
    probe s p (a + b) = probe s (probe s p a) b := by
  simp [probe, Nat.add_comm a b, Function.iterate_add_apply]

theorem next_slot_congr {s t : ArrayLookup} (h : s.m_slot_mask = t.m_slot_mask)
    (slot perturb : Nat) : next_slot s slot perturb = next_slot t slot perturb := by
  simp [next_slot, h]

theorem probe_congr {s t : ArrayLookup} (h : s.m_slot_mask = t.m_slot_mask)
    (p : Nat × Nat) (n : Nat) : probe s p n = probe t p n := by
  induction n generalizing p with
  | zero => rfl
  | succ n ih => rw [probe_succ, probe_succ, next_slot_congr h, ih]

theorem slot_at_congr (Hash : Key → Nat) {s t : ArrayLookup}
    (h : s.m_slot_mask = t.m_slot_mask) (key : Key) (n : Nat) :
    slot_at Hash s key n = slot_at Hash t key n := by
  simp [slot_at, first_slot, h, probe_congr h]

/-- The loop `ITER_SLOTS` leaves with `r` exactly when some probed slot makes the body leave with
`r`, every earlier probed slot makes it continue, and the fuel covers these iterations. -/
theorem ITER_SLOTS_from_eq_some_iff {β : Type} (s : ArrayLookup) (body : Nat → Int → Option β)
    (fuel : Nat) (p : Nat × Nat) (r : β) :
    ITER_SLOTS_from s body fuel p.1 p.2 = some r ↔
      ∃ n, n < fuel ∧
        (∀ m, m < n → ∃ st, s.m_map[(probe s p m).1]? = some st ∧
          body (probe s p m).1 st = none) ∧
        ∃ st, s.m_map[(probe s p n).1]? = some st ∧ body (probe s p n).1 st = some r := by
  induction fuel generalizing p with
  | zero => simp [ITER_SLOTS_from]
  | succ fuel ih =>
    rw [ITER_SLOTS_from]
    constructor
    · intro h
      cases hst : s.m_map[p.1]? with
      | none => simp [hst] at h
      | some st =>
        rw [hst] at h
        cases hb : body p.1 st with
        | some r' =>
          simp only [hb, Option.some.injEq] at h
          subst h
          exact ⟨0, Nat.succ_pos _, by simp, st, by simpa [probe_zero] using hst, by
            simpa [probe_zero] using hb⟩
        | none =>
          simp only [hb] at h
          obtain ⟨n, hn, hpre, hlast⟩ := (ih (next_slot s p.1 p.2)).1 h
          refine ⟨n + 1, Nat.succ_lt_succ hn, ?_, ?_⟩
          · intro m hm
            cases m with
            | zero => exact ⟨st, by simpa [probe_zero] using hst, by simpa [probe_zero] using hb⟩
            | succ m =>
              rw [probe_succ]
              exact hpre m (by omega)
          · rw [probe_succ]; exact hlast
    · rintro ⟨n, hn, hpre, st, hst, hb⟩
      cases n with
      | zero =>
        rw [probe_zero] at hst hb
        simp [hst, hb]
      | succ n =>
        obtain ⟨st0, hst0, hb0⟩ := hpre 0 (Nat.succ_pos _)
        rw [probe_zero] at hst0 hb0
        simp only [hst0, hb0]
        apply (ih (next_slot s p.1 p.2)).2
        refine ⟨n, by omega, ?_, st, ?_, ?_⟩
        · intro m hm
          have := hpre (m + 1) (by omega)
          rwa [probe_succ] at this
        · rwa [probe_succ] at hst
        · rwa [probe_succ] at hb

theorem ITER_SLOTS_eq_some_iff {β : Type} (Hash : Key → Nat) (s : ArrayLookup) (key : Key)
    (body : Nat → Int → Option β) (fuel : Nat) (r : β) :
    ITER_SLOTS Hash s key body fuel = some r ↔
      ∃ n, n < fuel ∧
        (∀ m, m < n → ∃ st, s.m_map[slot_at Hash s key m]? = some st ∧
          body (slot_at Hash s key m) st = none) ∧
        ∃ st, s.m_map[slot_at Hash s key n]? = some st ∧
          body (slot_at Hash s key n) st = some r := by
  unfold ITER_SLOTS slot_at
  exact ITER_SLOTS_from_eq_some_iff s body fuel (first_slot Hash s key) r

/-- More fuel does not change a result. -/
theorem ITER_SLOTS_mono {β : Type} (Hash : Key → Nat) (s : ArrayLookup) (key : Key)
    (body : Nat → Int → Option β) {fuel fuel' : Nat} (hle : fuel ≤ fuel') {r : β}
    (h : ITER_SLOTS Hash s key body fuel = some r) :
    ITER_SLOTS Hash s key body fuel' = some r := by
  rw [ITER_SLOTS_eq_some_iff] at h ⊢
  obtain ⟨n, hn, rest⟩ := h
  exact ⟨n, by omega, rest⟩

end Probe

section WellFormed

variable {Key Item : Type}

theorem non_empty_slots_congr {s t : ArrayLookup} (h : t.m_map = s.m_map) :
    non_empty_slots t = non_empty_slots s := by
  unfold non_empty_slots
  rw [h]

theorem first_slot_fst (Hash : Key → Nat) {s : ArrayLookup} {k : Nat} (hk : k ≤ 31)
    (hm : s.m_slot_mask = 2 ^ k - 1) (key : Key) :
    (first_slot Hash s key).1 = Hash key % 2 ^ k := by
  simp only [first_slot, hm, Nat.and_pow_two_sub_one_eq_mod]
  exact Nat.mod_mod_of_dvd _ (Nat.pow_dvd_pow 2 (by omega))

theorem first_slot_snd_lt (Hash : Key → Nat) (s : ArrayLookup) (key : Key) :
    (first_slot Hash s key).2 < 2 ^ 32 := by
  simp only [first_slot]
  exact Nat.mod_lt _ (by norm_num)

theorem next_slot_fst {s : ArrayLookup} {k : Nat} (hk : k ≤ 31)
    (hm : s.m_slot_mask = 2 ^ k - 1) (slot perturb : Nat) :
    (next_slot s slot perturb).1 = (slot + 6 + perturb) % 2 ^ k := by
  simp only [next_slot, hm]
  rw [Nat.land_comm, Nat.and_pow_two_sub_one_eq_mod,
    Nat.mod_mod_of_dvd _ (Nat.pow_dvd_pow 2 (by omega : k ≤ 32))]
  congr 1; omega

theorem next_slot_snd (s : ArrayLookup) (slot perturb : Nat) :
    (next_slot s slot perturb).2 = perturb / 32 := by
  simp [next_slot, PERTURB_SHIFT, Nat.shiftRight_eq_div_pow]

theorem probe_snd (s : ArrayLookup) (p : Nat × Nat) (n : Nat) :
    (probe s p n).2 = p.2 / 32 ^ n := by
  induction n with
  | zero => simp [probe_zero]
  | succ n ih =>
    rw [probe_succ_last, next_slot_snd, ih, Nat.div_div_eq_div_mul, pow_succ]

theorem probe_snd_eq_zero (s : ArrayLookup) {p : Nat × Nat} (hp : p.2 < 2 ^ 32) {n : Nat}
    (hn : 7 ≤ n) : (probe s p n).2 = 0 := by
  rw [probe_snd]
  apply Nat.div_eq_of_lt
  calc p.2 < 2 ^ 32 := hp
    _ ≤ 32 ^ 7 := by norm_num
    _ ≤ 32 ^ n := Nat.pow_le_pow_right (by norm_num) hn

theorem probe_fst_lt {s : ArrayLookup} (hwf : WF s) (p : Nat × Nat) {n : Nat} (hn : 0 < n) :
    (probe s p n).1 < s.m_map.length := by
  obtain ⟨k, hk, hlen, hm⟩ := hwf
  obtain ⟨n, rfl⟩ := Nat.exists_eq_succ_of_ne_zero (Nat.pos_iff_ne_zero.1 hn)
  rw [probe_succ_last, next_slot_fst hk hm, hlen]
  exact Nat.mod_lt _ (by positivity)

theorem slot_at_lt (Hash : Key → Nat) {s : ArrayLookup} (hwf : WF s) (key : Key) (n : Nat) :
    slot_at Hash s key n < s.m_map.length := by
  cases n with
  | zero =>
    obtain ⟨k, hk, hlen, hm⟩ := hwf
    simp only [slot_at, probe_zero]
    rw [first_slot_fst Hash hk hm, hlen]
    exact Nat.mod_lt _ (by positivity)
  | succ n => exact probe_fst_lt hwf _ (Nat.succ_pos _)

/-- Once the perturbation is used up, the probe sequence advances by six slots per step. -/
theorem probe_fst_of_perturb_zero {s : ArrayLookup} {k : Nat} (hk : k ≤ 31)
    (hm : s.m_slot_mask = 2 ^ k - 1) (a : Nat) (ha : a < 2 ^ k) (j : Nat) :
    probe s (a, 0) j = ((a + 6 * j) % 2 ^ k, 0) := by
  induction j with
  | zero => simp [probe_zero, Nat.mod_eq_of_lt ha]
  | succ j ih =>
    rw [probe_succ_last, ih]
    ext
    · rw [next_slot_fst hk hm]
      simp only [Nat.add_zero]
      rw [Nat.add_mod, Nat.mod_mod, ← Nat.add_mod]
      congr 1
    · simp [next_slot_snd]

theorem six_step_injective {k : Nat} (hk : 1 ≤ k) (a : Nat) {i j : Nat}
    (hi : i < 2 ^ (k - 1)) (hj : j < 2 ^ (k - 1))
    (h : (a + 6 * i) % 2 ^ k = (a + 6 * j) % 2 ^ k) : i = j := by
  wlog hij : i ≤ j generalizing i j
  · exact (this hj hi h.symm (by omega)).symm
  have h1 : 2 ^ k ∣ (a + 6 * j) - (a + 6 * i) :=
    (Nat.modEq_iff_dvd' (by omega)).1 h
  have h2 : (a + 6 * j) - (a + 6 * i) = 2 * (3 * (j - i)) := by omega
  have h3 : 2 ^ k = 2 * 2 ^ (k - 1) := by
    obtain ⟨k, rfl⟩ := Nat.exists_eq_succ_of_ne_zero (by omega : k ≠ 0)
    simp [pow_succ, Nat.mul_comm]
  rw [h2, h3] at h1
  have h4 : 2 ^ (k - 1) ∣ 3 * (j - i) := Nat.dvd_of_mul_dvd_mul_left (by norm_num) h1
  have h5 : Nat.Coprime (2 ^ (k - 1)) 3 := Nat.Coprime.pow_left _ (by decide)
  have h6 : 2 ^ (k - 1) ∣ j - i := h5.dvd_of_dvd_mul_left h4
  have h7 : j - i = 0 := Nat.eq_zero_of_dvd_of_lt h6 (by omega)
  omega

/-- Termination of the probe: in a well-formed table in which fewer than half of the slots are
not `SLOT_EMPTY`, every probe sequence meets an empty slot. -/
theorem exists_probe_empty {s : ArrayLookup} {k : Nat} (hk1 : 1 ≤ k) (hk : k ≤ 31)
    (hlen : s.m_map.length = 2 ^ k) (hm : s.m_slot_mask = 2 ^ k - 1)
    (hcount : (non_empty_slots s).card < 2 ^ (k - 1)) (p : Nat × Nat) (hp : p.2 < 2 ^ 32) :
    ∃ n, n < 7 + 2 ^ (k - 1) ∧ s.m_map[(probe s p n).1]? = some SLOT_EMPTY := by
  have hwf : WF s := ⟨k, hk, hlen, hm⟩
  set q := probe s p 7 with hq
  have hq2 : q.2 = 0 := probe_snd_eq_zero s hp (le_refl 7)
  have hq1 : q.1 < 2 ^ k := by
    have := probe_fst_lt hwf p (n := 7) (by norm_num)
    rwa [hlen] at this
  have hqe : q = (q.1, 0) := by ext <;> simp [hq2]
  by_contra hne
  push_neg at hne
  have hsub : (Finset.range (2 ^ (k - 1))).image (fun j => (q.1 + 6 * j) % 2 ^ k) ⊆
      non_empty_slots s := by
    intro x hx
    obtain ⟨j, hj, rfl⟩ := Finset.mem_image.1 hx
    have hj' : j < 2 ^ (k - 1) := Finset.mem_range.1 hj
    have hstep := hne (7 + j) (by omega)
    rw [probe_add, ← hq, hqe, probe_fst_of_perturb_zero hk hm q.1 hq1 j] at hstep
    simp only [non_empty_slots, Finset.mem_filter, Finset.mem_range]
    exact ⟨by rw [hlen]; exact Nat.mod_lt _ (by positivity), hstep⟩
  have hcard : ((Finset.range (2 ^ (k - 1))).image (fun j => (q.1 + 6 * j) % 2 ^ k)).card =
      2 ^ (k - 1) := by
    rw [Finset.card_image_of_injOn, Finset.card_range]
    intro i hi j hj hij
    exact six_step_injective hk1 q.1 (Finset.mem_range.1 (by simpa using hi))
      (Finset.mem_range.1 (by simpa using hj)) hij
  have := Finset.card_le_card hsub
  omega

end WellFormed

section Invariant

variable {Key Item : Type}

theorem natCast_ne_empty (i : Nat) : (i : Int) ≠ SLOT_EMPTY := by
  unfold SLOT_EMPTY; omega

theorem natCast_ne_dummy (i : Nat) : (i : Int) ≠ SLOT_DUMMY := by
  unfold SLOT_DUMMY; omega

theorem Core.congr {GetKey : Item → Key} {Hash : Key → Nat} {array : Int → Item}
    {s t : ArrayLookup} {R : Finset Nat} (h : Core GetKey Hash array s R)
    (hmap : t.m_map = s.m_map) (hmask : t.m_slot_mask = s.m_slot_mask) :
    Core GetKey Hash array t R := by
  have hs : ∀ key n, slot_at Hash t key n = slot_at Hash s key n :=
    fun key n => slot_at_congr Hash hmask key n
  refine ⟨?_, h.lt, h.inj, ?_, ?_, ?_⟩
  · obtain ⟨k, hk, hlen, hm⟩ := h.wf
    exact ⟨k, hk, by rw [hmap]; exact hlen, by rw [hmask]; exact hm⟩
  · intro slot st; rw [hmap]; exact h.slots slot st
  · intro i hi
    obtain ⟨n, hn, hpre⟩ := h.path i hi
    refine ⟨n, by rw [hs, hmap]; exact hn, fun m hm => ?_⟩
    rw [hs, hmap]; exact hpre m hm
  · intro a b i hi; rw [hmap]; exact h.uniq a b i hi

theorem Core.array_congr {GetKey : Item → Key} {Hash : Key → Nat} {array array' : Int → Item}
    {s : ArrayLookup} {R : Finset Nat} (h : Core GetKey Hash array s R)
    (hkeys : ∀ i ∈ R, GetKey (array' (i : Int)) = GetKey (array (i : Int))) :
    Core GetKey Hash array' s R := by
  refine ⟨h.wf, h.lt, ?_, h.slots, ?_, h.uniq⟩
  · intro i hi j hj hij
    rw [hkeys i hi, hkeys j hj] at hij
    exact h.inj i hi j hj hij
  · intro i hi
    rw [hkeys i hi]
    exact h.path i hi

/-- No slot stores an index that is not recorded. -/
theorem Core.not_stored {GetKey : Item → Key} {Hash : Key → Nat} {array : Int → Item}
    {s : ArrayLookup} {R : Finset Nat} (h : Core GetKey Hash array s R) {i : Nat} (hi : i ∉ R)
    (a : Nat) : s.m_map[a]? ≠ some (i : Int) := by
  intro ha
  rcases h.slots a _ ha with h1 | h1 | ⟨j, hj, h1⟩
  · exact natCast_ne_empty i h1
  · exact natCast_ne_dummy i h1
  · have : i = j := by exact_mod_cast h1
    exact hi (this ▸ hj)

/-- The loop of `add_new__fast` leaves at the first probed slot that is empty and stores the
index there. -/
theorem add_new__fast_eq_some_iff (Hash : Key → Nat) (fuel : Nat) (s : ArrayLookup) (key : Key)
    (index : Nat) (s' : ArrayLookup) :
    add_new__fast Hash fuel s key index = some s' ↔
      ∃ n, n < fuel ∧
        (∀ m, m < n → ∃ st, s.m_map[slot_at Hash s key m]? = some st ∧ st ≠ SLOT_EMPTY) ∧
        s.m_map[slot_at Hash s key n]? = some SLOT_EMPTY ∧
        s' = { s with m_map := s.m_map.set (slot_at Hash s key n) (to_state index) } := by
  unfold add_new__fast
  rw [ITER_SLOTS_eq_some_iff]
  constructor
  · rintro ⟨n, hn, hpre, st, hst, hb⟩
    refine ⟨n, hn, ?_, ?_, ?_⟩
    · intro m hm
      obtain ⟨st', hst', hb'⟩ := hpre m hm
      refine ⟨st', hst', ?_⟩
      intro h; simp [h] at hb'
    · by_cases h : st = SLOT_EMPTY
      · rw [hst, h]
      · simp [h] at hb
    · by_cases h : st = SLOT_EMPTY
      · simp only [h, if_true, Option.some.injEq] at hb
        exact hb.symm
      · simp [h] at hb
  · rintro ⟨n, hn, hpre, hst, rfl⟩
    refine ⟨n, hn, ?_, SLOT_EMPTY, hst, by simp⟩
    intro m hm
    obtain ⟨st', hst', hne⟩ := hpre m hm
    exact ⟨st', hst', by simp [hne]⟩

theorem insert_index_eq_add_new__fast (Hash : Key → Nat) (fuel : Nat) (s : ArrayLookup)
    (key : Key) (index : Nat) :
    insert_index Hash fuel s key index = add_new__fast Hash fuel s key index := rfl

/-- Storing an unrecorded index at the first empty slot of its key's probe sequence keeps the
table consistent. -/
theorem Core.insert_step {GetKey : Item → Key} {Hash : Key → Nat} {array : Int → Item}
    {s s' : ArrayLookup} {R : Finset Nat} (h : Core GetKey Hash array s R) {i : Nat}
    (hi : i ∉ R) (hlt : i < 2 ^ 31)
    (hkey : ∀ j ∈ R, GetKey (array (j : Int)) ≠ GetKey (array (i : Int))) {fuel : Nat}
    (hadd : add_new__fast Hash fuel s (GetKey (array (i : Int))) i = some s') :
    Core GetKey Hash array s' (insert i R) := by
  obtain ⟨n, -, hpre, hn, rfl⟩ := (add_new__fast_eq_some_iff Hash fuel s _ i s').1 hadd
  rw [to_state_of_lt hlt]
  set slot := slot_at Hash s (GetKey (array (i : Int))) n with hslot
  have hs : ∀ key m, slot_at Hash { s with m_map := s.m_map.set slot (i : Int) } key m =
      slot_at Hash s key m := fun key m => slot_at_congr Hash rfl key m
  have hslotlt : slot < s.m_map.length := slot_at_lt Hash h.wf _ n
  have hget : ∀ a, (s.m_map.set slot (i : Int))[a]? =
      if slot = a then some (i : Int) else s.m_map[a]? := by
    intro a
    rw [List.getElem?_set]
    simp [hslotlt]
  refine ⟨?_, ?_, ?_, ?_, ?_, ?_⟩
  · obtain ⟨k, hk, hlen, hm⟩ := h.wf
    exact ⟨k, hk, by simpa using hlen, hm⟩
  · intro j hj
    rcases Finset.mem_insert.1 hj with rfl | hj
    · exact hlt
    · exact h.lt j hj
  · intro a ha b hb hab
    rcases Finset.mem_insert.1 ha with ha' | ha' <;>
      rcases Finset.mem_insert.1 hb with hb' | hb'
    · rw [ha', hb']
    · rw [ha'] at hab; exact absurd hab.symm (hkey b hb')
    · rw [hb'] at hab; exact absurd hab (hkey a ha')
    · exact h.inj a ha' b hb' hab
  · intro a st hst
    simp only [hget] at hst
    by_cases hsa : slot = a
    · simp only [hsa, if_true, Option.some.injEq] at hst
      exact Or.inr (Or.inr ⟨i, Finset.mem_insert_self _ _, hst.symm⟩)
    · simp only [hsa, if_false] at hst
      rcases h.slots a st hst with h1 | h1 | ⟨j, hj, h1⟩
      · exact Or.inl h1
      · exact Or.inr (Or.inl h1)
      · exact Or.inr (Or.inr ⟨j, Finset.mem_insert_of_mem hj, h1⟩)
  · intro j hj
    rcases Finset.mem_insert.1 hj with rfl | hj
    · refine ⟨n, ?_, ?_⟩
      · simp only [hs, hget]; simp [← hslot]
      · intro m hm
        simp only [hs, hget]
        obtain ⟨st, hst, hne⟩ := hpre m hm
        have hsm : slot ≠ slot_at Hash s (GetKey (array (j : Int))) m := by
          intro heq
          rw [← heq, hn] at hst
          exact hne (Option.some.inj hst).symm
        simp only [hsm, if_false]
        refine ⟨?_, h.not_stored hi _⟩
        rw [hst]; simpa using hne
    · obtain ⟨nj, hnj, hprej⟩ := h.path j hj
      refine ⟨nj, ?_, ?_⟩
      · simp only [hs, hget]
        have hsm : slot ≠ slot_at Hash s (GetKey (array (j : Int))) nj := by
          intro heq
          rw [← heq, hn] at hnj
          exact natCast_ne_empty j (Option.some.inj hnj).symm
        simpa [hsm] using hnj
      · intro m hm
        simp only [hs, hget]
        have hsm : slot ≠ slot_at Hash s (GetKey (array (j : Int))) m := by
          intro heq
          exact (hprej m hm).1 (heq ▸ hn)
        simpa [hsm] using hprej m hm
  · intro a b j hj ha hb
    simp only [hget] at ha hb
    rcases Finset.mem_insert.1 hj with rfl | hj
    · by_cases hsa : slot = a
      · by_cases hsb : slot = b
        · exact hsa.symm.trans hsb
        · simp only [hsb, if_false] at hb
          exact absurd hb (h.not_stored hi b)
      · simp only [hsa, if_false] at ha
        exact absurd ha (h.not_stored hi a)
    · have hji : (j : Int) ≠ (i : Int) := by
        intro heq
        have : j = i := by exact_mod_cast heq
        exact hi (this ▸ hj)
      by_cases hsa : slot = a
      · simp only [hsa, if_true, Option.some.injEq] at ha
        exact absurd ha.symm hji
      · by_cases hsb : slot = b
        · simp only [hsb, if_true, Option.some.injEq] at hb
          exact absurd hb.symm hji
        · simp only [hsa, hsb, if_false] at ha hb
          exact h.uniq a b j hj ha hb

end Invariant

section Lookup

variable {Key Item : Type} [DecidableEq Key]

theorem dummy_ne_empty : SLOT_DUMMY ≠ SLOT_EMPTY := by decide

/-- Whatever `find` returns other than `-1` is the value of a probed slot that is neither empty
nor a tombstone and whose array element has the key looked for. -/
theorem find_sound (GetKey : Item → Key) (Hash : Key → Nat) (fuel : Nat) (s : ArrayLookup)
    (array : Int → Item) (key : Key) (r : Int)
    (h : find GetKey Hash fuel s array key = some r) (hr : r ≠ -1) :
    (∃ n, s.m_map[slot_at Hash s key n]? = some r) ∧ r ≠ SLOT_EMPTY ∧ r ≠ SLOT_DUMMY ∧
      GetKey (array r) = key := by
  unfold find at h
  obtain ⟨n, -, -, st, hst, hb⟩ := (ITER_SLOTS_eq_some_iff Hash s key _ fuel r).1 h
  by_cases h1 : st = SLOT_EMPTY
  · simp only [h1, if_true, Option.some.injEq] at hb
    exact absurd hb.symm hr
  · by_cases h2 : st = SLOT_DUMMY
    · simp [h2, dummy_ne_empty] at hb
    · by_cases h3 : GetKey (array st) = key
      · simp only [h1, h2, h3, if_true, if_false, Option.some.injEq] at hb
        subst hb
        exact ⟨⟨n, hst⟩, h1, h2, h3⟩
      · simp [h1, h2, h3] at hb

/-- In a consistent table `find` returns every recorded index for its key. -/
theorem Core.find_recorded {GetKey : Item → Key} {Hash : Key → Nat} {array : Int → Item}
    {s : ArrayLookup} {R : Finset Nat} (h : Core GetKey Hash array s R) {i : Nat} (hi : i ∈ R) :
    ∃ n, ∀ fuel, n < fuel →
      find GetKey Hash fuel s array (GetKey (array (i : Int))) = some (i : Int) := by
  obtain ⟨n, hn, hpre⟩ := h.path i hi
  refine ⟨n, fun fuel hfuel => ?_⟩
  unfold find
  rw [ITER_SLOTS_eq_some_iff]
  refine ⟨n, hfuel, ?_, (i : Int), hn, ?_⟩
  · intro m hm
    have hlt := slot_at_lt Hash h.wf (GetKey (array (i : Int))) m
    obtain ⟨h1, h2⟩ := hpre m hm
    refine ⟨s.m_map[slot_at Hash s (GetKey (array (i : Int))) m], by simp [hlt], ?_⟩
    have hget : s.m_map[slot_at Hash s (GetKey (array (i : Int))) m]? =
        some s.m_map[slot_at Hash s (GetKey (array (i : Int))) m] := by simp [hlt]
    rw [hget] at h1 h2
    rcases h.slots _ _ hget with h3 | h3 | ⟨j, hj, h3⟩
    · rw [h3] at h1; exact absurd rfl h1
    · simp [h3, SLOT_DUMMY, SLOT_EMPTY]
    · rw [h3] at h2 ⊢
      have hji : j ≠ i := fun heq => h2 (by rw [heq])
      have hk : GetKey (array (j : Int)) ≠ GetKey (array (i : Int)) :=
        fun heq => hji (h.inj j hj i hi heq)
      simp [natCast_ne_empty, natCast_ne_dummy, hk]
  · simp [natCast_ne_empty, natCast_ne_dummy]

/-- In a consistent table `find` returns nothing but `-1` for a key that no recorded index has. -/
theorem Core.find_absent {GetKey : Item → Key} {Hash : Key → Nat} {array : Int → Item}
    {s : ArrayLookup} {R : Finset Nat} (h : Core GetKey Hash array s R) {key : Key}
    (hkey : ∀ j ∈ R, GetKey (array (j : Int)) ≠ key) {fuel : Nat} {r : Int}
    (hf : find GetKey Hash fuel s array key = some r) : r = -1 := by
  by_contra hr
  obtain ⟨⟨n, hn⟩, h1, h2, h3⟩ := find_sound GetKey Hash fuel s array key r hf hr
  rcases h.slots _ _ hn with h4 | h4 | ⟨j, hj, h4⟩
  · exact h1 h4
  · exact h2 h4
  · rw [h4] at h3; exact hkey j hj h3

theorem contains_body_eq_none_iff (GetKey : Item → Key) (array : Int → Item) (key : Key)
    (st : Int) :
    (if st = SLOT_EMPTY then some false
      else if st = SLOT_DUMMY then none
      else if GetKey (array st) = key then some true else none) = none ↔
    (if st = SLOT_EMPTY then some (-1 : Int)
      else if st = SLOT_DUMMY then none
      else if GetKey (array st) = key then some st else none) = none := by
  by_cases h1 : st = SLOT_EMPTY
  · simp [h1]
  · by_cases h2 : st = SLOT_DUMMY
    · simp [h2, dummy_ne_empty]
    · by_cases h3 : GetKey (array st) = key <;> simp [h1, h2, h3]

theorem contains_body_eq_some_iff (GetKey : Item → Key) (array : Int → Item) (key : Key)
    (st : Int) (b : Bool) :
    (if st = SLOT_EMPTY then some false
      else if st = SLOT_DUMMY then none
      else if GetKey (array st) = key then some true else none) = some b ↔
    ∃ r, (if st = SLOT_EMPTY then some (-1 : Int)
      else if st = SLOT_DUMMY then none
      else if GetKey (array st) = key then some st else none) = some r ∧
      (b = true ↔ r ≠ -1) := by
  by_cases h1 : st = SLOT_EMPTY
  · cases b <;> simp [h1]
  · by_cases h2 : st = SLOT_DUMMY
    · simp [h2, dummy_ne_empty]
    · have h1' : st ≠ -1 := h1
      by_cases h3 : GetKey (array st) = key <;> cases b <;> simp [h1, h2, h3, h1']

/-- The results of `contains` and `find` correspond: `contains` returns `true` exactly when
`find` returns a slot value, and `false` exactly when `find` returns `-1`. -/
theorem contains_eq_some_iff (GetKey : Item → Key) (Hash : Key → Nat) (fuel : Nat)
    (s : ArrayLookup) (array : Int → Item) (key : Key) (b : Bool) :
    contains GetKey Hash fuel s array key = some b ↔
      ∃ r, find GetKey Hash fuel s array key = some r ∧ (b = true ↔ r ≠ -1) := by
  unfold contains find
  simp only [ITER_SLOTS_eq_some_iff]
  constructor
  · rintro ⟨n, hn, hpre, st, hst, hb⟩
    obtain ⟨r, hr, hbr⟩ := (contains_body_eq_some_iff GetKey array key st b).1 hb
    refine ⟨r, ⟨n, hn, ?_, st, hst, hr⟩, hbr⟩
    intro m hm
    obtain ⟨st', hst', hb'⟩ := hpre m hm
    exact ⟨st', hst', (contains_body_eq_none_iff GetKey array key st').1 hb'⟩
  · rintro ⟨r, ⟨n, hn, hpre, st, hst, hb⟩, hbr⟩
    refine ⟨n, hn, ?_, st, hst, (contains_body_eq_some_iff GetKey array key st b).2 ⟨r, hb, hbr⟩⟩
    intro m hm
    obtain ⟨st', hst', hb'⟩ := hpre m hm
    exact ⟨st', hst', (contains_body_eq_none_iff GetKey array key st').2 hb'⟩

end Lookup

section RemoveUpdate

variable {Key Item : Type}

/-- On the probe sequence of the key of a recorded index `i`, the comparison `state == index` of
`remove` and `update_index` fails at every slot before the one that stores `i`. -/
theorem Core.path_index {GetKey : Item → Key} {Hash : Key → Nat} {array : Int → Item}
    {s : ArrayLookup} {R : Finset Nat} (h : Core GetKey Hash array s R) {i : Nat} (hi : i ∈ R) :
    ∃ n, s.m_map[slot_at Hash s (GetKey (array (i : Int))) n]? = some (i : Int) ∧
      ∀ m, m < n → ∃ st, s.m_map[slot_at Hash s (GetKey (array (i : Int))) m]? = some st ∧
        to_index st ≠ i % 2 ^ 32 := by
  obtain ⟨n, hn, hpre⟩ := h.path i hi
  have hilt := h.lt i hi
  have himod : i % 2 ^ 32 = i := Nat.mod_eq_of_lt (by omega)
  refine ⟨n, hn, fun m hm => ?_⟩
  have hlt := slot_at_lt Hash h.wf (GetKey (array (i : Int))) m
  have hget : s.m_map[slot_at Hash s (GetKey (array (i : Int))) m]? =
      some s.m_map[slot_at Hash s (GetKey (array (i : Int))) m] := by simp [hlt]
  obtain ⟨h1, h2⟩ := hpre m hm
  refine ⟨_, hget, ?_⟩
  rw [hget] at h1 h2
  rw [himod]
  rcases h.slots _ _ hget with h3 | h3 | ⟨j, hj, h3⟩
  · rw [h3] at h1; exact absurd rfl h1
  · rw [h3, to_index_dummy]; omega
  · rw [h3] at h2 ⊢
    rw [to_index_natCast (by have := h.lt j hj; omega)]
    intro heq
    exact h2 (by rw [heq])

/-- The call `remove(key, index)` for a recorded index returns, given enough fuel: it turns the
slot that stores the index into a tombstone and decrements `m_length`. -/
theorem Core.remove_returns {GetKey : Item → Key} {Hash : Key → Nat} {array : Int → Item}
    {s : ArrayLookup} {R : Finset Nat} (h : Core GetKey Hash array s R) {i : Nat} (hi : i ∈ R) :
    ∃ n slot, s.m_map[slot]? = some (i : Int) ∧ ∀ fuel, n < fuel →
      remove Hash fuel s (GetKey (array (i : Int))) i =
        some { s with m_map := s.m_map.set slot SLOT_DUMMY
                      m_length := (s.m_length + 2 ^ 32 - 1) % 2 ^ 32 } := by
  obtain ⟨n, hn, hpre⟩ := h.path_index hi
  have hilt := h.lt i hi
  have himod : i % 2 ^ 32 = i := Nat.mod_eq_of_lt (by omega)
  refine ⟨n, _, hn, fun fuel hfuel => ?_⟩
  unfold remove
  rw [ITER_SLOTS_eq_some_iff]
  refine ⟨n, hfuel, ?_, (i : Int), hn, ?_⟩
  · intro m hm
    obtain ⟨st, hst, hne⟩ := hpre m hm
    exact ⟨st, hst, if_neg hne⟩
  · exact if_pos (by rw [to_index_natCast (by omega : i < 2 ^ 32), himod])

/-- The call `update_index(key, old_index, new_index)` for a recorded `old_index` returns, given
enough fuel: it overwrites the slot that stores `old_index`. -/
theorem Core.update_index_returns {GetKey : Item → Key} {Hash : Key → Nat} {array : Int → Item}
    {s : ArrayLookup} {R : Finset Nat} (h : Core GetKey Hash array s R) {i : Nat} (hi : i ∈ R)
    (new_index : Nat) :
    ∃ n slot, s.m_map[slot]? = some (i : Int) ∧ ∀ fuel, n < fuel →
      update_index Hash fuel s (GetKey (array (i : Int))) i new_index =
        some { s with m_map := s.m_map.set slot (to_state new_index) } := by
  obtain ⟨n, hn, hpre⟩ := h.path_index hi
  have hilt := h.lt i hi
  have himod : i % 2 ^ 32 = i := Nat.mod_eq_of_lt (by omega)
  refine ⟨n, _, hn, fun fuel hfuel => ?_⟩
  unfold update_index
  rw [ITER_SLOTS_eq_some_iff]
  refine ⟨n, hfuel, ?_, (i : Int), hn, ?_⟩
  · intro m hm
    obtain ⟨st, hst, hne⟩ := hpre m hm
    exact ⟨st, hst, if_neg hne⟩
  · exact if_pos (by rw [to_index_natCast (by omega : i < 2 ^ 32), himod])

/-- Turning the slot of a recorded index into a tombstone keeps the table consistent for the
remaining indices. -/
theorem Core.set_dummy {GetKey : Item → Key} {Hash : Key → Nat} {array : Int → Item}
    {s : ArrayLookup} {R : Finset Nat} (h : Core GetKey Hash array s R) {i : Nat} (hi : i ∈ R)
    {slot : Nat} (hslot : s.m_map[slot]? = some (i : Int)) (len : Nat) :
    Core GetKey Hash array
      { s with m_map := s.m_map.set slot SLOT_DUMMY, m_length := len } (R.erase i) := by
  have hs : ∀ key m, slot_at Hash
      { s with m_map := s.m_map.set slot SLOT_DUMMY, m_length := len } key m =
      slot_at Hash s key m := fun key m => slot_at_congr Hash rfl key m
  have hslotlt : slot < s.m_map.length := by
    by_contra hge
    rw [List.getElem?_eq_none (by omega)] at hslot
    exact absurd hslot (by simp)
  have hget : ∀ a, (s.m_map.set slot SLOT_DUMMY)[a]? =
      if slot = a then some SLOT_DUMMY else s.m_map[a]? := by
    intro a
    rw [List.getElem?_set]
    simp [hslotlt]
  refine ⟨?_, ?_, ?_, ?_, ?_, ?_⟩
  · obtain ⟨k, hk, hlen, hm⟩ := h.wf
    exact ⟨k, hk, by simpa using hlen, hm⟩
  · intro j hj
    exact h.lt j (Finset.mem_of_mem_erase hj)
  · intro a ha b hb hab
    exact h.inj a (Finset.mem_of_mem_erase ha) b (Finset.mem_of_mem_erase hb) hab
  · intro a st hst
    simp only [hget] at hst
    by_cases hsa : slot = a
    · simp only [hsa, if_true, Option.some.injEq] at hst
      exact Or.inr (Or.inl hst.symm)
    · simp only [hsa, if_false] at hst
      rcases h.slots a st hst with h1 | h1 | ⟨j, hj, h1⟩
      · exact Or.inl h1
      · exact Or.inr (Or.inl h1)
      · refine Or.inr (Or.inr ⟨j, Finset.mem_erase.2 ⟨?_, hj⟩, h1⟩)
        intro hji
        rw [h1, hji] at hst
        exact hsa (h.uniq slot a i hi hslot hst)
  · intro j hj
    have hjR := Finset.mem_of_mem_erase hj
    have hji : j ≠ i := Finset.ne_of_mem_erase hj
    obtain ⟨nj, hnj, hprej⟩ := h.path j hjR
    refine ⟨nj, ?_, ?_⟩
    · simp only [hs, hget]
      have hsm : slot ≠ slot_at Hash s (GetKey (array (j : Int))) nj := by
        intro heq
        rw [← heq, hslot] at hnj
        exact hji (by exact_mod_cast (Option.some.inj hnj).symm)
      simpa [hsm] using hnj
    · intro m hm
      simp only [hs, hget]
      by_cases hsm : slot = slot_at Hash s (GetKey (array (j : Int))) m
      · simp only [hsm, if_true]
        refine ⟨by simp [dummy_ne_empty], ?_⟩
        intro heq
        exact natCast_ne_dummy j (Option.some.inj heq).symm
      · simpa [hsm] using hprej m hm
  · intro a b j hj ha hb
    have hjR := Finset.mem_of_mem_erase hj
    simp only [hget] at ha hb
    by_cases hsa : slot = a
    · simp only [hsa, if_true, Option.some.injEq] at ha
      exact absurd ha.symm (natCast_ne_dummy j)
    · by_cases hsb : slot = b
      · simp only [hsb, if_true, Option.some.injEq] at hb
        exact absurd hb.symm (natCast_ne_dummy j)
      · simp only [hsa, hsb, if_false] at ha hb
        exact h.uniq a b j hjR ha hb

/-- Overwriting the slot of a recorded index with an unrecorded index whose array element has the
same key keeps the table consistent. -/
theorem Core.set_index {GetKey : Item → Key} {Hash : Key → Nat} {array : Int → Item}
    {s : ArrayLookup} {R : Finset Nat} (h : Core GetKey Hash array s R) {i : Nat} (hi : i ∈ R)
    {slot : Nat} (hslot : s.m_map[slot]? = some (i : Int)) {new_index : Nat}
    (hnew : new_index ∉ R) (hlt : new_index < 2 ^ 31)
    (hkey : GetKey (array (new_index : Int)) = GetKey (array (i : Int))) :
    Core GetKey Hash array
      { s with m_map := s.m_map.set slot (to_state new_index) }
      (insert new_index (R.erase i)) := by
  rw [to_state_of_lt hlt]
  have hs : ∀ key m, slot_at Hash
      { s with m_map := s.m_map.set slot (new_index : Int) } key m =
      slot_at Hash s key m := fun key m => slot_at_congr Hash rfl key m
  have hslotlt : slot < s.m_map.length := by
    by_contra hge
    rw [List.getElem?_eq_none (by omega)] at hslot
    exact absurd hslot (by simp)
  have hget : ∀ a, (s.m_map.set slot (new_index : Int))[a]? =
      if slot = a then some (new_index : Int) else s.m_map[a]? := by
    intro a
    rw [List.getElem?_set]
    simp [hslotlt]
  have hni : new_index ≠ i := fun heq => hnew (heq ▸ hi)
  refine ⟨?_, ?_, ?_, ?_, ?_, ?_⟩
  · obtain ⟨k, hk, hlen, hm⟩ := h.wf
    exact ⟨k, hk, by simpa using hlen, hm⟩
  · intro j hj
    rcases Finset.mem_insert.1 hj with hj' | hj'
    · rw [hj']; exact hlt
    · exact h.lt j (Finset.mem_of_mem_erase hj')
  · intro a ha b hb hab
    rcases Finset.mem_insert.1 ha with ha' | ha' <;>
      rcases Finset.mem_insert.1 hb with hb' | hb'
    · rw [ha', hb']
    · rw [ha', hkey] at hab
      exact absurd (h.inj i hi b (Finset.mem_of_mem_erase hb') hab).symm
        (Finset.ne_of_mem_erase hb')
    · rw [hb', hkey] at hab
      exact absurd (h.inj a (Finset.mem_of_mem_erase ha') i hi hab)
        (Finset.ne_of_mem_erase ha')
    · exact h.inj a (Finset.mem_of_mem_erase ha') b (Finset.mem_of_mem_erase hb') hab
  · intro a st hst
    simp only [hget] at hst
    by_cases hsa : slot = a
    · simp only [hsa, if_true, Option.some.injEq] at hst
      exact Or.inr (Or.inr ⟨new_index, Finset.mem_insert_self _ _, hst.symm⟩)
    · simp only [hsa, if_false] at hst
      rcases h.slots a st hst with h1 | h1 | ⟨j, hj, h1⟩
      · exact Or.inl h1
      · exact Or.inr (Or.inl h1)
      · refine Or.inr (Or.inr ⟨j, Finset.mem_insert_of_mem (Finset.mem_erase.2 ⟨?_, hj⟩), h1⟩)
        intro hji
        rw [h1, hji] at hst
        exact hsa (h.uniq slot a i hi hslot hst)
  · intro j hj
    rcases Finset.mem_insert.1 hj with hj' | hj'
    · rw [hj', hkey]
      obtain ⟨n, hn, hpre⟩ := h.path i hi
      have hsn : slot = slot_at Hash s (GetKey (array (i : Int))) n := h.uniq _ _ i hi hslot hn
      refine ⟨n, ?_, ?_⟩
      · simp only [hs, hget]; simp [← hsn]
      · intro m hm
        simp only [hs, hget]
        have hsm : slot ≠ slot_at Hash s (GetKey (array (i : Int))) m := by
          intro heq
          exact (hpre m hm).2 (heq ▸ hslot)
        simp only [hsm, if_false]
        exact ⟨(hpre m hm).1, h.not_stored hnew _⟩
    · have hjR := Finset.mem_of_mem_erase hj'
      have hji : j ≠ i := Finset.ne_of_mem_erase hj'
      obtain ⟨nj, hnj, hprej⟩ := h.path j hjR
      refine ⟨nj, ?_, ?_⟩
      · simp only [hs, hget]
        have hsm : slot ≠ slot_at Hash s (GetKey (array (j : Int))) nj := by
          intro heq
          rw [← heq, hslot] at hnj
          exact hji (by exact_mod_cast (Option.some.inj hnj).symm)
        simpa [hsm] using hnj
      · intro m hm
        simp only [hs, hget]
        by_cases hsm : slot = slot_at Hash s (GetKey (array (j : Int))) m
        · simp only [hsm, if_true]
          refine ⟨?_, ?_⟩
          · intro heq
            exact natCast_ne_empty new_index (Option.some.inj heq)
          · intro heq
            have : new_index = j := by exact_mod_cast Option.some.inj heq
            exact hnew (this ▸ hjR)
        · simpa [hsm] using hprej m hm
  · intro a b j hj ha hb
    simp only [hget] at ha hb
    rcases Finset.mem_insert.1 hj with hj' | hj'
    · rw [hj'] at ha hb
      by_cases hsa : slot = a
      · by_cases hsb : slot = b
        · exact hsa.symm.trans hsb
        · simp only [hsb, if_false] at hb
          exact absurd hb (h.not_stored hnew b)
      · simp only [hsa, if_false] at ha
        exact absurd ha (h.not_stored hnew a)
    · have hjR := Finset.mem_of_mem_erase hj'
      have hjn : (j : Int) ≠ (new_index : Int) := by
        intro heq
        have : j = new_index := by exact_mod_cast heq
        exact hnew (this ▸ hjR)
      by_cases hsa : slot = a
      · simp only [hsa, if_true, Option.some.injEq] at ha
        exact absurd ha.symm hjn
      · by_cases hsb : slot = b
        · simp only [hsb, if_true, Option.some.injEq] at hb
          exact absurd hb.symm hjn
        · simp only [hsa, hsb, if_false] at ha hb
          exact h.uniq a b j hjR ha hb

end RemoveUpdate

section Growth

variable {Key Item : Type}

theorem count_bits_i_two_pow : ∀ k, k < 32 → count_bits_i (2 ^ k) = 1 := by decide

theorem count_bits_i_zero : count_bits_i 0 = 0 := by decide

theorem two_pow_le_of_le_31 {k : Nat} (hk : k ≤ 31) : 2 ^ k ≤ 2 ^ 31 :=
  Nat.pow_le_pow_right (by norm_num) hk

/-- The method `reset_map` on a power of two that fits a `uint`. -/
theorem reset_map_two_pow (s : ArrayLookup) {k : Nat} (hk : k ≤ 31) :
    reset_map s (2 ^ k) = some
      { m_map := List.replicate (2 ^ k) SLOT_EMPTY
        m_usable_slots := 2 ^ k * 10066330 / 2 ^ 24
        m_length := s.m_length
        m_slot_mask := 2 ^ k - 1 } := by
  have h1 := two_pow_le_of_le_31 hk
  have h2 : 0 < 2 ^ k := by positivity
  have h3 : (2 ^ k + 2 ^ 32 - 1) % 2 ^ 32 = 2 ^ k - 1 := by
    have : 2 ^ k + 2 ^ 32 - 1 = (2 ^ k - 1) + 2 ^ 32 := by omega
    rw [this, Nat.add_mod_right]
    exact Nat.mod_eq_of_lt (by omega)
  unfold reset_map
  rw [if_pos (count_bits_i_two_pow k (by omega)), h3]

/-- A freshly reset table records nothing. -/
theorem Core.reset (GetKey : Item → Key) (Hash : Key → Nat) (array : Int → Item) {k : Nat}
    (hk : k ≤ 31) (usable len : Nat) :
    Core GetKey Hash array
      { m_map := List.replicate (2 ^ k) SLOT_EMPTY, m_usable_slots := usable, m_length := len,
        m_slot_mask := 2 ^ k - 1 } ∅ := by
  refine ⟨⟨k, hk, by simp, rfl⟩, by simp, by simp, ?_, by simp, by simp⟩
  intro slot st hst
  rw [List.getElem?_replicate] at hst
  by_cases h : slot < 2 ^ k
  · simp only [h, if_true, Option.some.injEq] at hst
    exact Or.inl hst.symm
  · simp [h] at hst

theorem non_empty_slots_replicate (k usable len mask : Nat) :
    non_empty_slots
      { m_map := List.replicate k SLOT_EMPTY, m_usable_slots := usable, m_length := len,
        m_slot_mask := mask } = ∅ := by
  unfold non_empty_slots
  apply Finset.filter_eq_empty_iff.2
  intro i hi
  have hi' : i < k := by simpa using hi
  simp [List.getElem?_replicate, hi']

/-- What `add_new__fast` (and `insert_index`) leaves unchanged, and its effect on the set of
non-empty slots. -/
theorem add_new__fast_frame (Hash : Key → Nat) {fuel : Nat} {s s' : ArrayLookup} {key : Key}
    {index : Nat} (h : add_new__fast Hash fuel s key index = some s') :
    s'.m_length = s.m_length ∧ s'.m_usable_slots = s.m_usable_slots ∧
      s'.m_slot_mask = s.m_slot_mask ∧ s'.m_map.length = s.m_map.length ∧
      ∃ slot, s.m_map[slot]? = some SLOT_EMPTY ∧ s'.m_map = s.m_map.set slot (to_state index) ∧
        non_empty_slots s' ⊆ insert slot (non_empty_slots s) := by
  obtain ⟨n, -, -, hn, rfl⟩ := (add_new__fast_eq_some_iff Hash fuel s key index s').1 h
  refine ⟨rfl, rfl, rfl, by simp, _, hn, rfl, ?_⟩
  intro a ha
  simp only [non_empty_slots, Finset.mem_filter, Finset.mem_range, List.length_set] at ha
  simp only [non_empty_slots, Finset.mem_insert, Finset.mem_filter, Finset.mem_range]
  by_cases hsa : a = slot_at Hash s key n
  · exact Or.inl hsa
  · refine Or.inr ⟨ha.1, ?_⟩
    have := ha.2
    rwa [List.getElem?_set_ne (fun h => hsa h.symm)] at this

theorem WF.of_eq {s t : ArrayLookup} (h : WF s) (hlen : t.m_map.length = s.m_map.length)
    (hmask : t.m_slot_mask = s.m_slot_mask) : WF t := by
  obtain ⟨k, hk, h1, h2⟩ := h
  exact ⟨k, hk, by rw [hlen, h1], by rw [hmask, h2]⟩

/-- The probe loop of `add_new__fast` returns when fewer than half of the slots of a well-formed
table are non-empty. -/
theorem add_new__fast_returns (Hash : Key → Nat) {s : ArrayLookup} {k : Nat} (hk1 : 1 ≤ k)
    (hk : k ≤ 31) (hlen : s.m_map.length = 2 ^ k) (hm : s.m_slot_mask = 2 ^ k - 1)
    (hcount : (non_empty_slots s).card < 2 ^ (k - 1)) (key : Key) (index : Nat) {fuel : Nat}
    (hfuel : 7 + 2 ^ (k - 1) ≤ fuel) :
    ∃ s', add_new__fast Hash fuel s key index = some s' := by
  have hwf : WF s := ⟨k, hk, hlen, hm⟩
  have hex : ∃ n, s.m_map[slot_at Hash s key n]? = some SLOT_EMPTY := by
    obtain ⟨n, -, hn⟩ := exists_probe_empty hk1 hk hlen hm hcount (first_slot Hash s key)
      (first_slot_snd_lt Hash s key)
    exact ⟨n, hn⟩
  classical
  have hfind := Nat.find_spec hex
  have hmin : ∀ m, m < Nat.find hex → s.m_map[slot_at Hash s key m]? ≠ some SLOT_EMPTY :=
    fun m hm => Nat.find_min hex hm
  have hbound : Nat.find hex < 7 + 2 ^ (k - 1) := by
    obtain ⟨n, hn, hne⟩ := exists_probe_empty hk1 hk hlen hm hcount (first_slot Hash s key)
      (first_slot_snd_lt Hash s key)
    exact lt_of_le_of_lt (Nat.find_min' hex hne) hn
  refine ⟨_, (add_new__fast_eq_some_iff Hash fuel s key index _).2
    ⟨Nat.find hex, by omega, ?_, hfind, rfl⟩⟩
  intro m hm
  have hlt := slot_at_lt Hash hwf key m
  refine ⟨s.m_map[slot_at Hash s key m], by simp [hlt], ?_⟩
  intro heq
  apply hmin m hm
  rw [← heq]; simp [hlt]

/-- The rebuild loop of `ensure_can_add`: the frame of the loop. -/
theorem rebuild_frame (GetKey : Item → Key) (Hash : Key → Nat) (fuel : Nat)
    (array : Int → Item) (s1 : ArrayLookup) (n : Nat) (s2 : ArrayLookup)
    (h : (List.range n).foldlM
      (fun st (i : Nat) => insert_index Hash fuel st (GetKey (array (i : Int))) i) s1 = some s2) :
    s2.m_length = s1.m_length ∧ s2.m_usable_slots = s1.m_usable_slots ∧
      s2.m_slot_mask = s1.m_slot_mask ∧ s2.m_map.length = s1.m_map.length ∧
      (non_empty_slots s2).card ≤ (non_empty_slots s1).card + n := by
  induction n generalizing s2 with
  | zero =>
    simp only [List.range_zero, List.foldlM_nil] at h
    cases h
    exact ⟨rfl, rfl, rfl, rfl, le_rfl⟩
  | succ n ih =>
    rw [List.range_succ, List.foldlM_append] at h
    cases hmid : (List.range n).foldlM
      (fun st (i : Nat) => insert_index Hash fuel st (GetKey (array (i : Int))) i) s1 with
    | none => rw [hmid] at h; simp at h
    | some smid =>
      rw [hmid] at h
      simp only [Option.some_bind, List.foldlM_cons, List.foldlM_nil, Option.bind_eq_bind] at h
      have hstep : insert_index Hash fuel smid (GetKey (array (n : Int))) n = some s2 := by
        cases hx : insert_index Hash fuel smid (GetKey (array (n : Int))) n with
        | none => rw [hx] at h; simp at h
        | some x => rw [hx] at h; simpa using h
      obtain ⟨h1, h2, h3, h4, h5⟩ := ih smid hmid
      obtain ⟨g1, g2, g3, g4, slot, -, -, g5⟩ := add_new__fast_frame Hash hstep
      refine ⟨g1.trans h1, g2.trans h2, g3.trans h3, g4.trans h4, ?_⟩
      calc (non_empty_slots s2).card ≤ (insert slot (non_empty_slots smid)).card :=
            Finset.card_le_card g5
        _ ≤ (non_empty_slots smid).card + 1 := Finset.card_insert_le _ _
        _ ≤ (non_empty_slots s1).card + (n + 1) := by omega

/-- The rebuild loop of `ensure_can_add` records the indices `0, ..., n - 1`. -/
theorem rebuild_core (GetKey : Item → Key) (Hash : Key → Nat) (fuel : Nat)
    (array : Int → Item) (s1 : ArrayLookup) (hs1 : Core GetKey Hash array s1 ∅) (n : Nat)
    (hn : n ≤ 2 ^ 31)
    (hinj : ∀ i : Nat, i < n → ∀ j : Nat, j < n →
      GetKey (array (i : Int)) = GetKey (array (j : Int)) → i = j)
    (s2 : ArrayLookup)
    (h : (List.range n).foldlM
      (fun st (i : Nat) => insert_index Hash fuel st (GetKey (array (i : Int))) i) s1 = some s2) :
    Core GetKey Hash array s2 (Finset.range n) := by
  induction n generalizing s2 with
  | zero =>
    simp only [List.range_zero, List.foldlM_nil] at h
    cases h
    simpa using hs1
  | succ n ih =>
    rw [List.range_succ, List.foldlM_append] at h
    cases hmid : (List.range n).foldlM
      (fun st (i : Nat) => insert_index Hash fuel st (GetKey (array (i : Int))) i) s1 with
    | none => rw [hmid] at h; simp at h
    | some smid =>
      rw [hmid] at h
      simp only [Option.some_bind, List.foldlM_cons, List.foldlM_nil, Option.bind_eq_bind] at h
      have hstep : add_new__fast Hash fuel smid (GetKey (array (n : Int))) n = some s2 := by
        cases hx : insert_index Hash fuel smid (GetKey (array (n : Int))) n with
        | none => rw [hx] at h; simp at h
        | some x => rw [hx] at h; rw [← insert_index_eq_add_new__fast, hx]; simpa using h
      have hcore := ih (by omega) (fun i hi j hj => hinj i (by omega) j (by omega)) smid hmid
      have := hcore.insert_step (i := n) (by simp) (by omega)
        (fun j hj heq => by
          have hjn : j < n := Finset.mem_range.1 hj
          have := hinj j (by omega) n (by omega) heq
          omega) hstep
      rwa [Finset.range_succ]

/-- The rebuild loop of `ensure_can_add` returns when it starts from a reset table of `2 ^ k`
slots and reinserts at most `2 ^ (k - 1)` indices. -/
theorem rebuild_returns (GetKey : Item → Key) (Hash : Key → Nat) {fuel : Nat}
    (array : Int → Item) {k : Nat} (hk1 : 1 ≤ k) (hk : k ≤ 31) (usable len : Nat)
    (hfuel : 7 + 2 ^ (k - 1) ≤ fuel) (n : Nat) (hn : n ≤ 2 ^ (k - 1)) :
    ∃ s2, (List.range n).foldlM
      (fun st (i : Nat) => insert_index Hash fuel st (GetKey (array (i : Int))) i)
      { m_map := List.replicate (2 ^ k) SLOT_EMPTY, m_usable_slots := usable, m_length := len,
        m_slot_mask := 2 ^ k - 1 } = some s2 := by
  induction n with
  | zero => exact ⟨_, rfl⟩
  | succ n ih =>
    obtain ⟨smid, hmid⟩ := ih (by omega)
    obtain ⟨h1, h2, h3, h4, h5⟩ := rebuild_frame GetKey Hash fuel array _ n smid hmid
    rw [non_empty_slots_replicate] at h5
    simp only [Finset.card_empty, Nat.zero_add, List.length_replicate] at h5 h3 h4
    obtain ⟨s2, hs2⟩ := add_new__fast_returns Hash hk1 hk h4 h3 (by omega)
      (GetKey (array (n : Int))) n hfuel
    refine ⟨s2, ?_⟩
    rw [List.range_succ, List.foldlM_append, hmid]
    simp only [Option.some_bind, List.foldlM_cons, List.foldlM_nil, Option.bind_eq_bind]
    rw [insert_index_eq_add_new__fast, hs2]
    rfl

end Growth

section AddNew

variable {Key Item : Type}

theorem ensure_can_add_noop (GetKey : Item → Key) (Hash : Key → Nat) (fuel : Nat)
    (s : ArrayLookup) (array : Int → Item) {amount : Nat} (h : amount ≤ s.m_usable_slots) :
    ensure_can_add GetKey Hash fuel s array amount = some s := by
  unfold ensure_can_add
  rw [if_pos h]

/-- The growing branch of `ensure_can_add` on a table of `2 ^ k` slots, `k ≤ 30`. -/
theorem ensure_can_add_grow (GetKey : Item → Key) (Hash : Key → Nat) (fuel : Nat)
    (s : ArrayLookup) (array : Int → Item) {amount : Nat} (h : s.m_usable_slots < amount)
    {k : Nat} (hk : k ≤ 30) (hlen : s.m_map.length = 2 ^ k) :
    ensure_can_add GetKey Hash fuel s array amount =
      ((List.range s.m_length).foldlM
        (fun st (i : Nat) => insert_index Hash fuel st (GetKey (array (i : Int))) i)
        { m_map := List.replicate (2 ^ (k + 1)) SLOT_EMPTY
          m_usable_slots := 2 ^ (k + 1) * 10066330 / 2 ^ 24
          m_length := s.m_length
          m_slot_mask := 2 ^ (k + 1) - 1 }).bind fun s2 =>
        some { s2 with
          m_usable_slots := (s2.m_usable_slots + 2 ^ 32 - s2.m_length) % 2 ^ 32 } := by
  have h1 : s.m_map.length * 2 % 2 ^ 32 = 2 ^ (k + 1) := by
    rw [hlen, ← pow_succ]
    exact Nat.mod_eq_of_lt
      (lt_of_le_of_lt (two_pow_le_of_le_31 (by omega : k + 1 ≤ 31)) (by norm_num))
  unfold ensure_can_add
  rw [if_neg (by omega), h1, reset_map_two_pow s (by omega : k + 1 ≤ 31)]
  rfl

/-- The growing branch of `ensure_can_add` does not return on a table of `2 ^ 31` slots: the
doubled size wraps around to zero and fails the assertion of `reset_map`. -/
theorem ensure_can_add_overflow (GetKey : Item → Key) (Hash : Key → Nat) (fuel : Nat)
    (s : ArrayLookup) (array : Int → Item) {amount : Nat} (h : s.m_usable_slots < amount)
    (hlen : s.m_map.length = 2 ^ 31) :
    ensure_can_add GetKey Hash fuel s array amount = none := by
  have h1 : s.m_map.length * 2 % 2 ^ 32 = 0 := by rw [hlen]; norm_num
  unfold ensure_can_add reset_map
  rw [if_neg (by omega), h1, if_neg (by rw [count_bits_i_zero]; omega)]
  rfl

theorem Core.card_le {GetKey : Item → Key} {Hash : Key → Nat} {array : Int → Item}
    {s : ArrayLookup} {R : Finset Nat} (h : Core GetKey Hash array s R) : R.card ≤ 2 ^ 31 := by
  have hsub : R ⊆ Finset.range (2 ^ 31) := fun i hi => Finset.mem_range.2 (h.lt i hi)
  simpa using Finset.card_le_card hsub

/-- The effect of a growing `ensure_can_add` on a consistent table whose recorded indices are
`0, ..., m_length - 1`. -/
theorem Core.grow_step {GetKey : Item → Key} {Hash : Key → Nat} {array : Int → Item}
    {s s' : ArrayLookup} {R : Finset Nat} (h : Core GetKey Hash array s R)
    (hdense : R = Finset.range s.m_length) {amount fuel : Nat}
    (hgrow : s.m_usable_slots < amount)
    (hens : ensure_can_add GetKey Hash fuel s array amount = some s') :
    Core GetKey Hash array s' R ∧ s'.m_length = s.m_length ∧
      s'.m_map.length = 2 * s.m_map.length ∧
      s'.m_usable_slots =
        (2 * s.m_map.length * 10066330 / 2 ^ 24 + 2 ^ 32 - s.m_length) % 2 ^ 32 ∧
      (non_empty_slots s').card ≤ s.m_length := by
  obtain ⟨k, hk, hlen, hm⟩ := h.wf
  rcases Nat.lt_or_ge k 31 with hk' | hk'
  · rw [ensure_can_add_grow GetKey Hash fuel s array hgrow (by omega : k ≤ 30) hlen] at hens
    cases hfold : (List.range s.m_length).foldlM
        (fun st (i : Nat) => insert_index Hash fuel st (GetKey (array (i : Int))) i)
        { m_map := List.replicate (2 ^ (k + 1)) SLOT_EMPTY
          m_usable_slots := 2 ^ (k + 1) * 10066330 / 2 ^ 24
          m_length := s.m_length
          m_slot_mask := 2 ^ (k + 1) - 1 } with
    | none => rw [hfold] at hens; simp at hens
    | some s2 =>
      rw [hfold] at hens
      simp only [Option.some_bind, Option.some.injEq] at hens
      subst hens
      have hlen_le : s.m_length ≤ 2 ^ 31 := by
        have := h.card_le
        rw [hdense] at this
        simpa using this
      have hinj : ∀ i : Nat, i < s.m_length → ∀ j : Nat, j < s.m_length →
          GetKey (array (i : Int)) = GetKey (array (j : Int)) → i = j := by
        intro i hi j hj hij
        exact h.inj i (hdense ▸ Finset.mem_range.2 hi) j (hdense ▸ Finset.mem_range.2 hj) hij
      have hcore := rebuild_core GetKey Hash fuel array _
        (Core.reset GetKey Hash array (by omega : k + 1 ≤ 31) _ _) s.m_length hlen_le hinj s2
        hfold
      obtain ⟨h1, h2, h3, h4, h5⟩ := rebuild_frame GetKey Hash fuel array _ _ s2 hfold
      rw [non_empty_slots_replicate] at h5
      simp only [Finset.card_empty, Nat.zero_add, List.length_replicate] at h1 h2 h3 h4 h5
      refine ⟨?_, h1, ?_, ?_, ?_⟩
      · rw [hdense]
        exact hcore.congr rfl rfl
      · show s2.m_map.length = _
        rw [h4, hlen, pow_succ, Nat.mul_comm]
      · show (s2.m_usable_slots + 2 ^ 32 - s2.m_length) % 2 ^ 32 = _
        rw [h1, h2, hlen, pow_succ, Nat.mul_comm (2 ^ k) 2]
      · exact h5
  · have hk31 : k = 31 := by omega
    subst hk31
    rw [ensure_can_add_overflow GetKey Hash fuel s array hgrow hlen] at hens
    exact absurd hens (by simp)

/-- A call `add_new(array, index)` that returns keeps the table consistent and records `index`,
provided `index` is a new index below `2 ^ 31` with a new key and, if the table has to grow, the
recorded indices are `0, ..., m_length - 1`. -/
theorem Core.add_new_step {GetKey : Item → Key} {Hash : Key → Nat} {array : Int → Item}
    {s s' : ArrayLookup} {R : Finset Nat} (h : Core GetKey Hash array s R)
    (hlength : s.m_length = R.card) {i : Nat} (hi : i ∉ R) (hlt : i < 2 ^ 31)
    (hkey : ∀ j ∈ R, GetKey (array (j : Int)) ≠ GetKey (array (i : Int)))
    (hdense : s.m_usable_slots = 0 → R = Finset.range s.m_length) {fuel : Nat}
    (hadd : add_new GetKey Hash fuel s array i = some s') :
    Core GetKey Hash array s' (insert i R) ∧ s'.m_length = (insert i R).card := by
  unfold add_new at hadd
  cases hens : ensure_can_add GetKey Hash fuel s array 1 with
  | none => rw [hens] at hadd; simp at hadd
  | some s1 =>
    rw [hens] at hadd
    simp only [Option.some_bind] at hadd
    cases hfast : add_new__fast Hash fuel s1 (GetKey (array (i : Int))) i with
    | none => rw [hfast] at hadd; simp at hadd
    | some s2 =>
      rw [hfast] at hadd
      simp only [Option.some_bind, Option.some.injEq] at hadd
      subst hadd
      have hs1 : Core GetKey Hash array s1 R ∧ s1.m_length = s.m_length := by
        rcases Nat.eq_zero_or_pos s.m_usable_slots with h0 | hpos
        · have := h.grow_step (hdense h0) (by omega : s.m_usable_slots < 1) hens
          exact ⟨this.1, this.2.1⟩
        · rw [ensure_can_add_noop GetKey Hash fuel s array (by omega : 1 ≤ s.m_usable_slots)]
            at hens
          cases hens
          exact ⟨h, rfl⟩
      have hcore2 := hs1.1.insert_step hi hlt hkey hfast
      obtain ⟨g1, -⟩ := add_new__fast_frame Hash hfast
      refine ⟨hcore2.congr rfl rfl, ?_⟩
      show (s2.m_length + 1) % 2 ^ 32 = _
      rw [g1, hs1.2, hlength, Finset.card_insert_of_not_mem hi]
      exact Nat.mod_eq_of_lt (by have := h.card_le; omega)

end AddNew

section Reach

variable {Key Item : Type}

/-- The constructor for a template argument `N_EXP` of at most 31. -/
theorem construct_eq {N_EXP : Nat} (h : N_EXP ≤ 31) :
    ArrayLookup.construct N_EXP = some
      { m_map := List.replicate (2 ^ N_EXP) SLOT_EMPTY
        m_usable_slots := 2 ^ N_EXP * 10066330 / 2 ^ 24
        m_length := 0
        m_slot_mask := 2 ^ N_EXP - 1 } := by
  have h1 : (1 <<< N_EXP) % 2 ^ 32 = 2 ^ N_EXP := by
    rw [Nat.one_shiftLeft]
    exact Nat.mod_eq_of_lt (lt_of_le_of_lt (two_pow_le_of_le_31 h) (by norm_num))
  unfold ArrayLookup.construct
  rw [h1, reset_map_two_pow _ h]
  rfl

theorem construct_eq_some {N_EXP : Nat} {s : ArrayLookup}
    (h : ArrayLookup.construct N_EXP = some s) :
    N_EXP ≤ 31 ∧ s =
      { m_map := List.replicate (2 ^ N_EXP) SLOT_EMPTY
        m_usable_slots := 2 ^ N_EXP * 10066330 / 2 ^ 24
        m_length := 0
        m_slot_mask := 2 ^ N_EXP - 1 } := by
  rcases Nat.lt_or_ge N_EXP 32 with hlt | hge
  · rw [construct_eq (by omega)] at h
    exact ⟨by omega, (Option.some.inj h).symm⟩
  · have h1 : (1 <<< N_EXP) % 2 ^ 32 = 0 := by
      rw [Nat.one_shiftLeft]
      exact Nat.mod_eq_zero_of_dvd (Nat.pow_dvd_pow 2 hge)
    unfold ArrayLookup.construct reset_map at h
    rw [h1, if_neg (by rw [count_bits_i_zero]; omega)] at h
    exact absurd h (by simp)

theorem Core.construct (GetKey : Item → Key) (Hash : Key → Nat) (array : Int → Item)
    {N_EXP : Nat} {s : ArrayLookup} (h : ArrayLookup.construct N_EXP = some s) :
    Core GetKey Hash array s ∅ ∧ s.m_length = 0 := by
  obtain ⟨hle, rfl⟩ := construct_eq_some h
  exact ⟨Core.reset GetKey Hash array hle _ _, rfl⟩

theorem remove_mono (Hash : Key → Nat) {fuel fuel' : Nat} (hle : fuel ≤ fuel')
    {s s' : ArrayLookup} {key : Key} {index : Nat}
    (h : remove Hash fuel s key index = some s') :
    remove Hash fuel' s key index = some s' :=
  ITER_SLOTS_mono Hash s key _ hle h

theorem update_index_mono (Hash : Key → Nat) {fuel fuel' : Nat} (hle : fuel ≤ fuel')
    {s s' : ArrayLookup} {key : Key} {old_index new_index : Nat}
    (h : update_index Hash fuel s key old_index new_index = some s') :
    update_index Hash fuel' s key old_index new_index = some s' :=
  ITER_SLOTS_mono Hash s key _ hle h

theorem find_mono [DecidableEq Key] (GetKey : Item → Key) (Hash : Key → Nat)
    {fuel fuel' : Nat} (hle : fuel ≤ fuel') {s : ArrayLookup} {array : Int → Item} {key : Key}
    {r : Int} (h : find GetKey Hash fuel s array key = some r) :
    find GetKey Hash fuel' s array key = some r :=
  ITER_SLOTS_mono Hash s key _ hle h

/-- A returning `remove(key, index)` of a recorded index is the tombstoning of the slot that
stores the index. -/
theorem Core.remove_eq {GetKey : Item → Key} {Hash : Key → Nat} {array : Int → Item}
    {s s' : ArrayLookup} {R : Finset Nat} (h : Core GetKey Hash array s R) {i : Nat} (hi : i ∈ R)
    {fuel : Nat} (hrem : remove Hash fuel s (GetKey (array (i : Int))) i = some s') :
    ∃ slot, s.m_map[slot]? = some (i : Int) ∧
      s' = { s with m_map := s.m_map.set slot SLOT_DUMMY
                    m_length := (s.m_length + 2 ^ 32 - 1) % 2 ^ 32 } := by
  obtain ⟨n, slot, hslot, hret⟩ := h.remove_returns hi
  refine ⟨slot, hslot, ?_⟩
  have h1 := remove_mono Hash (le_max_left fuel (n + 1)) hrem
  have h2 := hret (max fuel (n + 1)) (by omega)
  rw [h1] at h2
  exact Option.some.inj h2

/-- A returning `update_index(key, old_index, new_index)` for a recorded `old_index` is the
overwriting of the slot that stores `old_index`. -/
theorem Core.update_index_eq {GetKey : Item → Key} {Hash : Key → Nat} {array : Int → Item}
    {s s' : ArrayLookup} {R : Finset Nat} (h : Core GetKey Hash array s R) {i : Nat} (hi : i ∈ R)
    {new_index fuel : Nat}
    (hupd : update_index Hash fuel s (GetKey (array (i : Int))) i new_index = some s') :
    ∃ slot, s.m_map[slot]? = some (i : Int) ∧
      s' = { s with m_map := s.m_map.set slot (to_state new_index) } := by
  obtain ⟨n, slot, hslot, hret⟩ := h.update_index_returns hi new_index
  refine ⟨slot, hslot, ?_⟩
  have h1 := update_index_mono Hash (le_max_left fuel (n + 1)) hupd
  have h2 := hret (max fuel (n + 1)) (by omega)
  rw [h1] at h2
  exact Option.some.inj h2

/-- Every reachable state is consistent with its set of recorded indices, and `m_length` is the
number of recorded indices. -/
theorem Reachable.core {GetKey : Item → Key} {Hash : Key → Nat} {N_EXP : Nat}
    {array : Int → Item} {s : ArrayLookup} {R : Finset Nat}
    (h : Reachable GetKey Hash N_EXP array s R) :
    Core GetKey Hash array s R ∧ s.m_length = R.card := by
  induction h with
  | @construct array s hc =>
    have := Core.construct GetKey Hash array hc
    exact ⟨this.1, by simpa using this.2⟩
  | add_new _ hi hlt hkey hdense hadd ih =>
    exact ih.1.add_new_step ih.2 hi hlt hkey hdense hadd
  | @remove array s s' R index fuel _ hi hrem ih =>
    obtain ⟨slot, hslot, rfl⟩ := ih.1.remove_eq hi hrem
    refine ⟨ih.1.set_dummy hi hslot _, ?_⟩
    show (s.m_length + 2 ^ 32 - 1) % 2 ^ 32 = _
    have hpos : 0 < R.card := Finset.card_pos.2 ⟨index, hi⟩
    have hle := ih.1.card_le
    rw [ih.2, Finset.card_erase_of_mem hi]
    have : R.card + 2 ^ 32 - 1 = (R.card - 1) + 2 ^ 32 := by omega
    rw [this, Nat.add_mod_right]
    exact Nat.mod_eq_of_lt (by omega)
  | @update_index array s s' R old_index new_index fuel _ hi hnew hlt hkey hupd ih =>
    obtain ⟨slot, hslot, rfl⟩ := ih.1.update_index_eq hi hupd
    refine ⟨ih.1.set_index hi hslot hnew hlt hkey, ?_⟩
    show s.m_length = _
    rw [ih.2, Finset.card_insert_of_not_mem (fun h => hnew (Finset.mem_of_mem_erase h)),
      Finset.card_erase_of_mem hi]
    have hpos : 0 < R.card := Finset.card_pos.2 ⟨old_index, hi⟩
    omega
  | array_changed _ hkeys ih =>
    exact ⟨ih.1.array_congr hkeys, ih.2⟩

end Reach

section Sequences

variable {Key Item : Type}

theorem add_new_list_cons (GetKey : Item → Key) (Hash : Key → Nat) (fuel : Nat)
    (s : ArrayLookup) (array : Int → Item) (i : Nat) (rest : List Nat) :
    add_new_list GetKey Hash fuel s array (i :: rest) =
      (add_new GetKey Hash fuel s array i).bind fun s1 =>
        add_new_list GetKey Hash fuel s1 array rest := by
  simp [add_new_list, List.foldlM_cons]

/-- Successive calls of `add_new` that meet its preconditions lead from a reachable state to a
reachable state. -/
theorem Reachable.add_new_list {GetKey : Item → Key} {Hash : Key → Nat} {N_EXP : Nat}
    {array : Int → Item} {fuel : Nat} (indices : List Nat) :
    ∀ {s s' : ArrayLookup} {R : Finset Nat}, Reachable GetKey Hash N_EXP array s R →
      indices.Nodup → (∀ i ∈ indices, i ∉ R) → (∀ i ∈ indices, i < 2 ^ 31) →
      (∀ i ∈ indices, ∀ j ∈ R, GetKey (array (j : Int)) ≠ GetKey (array (i : Int))) →
      (∀ i ∈ indices, ∀ j ∈ indices,
        GetKey (array (i : Int)) = GetKey (array (j : Int)) → i = j) →
      (∀ m, m < indices.length → ∀ sm,
        BLI.add_new_list GetKey Hash fuel s array (indices.take m) = some sm →
        sm.m_usable_slots = 0 →
        R ∪ (indices.take m).toFinset = Finset.range (R.card + m)) →
      BLI.add_new_list GetKey Hash fuel s array indices = some s' →
      Reachable GetKey Hash N_EXP array s' (R ∪ indices.toFinset) := by
  induction indices with
  | nil =>
    intro s s' R h _ _ _ _ _ _ hrun
    simp only [BLI.add_new_list, List.foldlM_nil] at hrun
    cases hrun
    simpa using h
  | cons i rest ih =>
    intro s s' R h hnodup hnot hlt hkeyR hinj hdense hrun
    rw [add_new_list_cons] at hrun
    cases hadd : BLI.add_new GetKey Hash fuel s array i with
    | none => rw [hadd] at hrun; simp at hrun
    | some s1 =>
      rw [hadd] at hrun
      simp only [Option.some_bind] at hrun
      have hiR : i ∉ R := hnot i (List.mem_cons_self _ _)
      have hd0 : s.m_usable_slots = 0 → R = Finset.range s.m_length := by
        intro h0
        have := hdense 0 (by simp) s (by simp [BLI.add_new_list]) h0
        rw [h.core.2]
        simpa using this
      have h1 : Reachable GetKey Hash N_EXP array s1 (insert i R) :=
        Reachable.add_new h hiR (hlt i (List.mem_cons_self _ _))
          (hkeyR i (List.mem_cons_self _ _)) hd0 hadd
      have hnd := List.nodup_cons.1 hnodup
      have := @ih s1 s' (insert i R) h1 hnd.2
        (by
          intro j hj hmem
          rcases Finset.mem_insert.1 hmem with hji | hjR
          · exact hnd.1 (hji ▸ hj)
          · exact hnot j (List.mem_cons_of_mem _ hj) hjR)
        (fun j hj => hlt j (List.mem_cons_of_mem _ hj))
        (by
          intro j hj l hl
          rcases Finset.mem_insert.1 hl with hli | hlR
          · intro heq
            rw [hli] at heq
            have := hinj i (List.mem_cons_self _ _) j (List.mem_cons_of_mem _ hj) heq
            exact hnd.1 (this ▸ hj)
          · exact hkeyR j (List.mem_cons_of_mem _ hj) l hlR)
        (fun a ha b hb => hinj a (List.mem_cons_of_mem _ ha) b (List.mem_cons_of_mem _ hb))
        (by
          intro m hm sm hsm h0
          have := hdense (m + 1) (by simpa using hm) sm
            (by rw [List.take_succ_cons, add_new_list_cons, hadd]; exact hsm) h0
          rw [Finset.card_insert_of_not_mem hiR]
          rw [List.take_succ_cons, List.toFinset_cons, Finset.union_insert] at this
          rw [Finset.insert_union, this]
          congr 1; omega)
        hrun
      rwa [List.toFinset_cons, Finset.union_insert, ← Finset.insert_union]

end Sequences

section Returns

variable {Key Item : Type}

theorem WF.mask_eq {s : ArrayLookup} (h : WF s) {k : Nat} (hlen : s.m_map.length = 2 ^ k) :
    k ≤ 31 ∧ s.m_slot_mask = 2 ^ k - 1 := by
  obtain ⟨k', hk', hlen', hm'⟩ := h
  have : k = k' := Nat.pow_right_injective (le_refl 2) (hlen.symm.trans hlen')
  subst this
  exact ⟨hk', hm'⟩

/-- The growing branch of `ensure_can_add` returns on a table of `2 ^ k` slots, `k ≤ 30`, when
`m_length` is at most `2 ^ k`. -/
theorem ensure_can_add_returns (GetKey : Item → Key) (Hash : Key → Nat) {fuel : Nat}
    (s : ArrayLookup) (array : Int → Item) {amount : Nat} (h : s.m_usable_slots < amount)
    {k : Nat} (hk : k ≤ 30) (hlen : s.m_map.length = 2 ^ k) (hlength : s.m_length ≤ 2 ^ k)
    (hfuel : 7 + 2 ^ k ≤ fuel) :
    ∃ s', ensure_can_add GetKey Hash fuel s array amount = some s' := by
  rw [ensure_can_add_grow GetKey Hash fuel s array h hk hlen]
  obtain ⟨s2, hs2⟩ := rebuild_returns GetKey Hash array (k := k + 1) (by omega) (by omega)
    (2 ^ (k + 1) * 10066330 / 2 ^ 24) s.m_length (by simpa using hfuel) s.m_length
    (by simpa using hlength)
  rw [hs2]
  exact ⟨_, rfl⟩

/-- A call of `add_new` that does not have to grow the table returns when fewer than half of
the slots are non-empty. -/
theorem add_new_returns_no_growth (GetKey : Item → Key) (Hash : Key → Nat) (fuel : Nat)
    (s : ArrayLookup) (array : Int → Item) (i : Nat) (hwf : WF s) {k : Nat} (hk1 : 1 ≤ k)
    (hlen : s.m_map.length = 2 ^ k) (husable : 1 ≤ s.m_usable_slots)
    (hcount : (non_empty_slots s).card < 2 ^ (k - 1)) (hfuel : 7 + 2 ^ (k - 1) ≤ fuel) :
    ∃ s', add_new GetKey Hash fuel s array i = some s' ∧
      s'.m_map.length = s.m_map.length ∧
      s'.m_usable_slots = (s.m_usable_slots + 2 ^ 32 - 1) % 2 ^ 32 ∧
      (non_empty_slots s').card ≤ (non_empty_slots s).card + 1 := by
  obtain ⟨hk, hm⟩ := hwf.mask_eq hlen
  obtain ⟨s2, hs2⟩ := add_new__fast_returns Hash hk1 hk hlen hm hcount
    (GetKey (array (i : Int))) i hfuel
  obtain ⟨g1, g2, g3, g4, slot, -, -, g5⟩ := add_new__fast_frame Hash hs2
  refine ⟨{ s2 with m_usable_slots := (s2.m_usable_slots + 2 ^ 32 - 1) % 2 ^ 32,
                    m_length := (s2.m_length + 1) % 2 ^ 32 }, ?_, ?_, ?_, ?_⟩
  · unfold add_new
    rw [ensure_can_add_noop GetKey Hash fuel s array husable]
    simp only [Option.some_bind]
    rw [hs2]
    rfl
  · exact g4
  · show (s2.m_usable_slots + 2 ^ 32 - 1) % 2 ^ 32 = _
    rw [g2]
  · refine le_trans (le_of_eq (congrArg Finset.card
      (non_empty_slots_congr (s := s2) ?_))) ?_
    · rfl
    calc (non_empty_slots s2).card ≤ (insert slot (non_empty_slots s)).card :=
          Finset.card_le_card g5
      _ ≤ (non_empty_slots s).card + 1 := Finset.card_insert_le _ _

/-- A call of `add_new` that has to grow a consistent table returns when the recorded indices
are `0, ..., m_length - 1` and `m_length` is below the number of slots. -/
theorem add_new_returns_growth {GetKey : Item → Key} {Hash : Key → Nat} (fuel : Nat)
    {s : ArrayLookup} {array : Int → Item} {R : Finset Nat}
    (hcore : Core GetKey Hash array s R) (hdense : R = Finset.range s.m_length) (i : Nat)
    {k : Nat} (hk : k ≤ 30) (hlen : s.m_map.length = 2 ^ k) (husable : s.m_usable_slots = 0)
    (hlength : s.m_length < 2 ^ k) (hfuel : 7 + 2 ^ k ≤ fuel) :
    ∃ s', add_new GetKey Hash fuel s array i = some s' ∧
      s'.m_map.length = 2 * s.m_map.length ∧
      s'.m_usable_slots =
        ((2 * s.m_map.length * 10066330 / 2 ^ 24 + 2 ^ 32 - s.m_length) % 2 ^ 32
          + 2 ^ 32 - 1) % 2 ^ 32 ∧
      (non_empty_slots s').card ≤ s.m_length + 1 := by
  obtain ⟨s1, hs1⟩ := ensure_can_add_returns GetKey Hash s array
    (by omega : s.m_usable_slots < 1) hk hlen (by omega) hfuel
  obtain ⟨c1, c2, c3, c4, c5⟩ := hcore.grow_step hdense (by omega) hs1
  have hlen1 : s1.m_map.length = 2 ^ (k + 1) := by rw [c3, hlen, pow_succ, Nat.mul_comm]
  obtain ⟨hk1, hm1⟩ := c1.wf.mask_eq hlen1
  obtain ⟨s2, hs2⟩ := add_new__fast_returns Hash (by omega : 1 ≤ k + 1) hk1 hlen1 hm1
    (by simpa using lt_of_le_of_lt c5 hlength) (GetKey (array (i : Int))) i
    (by simpa using hfuel)
  obtain ⟨g1, g2, g3, g4, slot, -, -, g5⟩ := add_new__fast_frame Hash hs2
  refine ⟨{ s2 with m_usable_slots := (s2.m_usable_slots + 2 ^ 32 - 1) % 2 ^ 32,
                    m_length := (s2.m_length + 1) % 2 ^ 32 }, ?_, ?_, ?_, ?_⟩
  · unfold add_new
    rw [hs1]
    simp only [Option.some_bind]
    rw [hs2]
    rfl
  · show s2.m_map.length = _
    rw [g4, c3]
  · show (s2.m_usable_slots + 2 ^ 32 - 1) % 2 ^ 32 = _
    rw [g2, c4]
  · refine le_trans (le_of_eq (congrArg Finset.card
      (non_empty_slots_congr (s := s2) ?_))) ?_
    · rfl
    calc (non_empty_slots s2).card ≤ (insert slot (non_empty_slots s1)).card :=
          Finset.card_le_card g5
      _ ≤ (non_empty_slots s1).card + 1 := Finset.card_insert_le _ _
      _ ≤ s.m_length + 1 := by omega

theorem add_new_list_range_succ (GetKey : Item → Key) (Hash : Key → Nat) (fuel : Nat)
    (s : ArrayLookup) (array : Int → Item) (n : Nat) :
    add_new_list GetKey Hash fuel s array (List.range (n + 1)) =
      (add_new_list GetKey Hash fuel s array (List.range n)).bind fun sn =>
        add_new GetKey Hash fuel sn array n := by
  unfold add_new_list
  rw [List.range_succ, List.foldlM_append]
  cases (List.range n).foldlM (fun st i => add_new GetKey Hash fuel st array i) s with
  | none => rfl
  | some sn => simp [List.foldlM_cons]

/-- The first four calls `add_new(array, 0), ..., add_new(array, 3)` on a default-constructed
lookup return without growing the table of eight slots. -/
theorem add_new_list_first_four (GetKey : Item → Key) (Hash : Key → Nat)
    (array : Int → Item)
    (hinj : ∀ i : Nat, i < 5 → ∀ j : Nat, j < 5 →
      GetKey (array (i : Int)) = GetKey (array (j : Int)) → i = j)
    {s0 : ArrayLookup} (hs0 : ArrayLookup.construct 3 = some s0) {fuel : Nat}
    (hfuel : 15 ≤ fuel) (m : Nat) (hm : m ≤ 4) :
    ∃ sm, add_new_list GetKey Hash fuel s0 array (List.range m) = some sm ∧
      sm.m_map.length = 8 ∧ sm.m_usable_slots = 4 - m ∧ (non_empty_slots sm).card ≤ m ∧
      Core GetKey Hash array sm (Finset.range m) ∧ sm.m_length = m := by
  induction m with
  | zero =>
    obtain ⟨-, hs⟩ := construct_eq_some hs0
    have hc := Core.construct GetKey Hash array hs0
    refine ⟨s0, rfl, ?_, ?_, ?_, by simpa using hc.1, hc.2⟩
    · rw [hs]; simp
    · rw [hs]; rfl
    · rw [hs, non_empty_slots_replicate]; simp
  | succ m ih =>
    obtain ⟨sm, hrun, hlen, husable, hcount, hcore, hlength⟩ := ih (by omega)
    have hnot : m ∉ Finset.range m := by simp
    have hkey : ∀ j ∈ Finset.range m,
        GetKey (array (j : Int)) ≠ GetKey (array (m : Int)) := by
      intro j hj heq
      have hjm : j < m := Finset.mem_range.1 hj
      have := hinj j (by omega) m (by omega) heq
      omega
    obtain ⟨s', hadd, h1, h2, h3⟩ := add_new_returns_no_growth GetKey Hash fuel sm
      array m hcore.wf (k := 3) (by omega) (by rw [hlen]; norm_num) (by omega)
      (by norm_num; omega) (by norm_num; omega)
    have hstep := hcore.add_new_step (by rw [hlength]; simp) hnot (by omega) hkey
      (fun h0 => absurd h0 (by omega)) hadd
    refine ⟨s', ?_, by rw [h1, hlen], ?_, by omega, ?_, ?_⟩
    · rw [add_new_list_range_succ, hrun]; exact hadd
    · rw [h2, husable]
      have : m ≤ 3 := by omega
      interval_cases m <;> rfl
    · rw [Finset.range_succ]; exact hstep.1
    · rw [hstep.2, Finset.card_insert_of_not_mem hnot]; simp

end Returns

section LookupReturns

variable {Key Item : Type}

/-- A loop `ITER_SLOTS` over a well-formed table returns as soon as its body leaves at some
probed slot within the fuel. -/
theorem ITER_SLOTS_returns {β : Type} (Hash : Key → Nat) {s : ArrayLookup} (hwf : WF s)
    (key : Key) (body : Nat → Int → Option β) {fuel n : Nat} (hn : n < fuel)
    (hsome : ∃ st r, s.m_map[slot_at Hash s key n]? = some st ∧
      body (slot_at Hash s key n) st = some r) :
    ∃ r, ITER_SLOTS Hash s key body fuel = some r := by
  classical
  have hex : ∃ m, ∃ st r, s.m_map[slot_at Hash s key m]? = some st ∧
      body (slot_at Hash s key m) st = some r := ⟨n, hsome⟩
  obtain ⟨st, r, hst, hr⟩ := Nat.find_spec hex
  refine ⟨r, (ITER_SLOTS_eq_some_iff Hash s key body fuel r).2
    ⟨Nat.find hex, lt_of_le_of_lt (Nat.find_min' hex hsome) hn, ?_, st, hst, hr⟩⟩
  intro m hm
  have hlt := slot_at_lt Hash hwf key m
  refine ⟨s.m_map[slot_at Hash s key m], by simp [hlt], ?_⟩
  cases hb : body (slot_at Hash s key m) s.m_map[slot_at Hash s key m] with
  | none => rfl
  | some r' =>
    exact absurd ⟨s.m_map[slot_at Hash s key m], r', by simp [hlt], hb⟩ (Nat.find_min hex hm)

/-- In a well-formed table in which fewer than half of the slots are non-empty, the probe
sequence of every key meets an empty slot within `7 + size` steps. -/
theorem exists_slot_at_empty (Hash : Key → Nat) {s : ArrayLookup} (hwf : WF s)
    (hcount : 2 * (non_empty_slots s).card < s.m_map.length) (key : Key) :
    ∃ n, n < 7 + s.m_map.length ∧ s.m_map[slot_at Hash s key n]? = some SLOT_EMPTY := by
  obtain ⟨k, hk, hlen, hm⟩ := hwf
  rcases Nat.eq_zero_or_pos k with hk0 | hkpos
  · subst hk0
    have hlt := slot_at_lt Hash ⟨0, hk, hlen, hm⟩ key 0
    refine ⟨0, by omega, ?_⟩
    by_contra hne
    have hmem : slot_at Hash s key 0 ∈ non_empty_slots s := by
      simp only [non_empty_slots, Finset.mem_filter, Finset.mem_range]
      exact ⟨hlt, hne⟩
    have : 0 < (non_empty_slots s).card := Finset.card_pos.2 ⟨_, hmem⟩
    rw [hlen] at hcount
    omega
  · have h2 : 2 ^ k = 2 * 2 ^ (k - 1) := by
      obtain ⟨k, rfl⟩ := Nat.exists_eq_succ_of_ne_zero (by omega : k ≠ 0)
      simp [pow_succ, Nat.mul_comm]
    obtain ⟨n, hn, hne⟩ := exists_probe_empty hkpos hk hlen hm (by omega)
      (first_slot Hash s key) (first_slot_snd_lt Hash s key)
    exact ⟨n, by omega, hne⟩

/-- The loops of `find` and `contains` return when fewer than half of the slots of a well-formed
table are non-empty. -/
theorem find_returns [DecidableEq Key] (GetKey : Item → Key) (Hash : Key → Nat)
    {s : ArrayLookup} (hwf : WF s) (hcount : 2 * (non_empty_slots s).card < s.m_map.length)
    (array : Int → Item) (key : Key) {fuel : Nat} (hfuel : 7 + s.m_map.length ≤ fuel) :
    ∃ r, find GetKey Hash fuel s array key = some r := by
  obtain ⟨n, hn, hne⟩ := exists_slot_at_empty Hash hwf hcount key
  exact ITER_SLOTS_returns Hash hwf key _ (by omega : n < fuel) ⟨SLOT_EMPTY, -1, hne, by simp⟩

theorem contains_of_find [DecidableEq Key] (GetKey : Item → Key) (Hash : Key → Nat)
    {fuel : Nat} {s : ArrayLookup} {array : Int → Item} {key : Key}
    (h : find GetKey Hash fuel s array key = some (-1)) :
    contains GetKey Hash fuel s array key = some false :=
  (contains_eq_some_iff GetKey Hash fuel s array key false).2 ⟨-1, h, by simp⟩

/-- In a consistent table the lookup of a key that no recorded index has returns nothing but
"not found", and it does return when fewer than half of the slots are non-empty. -/
theorem Core.lookup_absent [DecidableEq Key] {GetKey : Item → Key} {Hash : Key → Nat}
    {array : Int → Item} {s : ArrayLookup} {R : Finset Nat} (h : Core GetKey Hash array s R)
    {key : Key} (hkey : ∀ j ∈ R, GetKey (array (j : Int)) ≠ key) :
    (∀ fuel r, find GetKey Hash fuel s array key = some r → r = -1) ∧
    (∀ fuel b, contains GetKey Hash fuel s array key = some b → b = false) ∧
    (2 * (non_empty_slots s).card < s.m_map.length → ∀ fuel, 7 + s.m_map.length ≤ fuel →
      find GetKey Hash fuel s array key = some (-1) ∧
      contains GetKey Hash fuel s array key = some false) := by
  have h1 : ∀ fuel r, find GetKey Hash fuel s array key = some r → r = -1 :=
    fun fuel r hf => h.find_absent hkey hf
  refine ⟨h1, ?_, ?_⟩
  · intro fuel b hb
    obtain ⟨r, hr, hbr⟩ := (contains_eq_some_iff GetKey Hash fuel s array key b).1 hb
    have := h1 fuel r hr
    cases b
    · rfl
    · exact absurd this (hbr.1 rfl)
  · intro hcount fuel hfuel
    obtain ⟨r, hr⟩ := find_returns GetKey Hash h.wf hcount array key hfuel
    have := h1 fuel r hr
    subst this
    exact ⟨hr, contains_of_find GetKey Hash hr⟩

end LookupReturns

section ClaimAddNew

variable {Key Item : Type}

/-- C1 (amended): on a freshly constructed lookup, let `add_new(array, i)` be called for the
indices of a list without repetitions, all below `2 ^ 31` and with pairwise-distinct keys, such
that every call that has to grow the table (`m_usable_slots = 0` before the call) is made when
the indices added so far are exactly `0, ..., m - 1`, as in the order `0, 1, 2, ...`.  If all
calls return, then afterwards `find(array, GetKey(array[i]))` returns `i` for every added index
`i`, given enough fuel, whether or not a call has grown the table. -/
theorem add_new_then_find [DecidableEq Key] (GetKey : Item → Key) (Hash : Key → Nat)
    (N_EXP : Nat) (array : Int → Item) (fuel : Nat) (s0 s : ArrayLookup) (indices : List Nat)
    (hs0 : ArrayLookup.construct N_EXP = some s0)
    (hnodup : indices.Nodup)
    (hlt : ∀ i ∈ indices, i < 2 ^ 31)
    (hinj : ∀ i ∈ indices, ∀ j ∈ indices,
      GetKey (array (i : Int)) = GetKey (array (j : Int)) → i = j)
    (hdense : ∀ m, m < indices.length → ∀ sm,
      add_new_list GetKey Hash fuel s0 array (indices.take m) = some sm →
      sm.m_usable_slots = 0 → ∀ j, j ∈ indices.take m ↔ j < m)
    (hrun : add_new_list GetKey Hash fuel s0 array indices = some s) :
    ∀ i ∈ indices, ∃ n, ∀ fuel', n < fuel' →
      find GetKey Hash fuel' s array (GetKey (array (i : Int))) = some (i : Int) := by
  have hreach : Reachable GetKey Hash N_EXP array s (∅ ∪ indices.toFinset) :=
    Reachable.add_new_list indices (Reachable.construct hs0) hnodup (by simp) hlt (by simp) hinj
      (by
        intro m hm sm hsm h0
        ext j
        simpa using hdense m hm sm hsm h0 j)
      hrun
  intro i hi
  exact hreach.core.1.find_recorded (by simpa using hi)

/-- C1, witness: after the five calls `add_new(array, 0), ..., add_new(array, 4)`, the last of
which grows the table, `find` returns `3` for the key of the item at index `3`. -/
theorem add_new_then_find_witness :
    ∃ n, ∀ fuel', n < fuel' →
      find get_key_from_item int_hash fuel'
        { m_map := [0, 1, 2, 3, 4, -1, -1, -1, -1, -1, -1, -1, -1, -1, -1, -1],
          m_usable_slots := 4, m_length := 5, m_slot_mask := 15 }
        items_identity (get_key_from_item (items_identity ((3 : Nat) : Int))) =
        some ((3 : Nat) : Int) :=
  add_new_then_find get_key_from_item int_hash 3 items_identity 20 default_lookup _
    [0, 1, 2, 3, 4] (by decide) (by decide) (by decide)
    (by
      intro i _ j _ h
      simp only [get_key_from_item, items_identity] at h
      exact_mod_cast h)
    (by
      intro m hm sm _ _ j
      simp only [List.length_cons, List.length_nil] at hm
      interval_cases m <;> simp <;> omega)
    (by decide) 3 (by decide)

/-- C1, counterexample: the five items `0, ..., 4` with pairwise-distinct keys are added in the
order `4, 3, 2, 1, 0`.  The fifth call grows the table, the rebuild reinserts the indices
`0, ..., 3`, and afterwards `find` returns `-1` for the key of the added index `4`. -/
theorem add_new_out_of_order_counterexample :
    ArrayLookup.construct 3 = some default_lookup ∧
    add_new_list get_key_from_item int_hash 20 default_lookup items_identity [4, 3, 2, 1, 0] =
      some lookup_out_of_order ∧
    find get_key_from_item int_hash 20 lookup_out_of_order items_identity
      (get_key_from_item (items_identity 4)) = some (-1) := by
  decide

end ClaimAddNew

section ClaimRemoveUpdate

variable {Key Item : Type}

/-- A reachable lookup that records the indices `0` and `1` of the array `items_relocated`. -/
theorem reachable_two_items :
    Reachable get_key_from_item int_hash 3 items_relocated lookup_two_items
      (insert 1 (insert 0 ∅)) :=
  Reachable.add_new
    (Reachable.add_new (Reachable.construct (by decide)) (by simp) (by norm_num) (by simp)
      (by decide)
      (show add_new get_key_from_item int_hash 20 default_lookup items_relocated 0 =
        some { m_map := [0, -1, -1, -1, -1, -1, -1, -1], m_usable_slots := 3, m_length := 1,
               m_slot_mask := 7 } by decide))
    (by simp) (by norm_num) (by simp [get_key_from_item, items_relocated]) (by decide)
    (show add_new get_key_from_item int_hash 20 _ items_relocated 1 = some lookup_two_items
      by decide)

/-- C2 (amended): in every state reached by calls that meet the preconditions of the methods
(in particular, a call that grows the table is made when the recorded indices are
`0, ..., m_length - 1`), `remove(GetKey(array[i]), i)` for a recorded index `i` returns, given
enough fuel.  Afterwards `find` returns nothing but `-1` and `contains` nothing but `false` for
the key of `i`; they do return when fewer than half of the slots are non-empty; and `find` still
returns `j` for every other recorded index `j`. -/
theorem remove_then_find [DecidableEq Key] {GetKey : Item → Key} {Hash : Key → Nat}
    {N_EXP : Nat} {array : Int → Item} {s : ArrayLookup} {R : Finset Nat}
    (h : Reachable GetKey Hash N_EXP array s R) {i : Nat} (hi : i ∈ R) :
    ∃ s', (∃ n, ∀ fuel, n < fuel →
        remove Hash fuel s (GetKey (array (i : Int))) i = some s') ∧
      (∀ fuel r, find GetKey Hash fuel s' array (GetKey (array (i : Int))) = some r → r = -1) ∧
      (∀ fuel b, contains GetKey Hash fuel s' array (GetKey (array (i : Int))) = some b →
        b = false) ∧
      (2 * (non_empty_slots s').card < s'.m_map.length →
        ∀ fuel, 7 + s'.m_map.length ≤ fuel →
          find GetKey Hash fuel s' array (GetKey (array (i : Int))) = some (-1) ∧
          contains GetKey Hash fuel s' array (GetKey (array (i : Int))) = some false) ∧
      ∀ j ∈ R, j ≠ i → ∃ n, ∀ fuel, n < fuel →
        find GetKey Hash fuel s' array (GetKey (array (j : Int))) = some (j : Int) := by
  have hcore := h.core.1
  obtain ⟨n, slot, hslot, hret⟩ := hcore.remove_returns hi
  have hcore' := hcore.set_dummy hi hslot ((s.m_length + 2 ^ 32 - 1) % 2 ^ 32)
  have hkey : ∀ j ∈ R.erase i, GetKey (array (j : Int)) ≠ GetKey (array (i : Int)) := by
    intro j hj heq
    exact Finset.ne_of_mem_erase hj (hcore.inj j (Finset.mem_of_mem_erase hj) i hi heq)
  obtain ⟨a1, a2, a3⟩ := hcore'.lookup_absent hkey
  refine ⟨_, ⟨n, hret⟩, a1, a2, a3, ?_⟩
  intro j hj hji
  exact hcore'.find_recorded (Finset.mem_erase.2 ⟨hji, hj⟩)

/-- C2, witness: removing index `0` from a lookup that records the indices `0` and `1`. -/
theorem remove_then_find_witness :
    ∃ s', (∃ n, ∀ fuel, n < fuel →
        remove int_hash fuel lookup_two_items
          (get_key_from_item (items_relocated ((0 : Nat) : Int))) 0 = some s') ∧
      (∀ fuel r, find get_key_from_item int_hash fuel s' items_relocated
        (get_key_from_item (items_relocated ((0 : Nat) : Int))) = some r → r = -1) ∧
      (∀ fuel b, contains get_key_from_item int_hash fuel s' items_relocated
        (get_key_from_item (items_relocated ((0 : Nat) : Int))) = some b → b = false) ∧
      (2 * (non_empty_slots s').card < s'.m_map.length →
        ∀ fuel, 7 + s'.m_map.length ≤ fuel →
          find get_key_from_item int_hash fuel s' items_relocated
            (get_key_from_item (items_relocated ((0 : Nat) : Int))) = some (-1) ∧
          contains get_key_from_item int_hash fuel s' items_relocated
            (get_key_from_item (items_relocated ((0 : Nat) : Int))) = some false) ∧
      ∀ j ∈ insert 1 (insert 0 (∅ : Finset Nat)), j ≠ 0 → ∃ n, ∀ fuel, n < fuel →
        find get_key_from_item int_hash fuel s' items_relocated
          (get_key_from_item (items_relocated (j : Int))) = some (j : Int) :=
  remove_then_find reachable_two_items (by decide)

/-- C2, counterexample: the five items `0, ..., 4` are added in the order `4, 3, 2, 1, 0`.  The
rebuild during the fifth call has already reinserted index `0`, so that the call stores it a
second time; after `remove(GetKey(array[0]), 0)` the lookup still finds index `0`. -/
theorem remove_duplicate_counterexample :
    add_new_list get_key_from_item int_hash 20 default_lookup items_identity [4, 3, 2, 1, 0] =
      some lookup_out_of_order ∧
    remove int_hash 20 lookup_out_of_order (get_key_from_item (items_identity 0)) 0 =
      some { m_map := [-2, 1, 2, 3, -1, -1, 0, -1, -1, -1, -1, -1, -1, -1, -1, -1],
             m_usable_slots := 4, m_length := 4, m_slot_mask := 15 } ∧
    find get_key_from_item int_hash 20
      { m_map := [-2, 1, 2, 3, -1, -1, 0, -1, -1, -1, -1, -1, -1, -1, -1, -1],
        m_usable_slots := 4, m_length := 4, m_slot_mask := 15 }
      items_identity (get_key_from_item (items_identity 0)) = some 0 ∧
    contains get_key_from_item int_hash 20
      { m_map := [-2, 1, 2, 3, -1, -1, 0, -1, -1, -1, -1, -1, -1, -1, -1, -1],
        m_usable_slots := 4, m_length := 4, m_slot_mask := 15 }
      items_identity (get_key_from_item (items_identity 0)) = some true := by
  decide

/-- C4 (amended): in every state reached by calls that meet the preconditions of the methods
(in particular, a call that grows the table is made when the recorded indices are
`0, ..., m_length - 1`), let `old_index` be recorded and `new_index` be an unrecorded index
below `2 ^ 31` whose array element has the same key.  Then `update_index(key, old_index,
new_index)` returns, given enough fuel; it overwrites the one slot that stored `old_index` and
changes nothing else; afterwards `find(array, key)` returns `new_index` and no slot stores
`old_index`. -/
theorem update_index_then_find [DecidableEq Key] {GetKey : Item → Key} {Hash : Key → Nat}
    {N_EXP : Nat} {array : Int → Item} {s : ArrayLookup} {R : Finset Nat}
    (h : Reachable GetKey Hash N_EXP array s R) {old_index new_index : Nat}
    (hold : old_index ∈ R) (hnew : new_index ∉ R) (hlt : new_index < 2 ^ 31)
    (hkey : GetKey (array (new_index : Int)) = GetKey (array (old_index : Int))) :
    ∃ slot, s.m_map[slot]? = some (old_index : Int) ∧ (old_index : Int) ≠ (new_index : Int) ∧
      (∃ n, ∀ fuel, n < fuel →
        update_index Hash fuel s (GetKey (array (old_index : Int))) old_index new_index =
          some { s with m_map := s.m_map.set slot (new_index : Int) } ∧
        find GetKey Hash fuel { s with m_map := s.m_map.set slot (new_index : Int) } array
          (GetKey (array (old_index : Int))) = some (new_index : Int)) ∧
      ∀ a : Nat, (s.m_map.set slot (new_index : Int))[a]? ≠ some (old_index : Int) := by
  have hcore := h.core.1
  obtain ⟨n, slot, hslot, hret⟩ := hcore.update_index_returns hold new_index
  have hcore' := hcore.set_index hold hslot hnew hlt hkey
  rw [to_state_of_lt hlt] at hret hcore'
  have hne : old_index ≠ new_index := fun heq => hnew (heq ▸ hold)
  obtain ⟨n', hfind⟩ := hcore'.find_recorded (Finset.mem_insert_self new_index _)
  rw [hkey] at hfind
  refine ⟨slot, hslot, by exact_mod_cast hne, ⟨max n n', fun fuel hfuel => ?_⟩, ?_⟩
  · exact ⟨hret fuel (lt_of_le_of_lt (le_max_left _ _) hfuel),
      hfind fuel (lt_of_le_of_lt (le_max_right _ _) hfuel)⟩
  · intro a
    have hnot : old_index ∉ insert new_index (R.erase old_index) := by
      simp [hne]
    exact hcore'.not_stored hnot a

/-- C4, witness: the item at index `0` of a lookup that records the indices `0` and `1` is
relocated to index `7`. -/
theorem update_index_then_find_witness :
    ∃ slot, lookup_two_items.m_map[slot]? = some ((0 : Nat) : Int) ∧
      ((0 : Nat) : Int) ≠ ((7 : Nat) : Int) ∧
      (∃ n, ∀ fuel, n < fuel →
        update_index int_hash fuel lookup_two_items
          (get_key_from_item (items_relocated ((0 : Nat) : Int))) 0 7 =
          some { lookup_two_items with
            m_map := lookup_two_items.m_map.set slot ((7 : Nat) : Int) } ∧
        find get_key_from_item int_hash fuel
          { lookup_two_items with m_map := lookup_two_items.m_map.set slot ((7 : Nat) : Int) }
          items_relocated (get_key_from_item (items_relocated ((0 : Nat) : Int))) =
          some ((7 : Nat) : Int)) ∧
      ∀ a : Nat, (lookup_two_items.m_map.set slot ((7 : Nat) : Int))[a]? ≠
        some ((0 : Nat) : Int) :=
  update_index_then_find reachable_two_items (by decide) (by decide) (by norm_num) (by decide)

/-- C4, counterexample: the five items `0, ..., 4` are added in the order `4, 3, 2, 1, 0`, so
that index `0` is stored twice; after `update_index(key, 0, 7)` slot `6` still stores the old
index `0`. -/
theorem update_index_duplicate_counterexample :
    add_new_list get_key_from_item int_hash 20 default_lookup items_relocated [4, 3, 2, 1, 0] =
      some lookup_out_of_order ∧
    get_key_from_item (items_relocated 7) = get_key_from_item (items_relocated 0) ∧
    update_index int_hash 20 lookup_out_of_order (get_key_from_item (items_relocated 0)) 0 7 =
      some { m_map := [7, 1, 2, 3, -1, -1, 0, -1, -1, -1, -1, -1, -1, -1, -1, -1],
             m_usable_slots := 4, m_length := 5, m_slot_mask := 15 } ∧
    ([7, 1, 2, 3, -1, -1, 0, -1, -1, -1, -1, -1, -1, -1, -1, -1] : List Int)[6]? = some 0 := by
  decide

end ClaimRemoveUpdate

section ClaimScenarioLookup

variable {Key Item : Type}

/-- C3: the default constructor (`N_EXP = 3`) yields a table of 8 slots with
`m_usable_slots = 4` and `m_length = 0`.  For every hash function and every array whose first
five items have pairwise-distinct keys, the calls `add_new(array, 0), ..., add_new(array, 4)`
return, given a fuel of at least 15; the table still has 8 slots after each of the first four
calls and has 16 slots after the fifth, with `m_usable_slots = 9 - 5 = 4` and `m_length = 5`;
afterwards `find` returns `i` for the key of the item at index `i`, for `i = 0, ..., 4`. -/
theorem default_capacity_five_items [DecidableEq Key] (GetKey : Item → Key)
    (Hash : Key → Nat) (array : Int → Item)
    (hinj : ∀ i : Nat, i < 5 → ∀ j : Nat, j < 5 →
      GetKey (array (i : Int)) = GetKey (array (j : Int)) → i = j) :
    ArrayLookup.construct 3 = some default_lookup ∧
    default_lookup.m_map.length = 8 ∧ default_lookup.m_usable_slots = 4 ∧
    default_lookup.m_length = 0 ∧
    ∀ fuel, 15 ≤ fuel →
      (∀ m, m ≤ 4 → ∃ sm,
        add_new_list GetKey Hash fuel default_lookup array (List.range m) = some sm ∧
        sm.m_map.length = 8) ∧
      ∃ s5, add_new_list GetKey Hash fuel default_lookup array (List.range 5) = some s5 ∧
        s5.m_map.length = 16 ∧ s5.m_usable_slots = 4 ∧ s5.m_length = 5 ∧
        ∀ i : Nat, i < 5 → ∃ n, ∀ fuel', n < fuel' →
          find GetKey Hash fuel' s5 array (GetKey (array (i : Int))) = some (i : Int) := by
  have hs0 : ArrayLookup.construct 3 = some default_lookup := by decide
  refine ⟨hs0, rfl, rfl, rfl, fun fuel hfuel => ⟨?_, ?_⟩⟩
  · intro m hm
    obtain ⟨sm, hrun, hlen, -⟩ :=
      add_new_list_first_four GetKey Hash array hinj hs0 hfuel m hm
    exact ⟨sm, hrun, hlen⟩
  · obtain ⟨s4, hrun, hlen, husable, -, hcore, hlength⟩ :=
      add_new_list_first_four GetKey Hash array hinj hs0 hfuel 4 (le_refl 4)
    have hdense : Finset.range 4 = Finset.range s4.m_length := by rw [hlength]
    obtain ⟨s5, hadd, h1, h2, -⟩ := add_new_returns_growth fuel hcore hdense 4 (k := 3)
      (by norm_num) (by rw [hlen]; norm_num) (by omega) (by rw [hlength]; norm_num)
      (by norm_num; omega)
    have hnot : 4 ∉ Finset.range 4 := by simp
    have hkey : ∀ j ∈ Finset.range 4,
        GetKey (array (j : Int)) ≠ GetKey (array ((4 : Nat) : Int)) := by
      intro j hj heq
      have hj4 : j < 4 := Finset.mem_range.1 hj
      have := hinj j (by omega) 4 (by omega) heq
      omega
    have hstep := hcore.add_new_step (by rw [hlength]; simp) hnot (by norm_num) hkey
      (fun _ => hdense) hadd
    refine ⟨s5, ?_, ?_, ?_, ?_, ?_⟩
    · rw [add_new_list_range_succ, hrun]; exact hadd
    · rw [h1, hlen]
    · rw [h2, hlen, hlength]; rfl
    · rw [hstep.2, Finset.card_insert_of_not_mem hnot]; simp
    · intro i hi
      refine hstep.1.find_recorded ?_
      rw [← Finset.range_succ]
      exact Finset.mem_range.2 hi

/-- C3, witness: the scenario for `int` items that are their own keys and hash values. -/
theorem default_capacity_five_items_witness :
    ArrayLookup.construct 3 = some default_lookup ∧
    default_lookup.m_map.length = 8 ∧ default_lookup.m_usable_slots = 4 ∧
    default_lookup.m_length = 0 ∧
    ∀ fuel, 15 ≤ fuel →
      (∀ m, m ≤ 4 → ∃ sm,
        add_new_list get_key_from_item int_hash fuel default_lookup items_identity
          (List.range m) = some sm ∧
        sm.m_map.length = 8) ∧
      ∃ s5, add_new_list get_key_from_item int_hash fuel default_lookup items_identity
          (List.range 5) = some s5 ∧
        s5.m_map.length = 16 ∧ s5.m_usable_slots = 4 ∧ s5.m_length = 5 ∧
        ∀ i : Nat, i < 5 → ∃ n, ∀ fuel', n < fuel' →
          find get_key_from_item int_hash fuel' s5 items_identity
            (get_key_from_item (items_identity ((i : Nat) : Int))) = some (i : Int) :=
  default_capacity_five_items get_key_from_item int_hash items_identity
    (by
      intro i _ j _ h
      simp only [get_key_from_item, items_identity] at h
      exact_mod_cast h)

/-- C10 (amended): in every state reached by calls that meet the preconditions of the methods
(in particular, a call that grows the table is made when the recorded indices are
`0, ..., m_length - 1`), for every key that is not the key of a recorded entry `find` returns
nothing but `-1` and `contains` nothing but `false`, and they do return when fewer than half of
the slots are non-empty; and whenever `find` returns a value other than `-1` for any key, the
value is stored in a probed slot, is neither `SLOT_EMPTY` nor `SLOT_DUMMY`, is a recorded index,
and its array element has the key looked for. -/
theorem find_absent_or_sound [DecidableEq Key] {GetKey : Item → Key} {Hash : Key → Nat}
    {N_EXP : Nat} {array : Int → Item} {s : ArrayLookup} {R : Finset Nat}
    (h : Reachable GetKey Hash N_EXP array s R) :
    (∀ key, (∀ j ∈ R, GetKey (array (j : Int)) ≠ key) →
      (∀ fuel r, find GetKey Hash fuel s array key = some r → r = -1) ∧
      (∀ fuel b, contains GetKey Hash fuel s array key = some b → b = false) ∧
      (2 * (non_empty_slots s).card < s.m_map.length → ∀ fuel, 7 + s.m_map.length ≤ fuel →
        find GetKey Hash fuel s array key = some (-1) ∧
        contains GetKey Hash fuel s array key = some false)) ∧
    ∀ key fuel r, find GetKey Hash fuel s array key = some r → r ≠ -1 →
      (∃ n, s.m_map[slot_at Hash s key n]? = some r) ∧ r ≠ SLOT_EMPTY ∧ r ≠ SLOT_DUMMY ∧
      (∃ i ∈ R, r = (i : Int)) ∧ GetKey (array r) = key := by
  have hcore := h.core.1
  refine ⟨fun key hkey => hcore.lookup_absent hkey, ?_⟩
  intro key fuel r hf hr
  obtain ⟨⟨n, hn⟩, h1, h2, h3⟩ := find_sound GetKey Hash fuel s array key r hf hr
  refine ⟨⟨n, hn⟩, h1, h2, ?_, h3⟩
  rcases hcore.slots _ _ hn with h4 | h4 | h4
  · exact absurd h4 h1
  · exact absurd h4 h2
  · exact h4

/-- C10, witness: a lookup that records the indices `0` and `1`. -/
theorem find_absent_or_sound_witness :
    (∀ key, (∀ j ∈ insert 1 (insert 0 (∅ : Finset Nat)),
        get_key_from_item (items_relocated (j : Int)) ≠ key) →
      (∀ fuel r, find get_key_from_item int_hash fuel lookup_two_items items_relocated key =
        some r → r = -1) ∧
      (∀ fuel b, contains get_key_from_item int_hash fuel lookup_two_items items_relocated key =
        some b → b = false) ∧
      (2 * (non_empty_slots lookup_two_items).card < lookup_two_items.m_map.length →
        ∀ fuel, 7 + lookup_two_items.m_map.length ≤ fuel →
        find get_key_from_item int_hash fuel lookup_two_items items_relocated key =
          some (-1) ∧
        contains get_key_from_item int_hash fuel lookup_two_items items_relocated key =
          some false)) ∧
    ∀ key fuel r,
      find get_key_from_item int_hash fuel lookup_two_items items_relocated key = some r →
      r ≠ -1 →
      (∃ n, lookup_two_items.m_map[slot_at int_hash lookup_two_items key n]? = some r) ∧
      r ≠ SLOT_EMPTY ∧ r ≠ SLOT_DUMMY ∧
      (∃ i ∈ insert 1 (insert 0 (∅ : Finset Nat)), r = (i : Int)) ∧
      get_key_from_item (items_relocated r) = key :=
  find_absent_or_sound reachable_two_items

/-- C10, counterexample: the indices `1, ..., 5` are added.  The rebuild during the fifth call
reinserts the indices `0, ..., 3`, and afterwards `find` returns `0` for the key of the item at
index `0`, which is the key of no index that was added. -/
theorem find_unrecorded_counterexample :
    add_new_list get_key_from_item int_hash 20 default_lookup items_identity [1, 2, 3, 4, 5] =
      some { m_map := [0, 1, 2, 3, -1, 5, -1, -1, -1, -1, -1, -1, -1, -1, -1, -1],
             m_usable_slots := 4, m_length := 5, m_slot_mask := 15 } ∧
    (∀ j ∈ [1, 2, 3, 4, 5],
      get_key_from_item (items_identity ((j : Nat) : Int)) ≠
        get_key_from_item (items_identity 0)) ∧
    find get_key_from_item int_hash 20
      { m_map := [0, 1, 2, 3, -1, 5, -1, -1, -1, -1, -1, -1, -1, -1, -1, -1],
        m_usable_slots := 4, m_length := 5, m_slot_mask := 15 }
      items_identity (get_key_from_item (items_identity 0)) = some 0 ∧
    contains get_key_from_item int_hash 20
      { m_map := [0, 1, 2, 3, -1, 5, -1, -1, -1, -1, -1, -1, -1, -1, -1, -1],
        m_usable_slots := 4, m_length := 5, m_slot_mask := 15 }
      items_identity (get_key_from_item (items_identity 0)) = some true := by
  decide

end ClaimScenarioLookup

section ClaimTermination

variable {Key Item : Type}

/-- A loop `ITER_SLOTS` never leaves when it starts in a set of slot and perturbation pairs that
`next_slot` maps into itself and at which the body continues. -/
theorem ITER_SLOTS_from_eq_none {β : Type} (s : ArrayLookup) (body : Nat → Int → Option β)
    (cycle : List (Nat × Nat))
    (hstep : ∀ p ∈ cycle, (s.m_map[p.1]?).map (body p.1) = some none ∧
      next_slot s p.1 p.2 ∈ cycle) :
    ∀ fuel, ∀ p ∈ cycle, ITER_SLOTS_from s body fuel p.1 p.2 = none := by
  intro fuel
  induction fuel with
  | zero => intro p _; rfl
  | succ fuel ih =>
    intro p hp
    obtain ⟨h1, h2⟩ := hstep p hp
    rw [ITER_SLOTS_from]
    cases hst : s.m_map[p.1]? with
    | none => rfl
    | some st =>
      rw [hst] at h1
      simp only [Option.map_some', Option.some.injEq] at h1
      simp only [h1]
      exact ih _ h2

theorem range_toFinset (n : Nat) : (List.range n).toFinset = Finset.range n := by
  ext j
  simp

/-- Successive `add_new` calls for the indices `0, ..., n - 1` of an array with pairwise-distinct
keys lead from the constructed lookup to a reachable state. -/
theorem Reachable.range {GetKey : Item → Key} {Hash : Key → Nat} {N_EXP : Nat}
    {array : Int → Item} (fuel : Nat) {n : Nat} {s0 s : ArrayLookup}
    (hs0 : ArrayLookup.construct N_EXP = some s0) (hn : n ≤ 2 ^ 31)
    (hinj : ∀ i : Nat, i < n → ∀ j : Nat, j < n →
      GetKey (array (i : Int)) = GetKey (array (j : Int)) → i = j)
    (hrun : BLI.add_new_list GetKey Hash fuel s0 array (List.range n) = some s) :
    Reachable GetKey Hash N_EXP array s (Finset.range n) := by
  have := Reachable.add_new_list (List.range n) (Reachable.construct hs0)
    (List.nodup_range n) (by simp)
    (by intro i hi; have := List.mem_range.1 hi; omega) (by simp)
    (by intro i hi j hj; exact hinj i (List.mem_range.1 hi) j (List.mem_range.1 hj))
    (by
      intro m hm sm _ _
      simp only [List.length_range] at hm
      rw [List.take_range, min_eq_left (le_of_lt hm), range_toFinset]
      simp)
    hrun
  rw [range_toFinset] at this
  simpa using this

/-- C5: the probe loops need not terminate.  For the array of the items `0, 2, 4, ...`, which
are their own keys and hash values, the calls `add_new(array, 0), ..., add_new(array, 3)` on a
default-constructed lookup lead to a reachable state in which the four even slots of the eight
slots are occupied and the four odd slots are empty; the probe sequence of the unrecorded key
`8` runs through the even slots only, and the loops of `find` and `contains` for this key are
still running after every number of iterations.  After four more calls the eight even slots of
the grown table of sixteen slots are occupied, `m_usable_slots` is `1`, and the loop of
`add_new(array, 8)`, for the key `16`, is still running after every number of iterations. -/
theorem probe_loops_do_not_terminate :
    Reachable get_key_from_item int_hash 3 items_even lookup_even_four (Finset.range 4) ∧
    (non_empty_slots lookup_even_four).card = 4 ∧ lookup_even_four.m_map.length = 8 ∧
    (∀ fuel, find get_key_from_item int_hash fuel lookup_even_four items_even 8 = none) ∧
    (∀ fuel, contains get_key_from_item int_hash fuel lookup_even_four items_even 8 = none) ∧
    Reachable get_key_from_item int_hash 3 items_even lookup_even_eight (Finset.range 8) ∧
    (non_empty_slots lookup_even_eight).card = 8 ∧ lookup_even_eight.m_map.length = 16 ∧
    (∀ fuel, add_new get_key_from_item int_hash fuel lookup_even_eight items_even 8 = none) := by
  have hinj : ∀ n i : Nat, i < n → ∀ j : Nat, j < n →
      get_key_from_item (items_even (i : Int)) = get_key_from_item (items_even (j : Int)) →
      i = j := by
    intro n i _ j _ h
    simp only [get_key_from_item, items_even] at h
    omega
  refine ⟨?_, by decide, rfl, ?_, ?_, ?_, by decide, rfl, ?_⟩
  · exact Reachable.range 20 (by decide : ArrayLookup.construct 3 = some default_lookup)
      (by norm_num) (hinj 4) (by decide)
  · intro fuel
    exact ITER_SLOTS_from_eq_none lookup_even_four _ [(0, 8), (6, 0), (4, 0), (2, 0), (0, 0)]
      (by decide) fuel (0, 8) (by decide)
  · intro fuel
    exact ITER_SLOTS_from_eq_none lookup_even_four _ [(0, 8), (6, 0), (4, 0), (2, 0), (0, 0)]
      (by decide) fuel (0, 8) (by decide)
  · exact Reachable.range 20 (by decide : ArrayLookup.construct 3 = some default_lookup)
      (by norm_num) (hinj 8) (by decide)
  · intro fuel
    have hfast : add_new__fast int_hash fuel lookup_even_eight
        (get_key_from_item (items_even ((8 : Nat) : Int))) 8 = none :=
      ITER_SLOTS_from_eq_none lookup_even_eight _
        [(0, 16), (6, 0), (12, 0), (2, 0), (8, 0), (14, 0), (4, 0), (10, 0), (0, 0)]
        (by decide) fuel (0, 16) (by decide)
    unfold add_new
    rw [ensure_can_add_noop get_key_from_item int_hash fuel lookup_even_eight items_even
      (by decide), Option.some_bind, hfast]
    rfl

end ClaimTermination

section ClaimRebuild

variable {Key Item : Type}

/-- The growing branch of `ensure_can_add` does not return on a table of `2 ^ k` slots with
`31 ≤ k`: the doubled size wraps around to zero and fails the assertion of `reset_map`. -/
theorem ensure_can_add_wraps (GetKey : Item → Key) (Hash : Key → Nat) (fuel : Nat)
    (s : ArrayLookup) (array : Int → Item) {amount : Nat} (h : s.m_usable_slots < amount)
    {k : Nat} (hk : 31 ≤ k) (hlen : s.m_map.length = 2 ^ k) :
    ensure_can_add GetKey Hash fuel s array amount = none := by
  have h1 : s.m_map.length * 2 % 2 ^ 32 = 0 := by
    rw [hlen, ← pow_succ]
    exact Nat.mod_eq_zero_of_dvd (Nat.pow_dvd_pow 2 (by omega))
  unfold ensure_can_add reset_map
  rw [if_neg (by omega), h1, if_neg (by rw [count_bits_i_zero]; omega)]
  rfl

/-- The rebuild loop of `ensure_can_add` stores nothing but the indices it reinserts. -/
theorem rebuild_slots (GetKey : Item → Key) (Hash : Key → Nat) (fuel : Nat)
    (array : Int → Item) (s1 : ArrayLookup)
    (hs1 : ∀ (slot : Nat) (st : Int), s1.m_map[slot]? = some st → st = SLOT_EMPTY) (n : Nat)
    (s2 : ArrayLookup)
    (h : (List.range n).foldlM
      (fun st (i : Nat) => insert_index Hash fuel st (GetKey (array (i : Int))) i) s1 = some s2) :
    ∀ (slot : Nat) (st : Int), s2.m_map[slot]? = some st →
      st = SLOT_EMPTY ∨ ∃ i : Nat, i < n ∧ st = to_state i := by
  induction n generalizing s2 with
  | zero =>
    simp only [List.range_zero, List.foldlM_nil] at h
    cases h
    intro slot st hst
    exact Or.inl (hs1 slot st hst)
  | succ n ih =>
    rw [List.range_succ, List.foldlM_append] at h
    cases hmid : (List.range n).foldlM
      (fun st (i : Nat) => insert_index Hash fuel st (GetKey (array (i : Int))) i) s1 with
    | none => rw [hmid] at h; simp at h
    | some smid =>
      rw [hmid] at h
      simp only [Option.some_bind, List.foldlM_cons, List.foldlM_nil, Option.bind_eq_bind] at h
      have hstep : add_new__fast Hash fuel smid (GetKey (array (n : Int))) n = some s2 := by
        cases hx : insert_index Hash fuel smid (GetKey (array (n : Int))) n with
        | none => rw [hx] at h; simp at h
        | some x => rw [hx] at h; rw [← insert_index_eq_add_new__fast, hx]; simpa using h
      obtain ⟨-, -, -, -, slot0, hempty, hmap, -⟩ := add_new__fast_frame Hash hstep
      intro slot st hst
      rw [hmap, List.getElem?_set] at hst
      by_cases hs : slot0 = slot
      · rw [if_pos hs] at hst
        by_cases hl : slot0 < smid.m_map.length
        · rw [if_pos hl] at hst
          exact Or.inr ⟨n, by omega, (Option.some.inj hst).symm⟩
        · rw [if_neg hl] at hst
          exact absurd hst (by simp)
      · rw [if_neg hs] at hst
        rcases ih smid hmid slot st hst with h1 | ⟨i, hi, h1⟩
        · exact Or.inl h1
        · exact Or.inr ⟨i, by omega, h1⟩

/-- A returning growth of `ensure_can_add`, on a table of `2 ^ k` slots, `k ≤ 30`, and for an
array whose first `m_length` items have pairwise-distinct keys: the new table is consistent
with the recorded indices `0, ..., m_length - 1` and holds no tombstone. -/
theorem ensure_can_add_grow_core (GetKey : Item → Key) (Hash : Key → Nat) (fuel : Nat)
    (s : ArrayLookup) (array : Int → Item) {amount : Nat} (hgrow : s.m_usable_slots < amount)
    {k : Nat} (hk : k ≤ 30) (hlen : s.m_map.length = 2 ^ k) (hlength : s.m_length ≤ 2 ^ 31)
    (hinj : ∀ i : Nat, i < s.m_length → ∀ j : Nat, j < s.m_length →
      GetKey (array (i : Int)) = GetKey (array (j : Int)) → i = j)
    {s' : ArrayLookup} (hens : ensure_can_add GetKey Hash fuel s array amount = some s') :
    Core GetKey Hash array s' (Finset.range s.m_length) ∧
      s'.m_map.length = 2 * s.m_map.length ∧
      ∀ (slot : Nat) (st : Int), s'.m_map[slot]? = some st →
        st = SLOT_EMPTY ∨ ∃ i : Nat, i < s.m_length ∧ st = (i : Int) := by
  rw [ensure_can_add_grow GetKey Hash fuel s array hgrow hk hlen] at hens
  cases hfold : (List.range s.m_length).foldlM
      (fun st (i : Nat) => insert_index Hash fuel st (GetKey (array (i : Int))) i)
      { m_map := List.replicate (2 ^ (k + 1)) SLOT_EMPTY
        m_usable_slots := 2 ^ (k + 1) * 10066330 / 2 ^ 24
        m_length := s.m_length
        m_slot_mask := 2 ^ (k + 1) - 1 } with
  | none => rw [hfold] at hens; simp at hens
  | some s2 =>
    rw [hfold] at hens
    simp only [Option.some_bind, Option.some.injEq] at hens
    subst hens
    have hcore := rebuild_core GetKey Hash fuel array _
      (Core.reset GetKey Hash array (by omega : k + 1 ≤ 31) _ _) s.m_length hlength hinj s2
      hfold
    obtain ⟨-, -, -, h4, -⟩ := rebuild_frame GetKey Hash fuel array _ _ s2 hfold
    have hslots := rebuild_slots GetKey Hash fuel array _
      (by
        intro slot st hst
        rw [List.getElem?_replicate] at hst
        by_cases hl : slot < 2 ^ (k + 1)
        · rw [if_pos hl] at hst; exact (Option.some.inj hst).symm
        · rw [if_neg hl] at hst; exact absurd hst (by simp))
      s.m_length s2 hfold
    refine ⟨hcore.congr rfl rfl, ?_, ?_⟩
    · show s2.m_map.length = _
      rw [h4, hlen, List.length_replicate, pow_succ, Nat.mul_comm]
    · intro slot st hst
      rcases hslots slot st hst with h1 | ⟨i, hi, h1⟩
      · exact Or.inl h1
      · exact Or.inr ⟨i, hi, by rw [h1, to_state_of_lt (by omega)]⟩

/-- C6 (amended): when `ensure_can_add` grows a table of `2 ^ k ≤ 2 ^ 30` slots, for an array
whose first `m_length ≤ 2 ^ k` items have pairwise-distinct keys, it returns, given a fuel of at
least `7 + 2 ^ k`.  The new table has exactly twice the old capacity; its non-empty slots hold
exactly the indices `0, ..., m_length - 1`, each of them once and each reinserted under the key
read from the array at that index, on the probe sequence of that key before any empty slot; no
tombstone survives; `find` returns `i` for the key of every index `i < m_length`; and if the old
table stored no other indices than `0, ..., m_length - 1`, every key that was found before is
found at the same index afterwards. -/
theorem ensure_can_add_rebuilds [DecidableEq Key] (GetKey : Item → Key) (Hash : Key → Nat)
    (fuel : Nat) (s : ArrayLookup) (array : Int → Item) (amount k : Nat) (hk : k ≤ 30)
    (hlen : s.m_map.length = 2 ^ k) (hgrow : s.m_usable_slots < amount)
    (hlength : s.m_length ≤ 2 ^ k)
    (hinj : ∀ i : Nat, i < s.m_length → ∀ j : Nat, j < s.m_length →
      GetKey (array (i : Int)) = GetKey (array (j : Int)) → i = j)
    (hfuel : 7 + 2 ^ k ≤ fuel) :
    ∃ s', ensure_can_add GetKey Hash fuel s array amount = some s' ∧
      s'.m_map.length = 2 * s.m_map.length ∧
      (∀ (slot : Nat) (st : Int), s'.m_map[slot]? = some st →
        st = SLOT_EMPTY ∨ ∃ i : Nat, i < s.m_length ∧ st = (i : Int)) ∧
      (∀ i : Nat, i < s.m_length →
        ∃ n, s'.m_map[slot_at Hash s' (GetKey (array (i : Int))) n]? = some (i : Int) ∧
          ∀ m, m < n →
            s'.m_map[slot_at Hash s' (GetKey (array (i : Int))) m]? ≠ some SLOT_EMPTY) ∧
      (∀ a b i : Nat, i < s.m_length → s'.m_map[a]? = some (i : Int) →
        s'.m_map[b]? = some (i : Int) → a = b) ∧
      (∀ i : Nat, i < s.m_length → ∃ n, ∀ fuel', n < fuel' →
        find GetKey Hash fuel' s' array (GetKey (array (i : Int))) = some (i : Int)) ∧
      ((∀ (slot : Nat) (st : Int), s.m_map[slot]? = some st →
          st = SLOT_EMPTY ∨ st = SLOT_DUMMY ∨ ∃ i : Nat, i < s.m_length ∧ st = (i : Int)) →
        ∀ key fuel0 r, find GetKey Hash fuel0 s array key = some r → r ≠ -1 →
          ∃ n, ∀ fuel', n < fuel' → find GetKey Hash fuel' s' array key = some r) := by
  have h30 : 2 ^ k ≤ 2 ^ 30 := Nat.pow_le_pow_right (by norm_num) hk
  obtain ⟨s', hens⟩ := ensure_can_add_returns GetKey Hash s array hgrow hk hlen hlength hfuel
  obtain ⟨hcore, hlen', hslots⟩ := ensure_can_add_grow_core GetKey Hash fuel s array hgrow hk
    hlen (by omega) hinj hens
  refine ⟨s', hens, hlen', hslots, ?_, ?_, ?_, ?_⟩
  · intro i hi
    obtain ⟨n, hn, hpre⟩ := hcore.path i (Finset.mem_range.2 hi)
    exact ⟨n, hn, fun m hm => (hpre m hm).1⟩
  · intro a b i hi
    exact hcore.uniq a b i (Finset.mem_range.2 hi)
  · intro i hi
    exact hcore.find_recorded (Finset.mem_range.2 hi)
  · intro hstored key fuel0 r hf hr
    obtain ⟨⟨n, hn⟩, h1, h2, h3⟩ := find_sound GetKey Hash fuel0 s array key r hf hr
    rcases hstored _ _ hn with h4 | h4 | ⟨i, hi, h4⟩
    · exact absurd h4 h1
    · exact absurd h4 h2
    · subst h4
      rw [← h3]
      exact hcore.find_recorded (Finset.mem_range.2 hi)

/-- C6, witness: the growth of the default lookup that records the indices `0, ..., 3`. -/
theorem ensure_can_add_rebuilds_witness :
    ∃ s', ensure_can_add get_key_from_item int_hash 20 lookup_four items_identity 1 = some s' ∧
      s'.m_map.length = 2 * lookup_four.m_map.length ∧
      ∀ (slot : Nat) (st : Int), s'.m_map[slot]? = some st →
        st = SLOT_EMPTY ∨ ∃ i : Nat, i < lookup_four.m_length ∧ st = (i : Int) :=
  (ensure_can_add_rebuilds get_key_from_item int_hash 20 lookup_four items_identity 1 3
    (by norm_num) (by decide) (by decide) (by decide)
    (by
      intro i _ j _ h
      simp only [get_key_from_item, items_identity] at h
      exact_mod_cast h)
    (by norm_num)).imp fun _ h => ⟨h.1, h.2.1, h.2.2.1⟩

/-- C6, counterexample: the default lookup records the indices `1, 2, 3, 4` and finds index `4`
for its key.  The growth reinserts the indices `0, 1, 2, 3`: the new table stores index `0`,
which the old table did not store, no longer stores index `4`, and `find` returns `-1` for the
key of index `4`. -/
theorem rebuild_reinserts_prefix_counterexample :
    add_new_list get_key_from_item int_hash 20 default_lookup items_identity [1, 2, 3, 4] =
      some lookup_shifted ∧
    find get_key_from_item int_hash 20 lookup_shifted items_identity
      (get_key_from_item (items_identity 4)) = some 4 ∧
    ensure_can_add get_key_from_item int_hash 20 lookup_shifted items_identity 1 =
      some lookup_rebuilt ∧
    (0 : Int) ∉ lookup_shifted.m_map ∧ (0 : Int) ∈ lookup_rebuilt.m_map ∧
    (4 : Int) ∈ lookup_shifted.m_map ∧ (4 : Int) ∉ lookup_rebuilt.m_map ∧
    find get_key_from_item int_hash 20 lookup_rebuilt items_identity
      (get_key_from_item (items_identity 4)) = some (-1) := by
  decide

end ClaimRebuild

section ClaimRange

variable {Key Item : Type}

/-- The insertion loop depends on the key through its hash value only. -/
theorem add_new__fast_congr (Hash : Key → Nat) (fuel : Nat) (s : ArrayLookup) {key key' : Key}
    (h : Hash key = Hash key') (index : Nat) :
    add_new__fast Hash fuel s key index = add_new__fast Hash fuel s key' index := by
  unfold add_new__fast ITER_SLOTS first_slot
  rw [h]

/-- The method `add_new_range` depends on the value of the name `index` through the hash value
of the key of `array[index]` only. -/
theorem add_new_range_congr (GetKey : Item → Key) (Hash : Key → Nat) (fuel : Nat)
    (s : ArrayLookup) (array : Int → Item) (start stop : Nat) {index index' : Nat}
    (h : Hash (GetKey (array (index : Int))) = Hash (GetKey (array (index' : Int)))) :
    add_new_range GetKey Hash fuel s array start stop index =
      add_new_range GetKey Hash fuel s array start stop index' := by
  unfold add_new_range
  have hfun : (fun st (i : Nat) =>
        add_new__fast Hash fuel st (GetKey (array (index : Int))) i) =
      (fun st (i : Nat) => add_new__fast Hash fuel st (GetKey (array (index' : Int))) i) := by
    funext st i
    exact add_new__fast_congr Hash fuel st h i
  rw [hfun]

/-- C7: `add_new_range` is not the batched form of `add_new`.  Its loop inserts every index of
the range under the key of `array[index]`, for a name `index` that is not the loop variable.
For the items `0` and `1`, which are their own keys, and whatever the name `index` denotes,
`add_new_range(array, 0, 2)` on a default-constructed lookup leaves a table in which `find`
returns `-1` for the key of one of the two added indices, whereas after `add_new(array, 0)` and
`add_new(array, 1)` it returns `0` and `1`. -/
theorem add_new_range_loses_key (index : Nat) :
    (index = 0 →
      add_new_range get_key_from_item zero_one_hash 20 default_lookup items_identity 0 2 index =
        some { m_map := [0, -1, -1, -1, -1, -1, 1, -1], m_usable_slots := 2, m_length := 2,
               m_slot_mask := 7 } ∧
      find get_key_from_item zero_one_hash 20
        { m_map := [0, -1, -1, -1, -1, -1, 1, -1], m_usable_slots := 2, m_length := 2,
          m_slot_mask := 7 }
        items_identity (get_key_from_item (items_identity 1)) = some (-1)) ∧
    (index ≠ 0 →
      add_new_range get_key_from_item zero_one_hash 20 default_lookup items_identity 0 2 index =
        some { m_map := [1, 0, -1, -1, -1, -1, -1, -1], m_usable_slots := 2, m_length := 2,
               m_slot_mask := 7 } ∧
      find get_key_from_item zero_one_hash 20
        { m_map := [1, 0, -1, -1, -1, -1, -1, -1], m_usable_slots := 2, m_length := 2,
          m_slot_mask := 7 }
        items_identity (get_key_from_item (items_identity 0)) = some (-1)) ∧
    add_new_list get_key_from_item zero_one_hash 20 default_lookup items_identity [0, 1] =
      some lookup_two_items ∧
    find get_key_from_item zero_one_hash 20 lookup_two_items items_identity
      (get_key_from_item (items_identity 0)) = some 0 ∧
    find get_key_from_item zero_one_hash 20 lookup_two_items items_identity
      (get_key_from_item (items_identity 1)) = some 1 := by
  refine ⟨?_, ?_, by decide, by decide, by decide⟩
  · intro h0
    subst h0
    decide
  · intro hne
    have hhash : zero_one_hash (get_key_from_item (items_identity (index : Int))) =
        zero_one_hash (get_key_from_item (items_identity ((1 : Nat) : Int))) := by
      have : (index : Int) ≠ 0 := by exact_mod_cast hne
      simp [zero_one_hash, get_key_from_item, items_identity, this]
    rw [add_new_range_congr get_key_from_item zero_one_hash 20 default_lookup items_identity 0 2
      hhash]
    decide

/-- C8: `ensure_can_add(array, amount)` does not reserve `amount` insertions.  On a
default-constructed lookup `ensure_can_add(array, 10)` doubles the table once and returns with
`m_usable_slots = 9`, which is less than `10`.  On the lookup constructed with `N_EXP = 0`,
`add_new_range(array, 0, 2)` reserves `1` insertion for its `2` insertions, and its final
`m_usable_slots -= amount` wraps around to `2 ^ 32 - 1`. -/
theorem ensure_can_add_falls_short :
    ArrayLookup.construct 3 = some default_lookup ∧
    (∀ fuel, ensure_can_add get_key_from_item int_hash fuel default_lookup items_identity 10 =
      some { m_map := List.replicate 16 SLOT_EMPTY, m_usable_slots := 9, m_length := 0,
             m_slot_mask := 15 }) ∧
    (9 : Nat) < 10 ∧
    ArrayLookup.construct 0 = some single_slot_lookup ∧
    ensure_can_add get_key_from_item zero_one_hash 20 single_slot_lookup items_identity 2 =
      some { m_map := [-1, -1], m_usable_slots := 1, m_length := 0, m_slot_mask := 1 } ∧
    add_new_range get_key_from_item zero_one_hash 20 single_slot_lookup items_identity 0 2 1 =
      some { m_map := [1, 0], m_usable_slots := 2 ^ 32 - 1, m_length := 2, m_slot_mask := 1 } := by
  refine ⟨by decide, fun fuel => rfl, by decide, by decide, by decide, by decide⟩

/-- C9: if `amount ≤ m_usable_slots`, then `ensure_can_add(array, amount)` returns the state
unchanged, and so does every sequence of such calls.  If `m_usable_slots < amount` and the table
size is a power of two, then the capacity after a returning call is exactly twice the capacity
before; the call does return for a table of `2 ^ k ≤ 2 ^ 30` slots with `m_length ≤ 2 ^ k`,
given a fuel of at least `7 + 2 ^ k`. -/
theorem ensure_can_add_capacity (GetKey : Item → Key) (Hash : Key → Nat) (s : ArrayLookup)
    (array : Int → Item) (amount : Nat) :
    (amount ≤ s.m_usable_slots →
      (∀ fuel, ensure_can_add GetKey Hash fuel s array amount = some s) ∧
      ∀ fuel (amounts : List Nat), (∀ a ∈ amounts, a ≤ s.m_usable_slots) →
        amounts.foldlM (fun st a => ensure_can_add GetKey Hash fuel st array a) s = some s) ∧
    (s.m_usable_slots < amount → ∀ k, s.m_map.length = 2 ^ k →
      (∀ fuel s', ensure_can_add GetKey Hash fuel s array amount = some s' →
        s'.m_map.length = 2 * s.m_map.length) ∧
      (k ≤ 30 → s.m_length ≤ 2 ^ k → ∀ fuel, 7 + 2 ^ k ≤ fuel →
        ∃ s', ensure_can_add GetKey Hash fuel s array amount = some s' ∧
          s'.m_map.length = 2 * s.m_map.length)) := by
  have hdouble : s.m_usable_slots < amount → ∀ k, s.m_map.length = 2 ^ k →
      ∀ fuel s', ensure_can_add GetKey Hash fuel s array amount = some s' →
        s'.m_map.length = 2 * s.m_map.length := by
    intro hgrow k hlen fuel s' hens
    rcases Nat.lt_or_ge k 31 with hk | hk
    · rw [ensure_can_add_grow GetKey Hash fuel s array hgrow (by omega : k ≤ 30) hlen] at hens
      cases hfold : (List.range s.m_length).foldlM
          (fun st (i : Nat) => insert_index Hash fuel st (GetKey (array (i : Int))) i)
          { m_map := List.replicate (2 ^ (k + 1)) SLOT_EMPTY
            m_usable_slots := 2 ^ (k + 1) * 10066330 / 2 ^ 24
            m_length := s.m_length
            m_slot_mask := 2 ^ (k + 1) - 1 } with
      | none => rw [hfold] at hens; simp at hens
      | some s2 =>
        rw [hfold] at hens
        simp only [Option.some_bind, Option.some.injEq] at hens
        subst hens
        obtain ⟨-, -, -, h4, -⟩ := rebuild_frame GetKey Hash fuel array _ _ s2 hfold
        show s2.m_map.length = _
        rw [h4, hlen, List.length_replicate, pow_succ, Nat.mul_comm]
    · rw [ensure_can_add_wraps GetKey Hash fuel s array hgrow hk hlen] at hens
      exact absurd hens (by simp)
  refine ⟨fun hle => ⟨fun fuel => ensure_can_add_noop GetKey Hash fuel s array hle, ?_⟩,
    fun hgrow k hlen => ⟨hdouble hgrow k hlen, ?_⟩⟩
  · intro fuel amounts
    induction amounts with
    | nil => intro _; rfl
    | cons a rest ih =>
      intro hall
      rw [List.foldlM_cons, ensure_can_add_noop GetKey Hash fuel s array
        (hall a (List.mem_cons_self _ _))]
      exact ih (fun b hb => hall b (List.mem_cons_of_mem _ hb))
  · intro hk hlength fuel hfuel
    obtain ⟨s', hens⟩ := ensure_can_add_returns GetKey Hash s array hgrow hk hlen hlength hfuel
    exact ⟨s', hens, hdouble hgrow k hlen fuel s' hens⟩

/-- C9, witness: on the default lookup that records the indices `0, ..., 3` the call
`ensure_can_add(array, 1)` returns with twice the capacity, and on the default-constructed
lookup it returns the state unchanged. -/
theorem ensure_can_add_capacity_witness :
    (∃ s', ensure_can_add get_key_from_item int_hash 20 lookup_four items_identity 1 =
        some s' ∧ s'.m_map.length = 2 * lookup_four.m_map.length) ∧
    ensure_can_add get_key_from_item int_hash 20 default_lookup items_identity 1 =
      some default_lookup :=
  ⟨((ensure_can_add_capacity get_key_from_item int_hash lookup_four items_identity 1).2
      (by decide) 3 (by decide)).2 (by norm_num) (by decide) 20 (by norm_num),
   ((ensure_can_add_capacity get_key_from_item int_hash default_lookup items_identity 1).1
      (by decide)).1 20⟩

end ClaimRange

section Counting

variable {Key Item : Type}

theorem mem_occupied_slots {s : ArrayLookup} {a : Nat} :
    a ∈ occupied_slots s ↔
      ∃ st, s.m_map[a]? = some st ∧ st ≠ SLOT_EMPTY ∧ st ≠ SLOT_DUMMY := by
  simp only [occupied_slots, Finset.mem_filter, Finset.mem_range]
  constructor
  · rintro ⟨ha, h1, h2⟩
    refine ⟨s.m_map[a], List.getElem?_eq_getElem ha, ?_, ?_⟩
    · intro h
      exact h1 (by rw [List.getElem?_eq_getElem ha, h])
    · intro h
      exact h2 (by rw [List.getElem?_eq_getElem ha, h])
  · rintro ⟨st, hst, h1, h2⟩
    refine ⟨(List.getElem?_eq_some.1 hst).1, ?_, ?_⟩
    · rw [hst]
      exact fun h => h1 (Option.some.inj h)
    · rw [hst]
      exact fun h => h2 (Option.some.inj h)

theorem mem_tombstone_slots {s : ArrayLookup} {a : Nat} :
    a ∈ tombstone_slots s ↔ s.m_map[a]? = some SLOT_DUMMY := by
  simp only [tombstone_slots, Finset.mem_filter, Finset.mem_range]
  constructor
  · exact fun h => h.2
  · exact fun h => ⟨(List.getElem?_eq_some.1 h).1, h⟩

theorem mem_non_empty_slots {s : ArrayLookup} {a : Nat} :
    a ∈ non_empty_slots s ↔ ∃ st, s.m_map[a]? = some st ∧ st ≠ SLOT_EMPTY := by
  simp only [non_empty_slots, Finset.mem_filter, Finset.mem_range]
  constructor
  · rintro ⟨ha, h1⟩
    refine ⟨s.m_map[a], List.getElem?_eq_getElem ha, ?_⟩
    intro h
    exact h1 (by rw [List.getElem?_eq_getElem ha, h])
  · rintro ⟨st, hst, h1⟩
    refine ⟨(List.getElem?_eq_some.1 hst).1, ?_⟩
    rw [hst]
    exact fun h => h1 (Option.some.inj h)

/-- The non-empty slots are the Occupied slots together with the Tombstone slots. -/
theorem card_non_empty_slots (s : ArrayLookup) :
    (non_empty_slots s).card = (occupied_slots s).card + (tombstone_slots s).card := by
  have hunion : non_empty_slots s = occupied_slots s ∪ tombstone_slots s := by
    ext a
    simp only [Finset.mem_union, mem_non_empty_slots, mem_occupied_slots, mem_tombstone_slots]
    constructor
    · rintro ⟨st, hst, h1⟩
      by_cases h2 : st = SLOT_DUMMY
      · exact Or.inr (by rw [hst, h2])
      · exact Or.inl ⟨st, hst, h1, h2⟩
    · rintro (⟨st, hst, h1, -⟩ | h)
      · exact ⟨st, hst, h1⟩
      · exact ⟨SLOT_DUMMY, h, by decide⟩
  have hdisj : Disjoint (occupied_slots s) (tombstone_slots s) := by
    rw [Finset.disjoint_left]
    intro a ha hb
    obtain ⟨st, hst, -, h2⟩ := mem_occupied_slots.1 ha
    rw [mem_tombstone_slots.1 hb] at hst
    exact h2 (Option.some.inj hst).symm
  rw [hunion, Finset.card_union_of_disjoint hdisj]

theorem occupied_slots_congr {s t : ArrayLookup} (h : t.m_map = s.m_map) :
    occupied_slots t = occupied_slots s := by
  unfold occupied_slots
  rw [h]

theorem tombstone_slots_congr {s t : ArrayLookup} (h : t.m_map = s.m_map) :
    tombstone_slots t = tombstone_slots s := by
  unfold tombstone_slots
  rw [h]

/-- The value of a slot after one slot of the table has been written. -/
theorem getElem?_of_set {s s' : ArrayLookup} {slot : Nat} {v : Int}
    (hmap : s'.m_map = s.m_map.set slot v) (hslot : slot < s.m_map.length) (a : Nat) :
    s'.m_map[a]? = if a = slot then some v else s.m_map[a]? := by
  rw [hmap, List.getElem?_set]
  by_cases h : slot = a
  · subst h
    simp [hslot]
  · rw [if_neg h, if_neg (fun h' => h h'.symm)]

/-- Writing an index into an Empty slot: one more Occupied slot, one more non-empty slot, the
same Tombstone slots. -/
theorem count_set_empty {s s' : ArrayLookup} {slot : Nat} {v : Int}
    (hmap : s'.m_map = s.m_map.set slot v) (hempty : s.m_map[slot]? = some SLOT_EMPTY)
    (hv1 : v ≠ SLOT_EMPTY) (hv2 : v ≠ SLOT_DUMMY) :
    (occupied_slots s').card = (occupied_slots s).card + 1 ∧
      tombstone_slots s' = tombstone_slots s ∧
      (non_empty_slots s').card = (non_empty_slots s).card + 1 := by
  have hslot : slot < s.m_map.length := (List.getElem?_eq_some.1 hempty).1
  have hget := getElem?_of_set hmap hslot
  have hocc : occupied_slots s' = insert slot (occupied_slots s) := by
    ext a
    simp only [Finset.mem_insert, mem_occupied_slots, hget a]
    by_cases ha : a = slot
    · simp only [ha, if_true, true_or, iff_true]
      exact ⟨v, rfl, hv1, hv2⟩
    · simp only [ha, if_false, false_or]
  have hnot : slot ∉ occupied_slots s := by
    intro h
    obtain ⟨st, hst, h1, -⟩ := mem_occupied_slots.1 h
    rw [hempty] at hst
    exact h1 (Option.some.inj hst).symm
  have htomb : tombstone_slots s' = tombstone_slots s := by
    ext a
    simp only [mem_tombstone_slots, hget a]
    by_cases ha : a = slot
    · simp only [ha, if_true, hempty]
      constructor
      · intro h
        exact absurd (Option.some.inj h) hv2
      · intro h
        exact absurd (Option.some.inj h) (by decide)
    · simp only [ha, if_false]
  refine ⟨?_, htomb, ?_⟩
  · rw [hocc, Finset.card_insert_of_not_mem hnot]
  · rw [card_non_empty_slots, card_non_empty_slots, htomb, hocc,
      Finset.card_insert_of_not_mem hnot]
    omega

/-- Writing the Tombstone marker into an Occupied slot: one Occupied slot less, one Tombstone
more, the same number of non-empty slots. -/
theorem count_set_dummy {s s' : ArrayLookup} {slot : Nat} {st : Int}
    (hmap : s'.m_map = s.m_map.set slot SLOT_DUMMY) (hst : s.m_map[slot]? = some st)
    (h1 : st ≠ SLOT_EMPTY) (h2 : st ≠ SLOT_DUMMY) :
    (occupied_slots s').card + 1 = (occupied_slots s).card ∧
      (tombstone_slots s').card = (tombstone_slots s).card + 1 ∧
      (non_empty_slots s').card = (non_empty_slots s).card := by
  have hslot : slot < s.m_map.length := (List.getElem?_eq_some.1 hst).1
  have hget := getElem?_of_set hmap hslot
  have hocc : occupied_slots s' = (occupied_slots s).erase slot := by
    ext a
    simp only [Finset.mem_erase, mem_occupied_slots, hget a]
    by_cases ha : a = slot
    · simp only [ha, if_true, ne_eq, not_true_eq_false, false_and, iff_false]
      rintro ⟨x, hx, -, hx2⟩
      exact hx2 (Option.some.inj hx).symm
    · simp only [ha, if_false, ne_eq, not_false_eq_true, true_and]
  have hmem : slot ∈ occupied_slots s := mem_occupied_slots.2 ⟨st, hst, h1, h2⟩
  have htomb : tombstone_slots s' = insert slot (tombstone_slots s) := by
    ext a
    simp only [Finset.mem_insert, mem_tombstone_slots, hget a]
    by_cases ha : a = slot
    · simp only [ha, if_true, true_or]
    · simp only [ha, if_false, false_or]
  have hnot : slot ∉ tombstone_slots s := by
    intro h
    rw [mem_tombstone_slots.1 h] at hst
    exact h2 (Option.some.inj hst).symm
  have hc1 : (occupied_slots s').card + 1 = (occupied_slots s).card := by
    rw [hocc, Finset.card_erase_of_mem hmem]
    have := Finset.card_pos.2 ⟨slot, hmem⟩
    omega
  have hc2 : (tombstone_slots s').card = (tombstone_slots s).card + 1 := by
    rw [htomb, Finset.card_insert_of_not_mem hnot]
  refine ⟨hc1, hc2, ?_⟩
  rw [card_non_empty_slots, card_non_empty_slots]
  omega

/-- Overwriting the index of an Occupied slot by another index changes none of the three sets. -/
theorem count_set_index {s s' : ArrayLookup} {slot : Nat} {st v : Int}
    (hmap : s'.m_map = s.m_map.set slot v) (hst : s.m_map[slot]? = some st)
    (h1 : st ≠ SLOT_EMPTY) (h2 : st ≠ SLOT_DUMMY) (hv1 : v ≠ SLOT_EMPTY) (hv2 : v ≠ SLOT_DUMMY) :
    occupied_slots s' = occupied_slots s ∧ tombstone_slots s' = tombstone_slots s ∧
      non_empty_slots s' = non_empty_slots s := by
  have hslot : slot < s.m_map.length := (List.getElem?_eq_some.1 hst).1
  have hget := getElem?_of_set hmap hslot
  refine ⟨?_, ?_, ?_⟩
  · ext a
    simp only [mem_occupied_slots, hget a]
    by_cases ha : a = slot
    · simp only [ha, if_true]
      exact ⟨fun _ => ⟨st, hst, h1, h2⟩, fun _ => ⟨v, rfl, hv1, hv2⟩⟩
    · simp only [ha, if_false]
  · ext a
    simp only [mem_tombstone_slots, hget a]
    by_cases ha : a = slot
    · simp only [ha, if_true, hst]
      constructor
      · intro h
        exact absurd (Option.some.inj h) hv2
      · intro h
        exact absurd (Option.some.inj h) h2
    · simp only [ha, if_false]
  · ext a
    simp only [mem_non_empty_slots, hget a]
    by_cases ha : a = slot
    · simp only [ha, if_true]
      exact ⟨fun _ => ⟨st, hst, h1⟩, fun _ => ⟨v, rfl, hv1⟩⟩
    · simp only [ha, if_false]

theorem occupied_slots_replicate (k usable len mask : Nat) :
    occupied_slots
      { m_map := List.replicate k SLOT_EMPTY, m_usable_slots := usable, m_length := len,
        m_slot_mask := mask } = ∅ := by
  apply Finset.eq_empty_of_forall_not_mem
  intro a ha
  obtain ⟨st, hst, h1, -⟩ := mem_occupied_slots.1 ha
  simp only [List.getElem?_replicate] at hst
  by_cases h : a < k
  · rw [if_pos h] at hst
    exact h1 (Option.some.inj hst).symm
  · rw [if_neg h] at hst
    exact Option.noConfusion hst

theorem tombstone_slots_replicate (k usable len mask : Nat) :
    tombstone_slots
      { m_map := List.replicate k SLOT_EMPTY, m_usable_slots := usable, m_length := len,
        m_slot_mask := mask } = ∅ := by
  apply Finset.eq_empty_of_forall_not_mem
  intro a ha
  have hst := mem_tombstone_slots.1 ha
  simp only [List.getElem?_replicate] at hst
  by_cases h : a < k
  · rw [if_pos h] at hst
    exact absurd (Option.some.inj hst) (by decide)
  · rw [if_neg h] at hst
    exact Option.noConfusion hst

theorem card_occupied_slots_le (s : ArrayLookup) : (occupied_slots s).card ≤ s.m_map.length := by
  have h := Finset.card_filter_le (Finset.range s.m_map.length)
    (fun i => s.m_map[i]? ≠ some SLOT_EMPTY ∧ s.m_map[i]? ≠ some SLOT_DUMMY)
  rw [Finset.card_range] at h
  exact h

end Counting

section Frames

variable {Key Item : Type}

theorem SlotRange.get {s : ArrayLookup} (h : SlotRange s) {slot : Nat} {st : Int}
    (hst : s.m_map[slot]? = some st) : -2 ≤ st ∧ st < 2 ^ 31 :=
  h st (List.getElem?_mem hst)

theorem SlotRange.set {s s' : ArrayLookup} (h : SlotRange s) {slot : Nat} {v : Int}
    (hmap : s'.m_map = s.m_map.set slot v) (hv : -2 ≤ v ∧ v < 2 ^ 31) : SlotRange s' := by
  intro st hst
  rw [hmap] at hst
  rcases List.mem_or_eq_of_mem_set hst with h1 | h1
  · exact h st h1
  · rw [h1]
    exact hv

theorem SlotRange.of_map_eq {s s' : ArrayLookup} (h : SlotRange s) (hmap : s'.m_map = s.m_map) :
    SlotRange s' := by
  intro st hst
  rw [hmap] at hst
  exact h st hst

theorem SlotRange.replicate (k usable len mask : Nat) :
    SlotRange
      { m_map := List.replicate k SLOT_EMPTY, m_usable_slots := usable, m_length := len,
        m_slot_mask := mask } := by
  intro st hst
  rw [List.eq_of_mem_replicate hst]
  decide

/-- A slot value in the range of `SlotRange` that compares equal to an index below `2 ^ 31` is
that index: it is neither of the two sentinels. -/
theorem eq_of_to_index_eq {st : Int} {index : Nat} (hst : -2 ≤ st ∧ st < 2 ^ 31)
    (hindex : index < 2 ^ 31) (h : to_index st = index % 2 ^ 32) : st = (index : Int) := by
  unfold to_index at h
  have hmod : index % 2 ^ 32 = index := Nat.mod_eq_of_lt (by omega)
  rw [hmod] at h
  have h0 : (0 : Int) ≤ st % 2 ^ 32 := Int.emod_nonneg _ (by norm_num)
  have h1 : st % 2 ^ 32 = (index : Int) := by
    rw [← h]
    exact (Int.toNat_of_nonneg h0).symm
  have h2 : (index : Int) < 2 ^ 31 := by exact_mod_cast hindex
  omega

/-- The calls of `remove` that return. -/
theorem remove_eq_some_iff (Hash : Key → Nat) (fuel : Nat) (s : ArrayLookup) (key : Key)
    (index : Nat) (s' : ArrayLookup) :
    remove Hash fuel s key index = some s' ↔
      ∃ n, n < fuel ∧
        (∀ m, m < n → ∃ st, s.m_map[slot_at Hash s key m]? = some st ∧
          to_index st ≠ index % 2 ^ 32) ∧
        ∃ st, s.m_map[slot_at Hash s key n]? = some st ∧ to_index st = index % 2 ^ 32 ∧
          s' = { s with m_map := s.m_map.set (slot_at Hash s key n) SLOT_DUMMY
                        m_length := (s.m_length + 2 ^ 32 - 1) % 2 ^ 32 } := by
  unfold remove
  rw [ITER_SLOTS_eq_some_iff]
  constructor
  · rintro ⟨n, hn, hpre, st, hst, hbody⟩
    refine ⟨n, hn, ?_, st, hst, ?_⟩
    · intro m hm
      obtain ⟨x, hx, hb⟩ := hpre m hm
      refine ⟨x, hx, ?_⟩
      intro heq
      rw [if_pos heq] at hb
      exact Option.noConfusion hb
    · by_cases heq : to_index st = index % 2 ^ 32
      · rw [if_pos heq] at hbody
        exact ⟨heq, (Option.some.inj hbody).symm⟩
      · rw [if_neg heq] at hbody
        exact Option.noConfusion hbody
  · rintro ⟨n, hn, hpre, st, hst, heq, rfl⟩
    refine ⟨n, hn, ?_, st, hst, if_pos heq⟩
    intro m hm
    obtain ⟨x, hx, hb⟩ := hpre m hm
    exact ⟨x, hx, if_neg hb⟩

/-- The calls of `update_index` that return. -/
theorem update_index_eq_some_iff (Hash : Key → Nat) (fuel : Nat) (s : ArrayLookup) (key : Key)
    (old_index new_index : Nat) (s' : ArrayLookup) :
    update_index Hash fuel s key old_index new_index = some s' ↔
      ∃ n, n < fuel ∧
        (∀ m, m < n → ∃ st, s.m_map[slot_at Hash s key m]? = some st ∧
          to_index st ≠ old_index % 2 ^ 32) ∧
        ∃ st, s.m_map[slot_at Hash s key n]? = some st ∧ to_index st = old_index % 2 ^ 32 ∧
          s' = { s with m_map := s.m_map.set (slot_at Hash s key n) (to_state new_index) } := by
  unfold update_index
  rw [ITER_SLOTS_eq_some_iff]
  constructor
  · rintro ⟨n, hn, hpre, st, hst, hbody⟩
    refine ⟨n, hn, ?_, st, hst, ?_⟩
    · intro m hm
      obtain ⟨x, hx, hb⟩ := hpre m hm
      refine ⟨x, hx, ?_⟩
      intro heq
      rw [if_pos heq] at hb
      exact Option.noConfusion hb
    · by_cases heq : to_index st = old_index % 2 ^ 32
      · rw [if_pos heq] at hbody
        exact ⟨heq, (Option.some.inj hbody).symm⟩
      · rw [if_neg heq] at hbody
        exact Option.noConfusion hbody
  · rintro ⟨n, hn, hpre, st, hst, heq, rfl⟩
    refine ⟨n, hn, ?_, st, hst, if_pos heq⟩
    intro m hm
    obtain ⟨x, hx, hb⟩ := hpre m hm
    exact ⟨x, hx, if_neg hb⟩

theorem index_range {index : Nat} (h : index < 2 ^ 31) :
    (index : Int) ≠ SLOT_EMPTY ∧ (index : Int) ≠ SLOT_DUMMY ∧
      (-2 ≤ (index : Int) ∧ (index : Int) < 2 ^ 31) := by
  have h1 : (0 : Int) ≤ (index : Int) := Int.natCast_nonneg _
  have h2 : (index : Int) < 2 ^ 31 := by exact_mod_cast h
  unfold SLOT_EMPTY SLOT_DUMMY
  refine ⟨by omega, by omega, by omega, h2⟩

/-- The effect of `add_new__fast` (and `insert_index`) for an index below `2 ^ 31` on the
numbers of Occupied, Tombstone and non-empty slots. -/
theorem add_new__fast_count (Hash : Key → Nat) {fuel : Nat} {s s' : ArrayLookup} {key : Key}
    {index : Nat} (hindex : index < 2 ^ 31)
    (h : add_new__fast Hash fuel s key index = some s') :
    (occupied_slots s').card = (occupied_slots s).card + 1 ∧
      tombstone_slots s' = tombstone_slots s ∧
      (non_empty_slots s').card = (non_empty_slots s).card + 1 ∧
      (SlotRange s → SlotRange s') := by
  obtain ⟨-, -, -, -, slot, hempty, hmap, -⟩ := add_new__fast_frame Hash h
  rw [to_state_of_lt hindex] at hmap
  obtain ⟨hv1, hv2, hv3⟩ := index_range hindex
  obtain ⟨c1, c2, c3⟩ := count_set_empty hmap hempty hv1 hv2
  exact ⟨c1, c2, c3, fun hr => hr.set hmap hv3⟩

/-- What a sequence of `add_new__fast` calls leaves unchanged. -/
theorem add_new__fast_fold_frame (Hash : Key → Nat) (fuel : Nat) (keys : Nat → Key) :
    ∀ (l : List Nat) (s s' : ArrayLookup),
      l.foldlM (fun st (i : Nat) => add_new__fast Hash fuel st (keys i) i) s = some s' →
      s'.m_length = s.m_length ∧ s'.m_usable_slots = s.m_usable_slots ∧
        s'.m_slot_mask = s.m_slot_mask ∧ s'.m_map.length = s.m_map.length := by
  intro l
  induction l with
  | nil =>
    intro s s' h
    simp only [List.foldlM_nil] at h
    cases Option.some.inj h
    exact ⟨rfl, rfl, rfl, rfl⟩
  | cons i l ih =>
    intro s s' h
    rw [List.foldlM_cons] at h
    cases h1 : add_new__fast Hash fuel s (keys i) i with
    | none =>
      rw [h1] at h
      exact Option.noConfusion h
    | some t =>
      rw [h1] at h
      obtain ⟨f1, f2, f3, f4, -⟩ := add_new__fast_frame Hash h1
      obtain ⟨g1, g2, g3, g4⟩ := ih t s' h
      exact ⟨g1.trans f1, g2.trans f2, g3.trans f3, g4.trans f4⟩

/-- The effect of a sequence of `add_new__fast` calls for indices below `2 ^ 31` on the numbers
of Occupied, Tombstone and non-empty slots. -/
theorem add_new__fast_fold_count (Hash : Key → Nat) (fuel : Nat) (keys : Nat → Key) :
    ∀ (l : List Nat) (s s' : ArrayLookup), (∀ i ∈ l, i < 2 ^ 31) →
      l.foldlM (fun st (i : Nat) => add_new__fast Hash fuel st (keys i) i) s = some s' →
      (occupied_slots s').card = (occupied_slots s).card + l.length ∧
        tombstone_slots s' = tombstone_slots s ∧
        (non_empty_slots s').card = (non_empty_slots s).card + l.length ∧
        (SlotRange s → SlotRange s') := by
  intro l
  induction l with
  | nil =>
    intro s s' _ h
    simp only [List.foldlM_nil] at h
    cases Option.some.inj h
    exact ⟨rfl, rfl, rfl, fun hr => hr⟩
  | cons i l ih =>
    intro s s' hl h
    rw [List.foldlM_cons] at h
    cases h1 : add_new__fast Hash fuel s (keys i) i with
    | none =>
      rw [h1] at h
      exact Option.noConfusion h
    | some t =>
      rw [h1] at h
      obtain ⟨c1, c2, c3, c4⟩ := add_new__fast_count Hash (hl i (List.mem_cons_self i l)) h1
      obtain ⟨d1, d2, d3, d4⟩ := ih t s' (fun j hj => hl j (List.mem_cons_of_mem i hj)) h
      refine ⟨?_, d2.trans c2, ?_, fun hr => d4 (c4 hr)⟩
      · rw [d1, c1, List.length_cons]
        omega
      · rw [d3, c3, List.length_cons]
        omega

/-- The insert budget of a table of `2 ^ k` slots: it is smaller than the table, and it grows
when the table is doubled. -/
theorem load_capacity_two_pow :
    ∀ k, k < 32 → load_capacity (2 ^ k) < 2 ^ k ∧
      load_capacity (2 ^ k) < load_capacity (2 ^ (k + 1)) := by
  decide

end Frames

section Invariants

variable {Key Item : Type}

/-- The two ways in which `ensure_can_add` returns: without a change, or with the table rebuilt
at twice the size. -/
theorem ensure_can_add_cases (GetKey : Item → Key) (Hash : Key → Nat) (fuel : Nat)
    {s s' : ArrayLookup} (array : Int → Item) {amount : Nat} (hwf : WF s)
    (h : ensure_can_add GetKey Hash fuel s array amount = some s') :
    (amount ≤ s.m_usable_slots ∧ s' = s) ∨
      (s.m_usable_slots < amount ∧ ∃ (k : Nat) (s2 : ArrayLookup), k ≤ 30 ∧
        s.m_map.length = 2 ^ k ∧
        (List.range s.m_length).foldlM
          (fun st (i : Nat) => add_new__fast Hash fuel st (GetKey (array (i : Int))) i)
          { m_map := List.replicate (2 ^ (k + 1)) SLOT_EMPTY
            m_usable_slots := 2 ^ (k + 1) * 10066330 / 2 ^ 24
            m_length := s.m_length
            m_slot_mask := 2 ^ (k + 1) - 1 } = some s2 ∧
        s' = { s2 with
          m_usable_slots := (s2.m_usable_slots + 2 ^ 32 - s2.m_length) % 2 ^ 32 }) := by
  by_cases hle : amount ≤ s.m_usable_slots
  · rw [ensure_can_add_noop GetKey Hash fuel s array hle] at h
    exact Or.inl ⟨hle, (Option.some.inj h).symm⟩
  · have hlt : s.m_usable_slots < amount := by omega
    obtain ⟨k, hk, hlen, -⟩ := hwf
    by_cases hk31 : k = 31
    · rw [hk31] at hlen
      rw [ensure_can_add_overflow GetKey Hash fuel s array hlt hlen] at h
      exact Option.noConfusion h
    · have hk30 : k ≤ 30 := by omega
      rw [ensure_can_add_grow GetKey Hash fuel s array hlt hk30 hlen] at h
      obtain ⟨s2, hs2, hs'⟩ := Option.bind_eq_some.1 h
      exact Or.inr ⟨hlt, k, s2, hk30, hlen, hs2, (Option.some.inj hs').symm⟩

/-- After `ensure_can_add` the table is well formed, of the same or of twice the size, and
`m_length` is as before. -/
theorem ensure_can_add_shape (GetKey : Item → Key) (Hash : Key → Nat) (fuel : Nat)
    {s s' : ArrayLookup} (array : Int → Item) {amount : Nat} (hwf : WF s)
    (h : ensure_can_add GetKey Hash fuel s array amount = some s') :
    WF s' ∧ s'.m_length = s.m_length ∧
      (s'.m_map.length = s.m_map.length ∨ s'.m_map.length = 2 * s.m_map.length) := by
  rcases ensure_can_add_cases GetKey Hash fuel array hwf h with
    ⟨-, rfl⟩ | ⟨-, k, s2, hk, hlen, hs2, rfl⟩
  · exact ⟨hwf, rfl, Or.inl rfl⟩
  · obtain ⟨f1, -, f3, f4⟩ := add_new__fast_fold_frame Hash fuel _ _ _ _ hs2
    refine ⟨⟨k + 1, by omega, ?_, ?_⟩, f1, Or.inr ?_⟩
    · show s2.m_map.length = 2 ^ (k + 1)
      rw [f4]
      simp
    · show s2.m_slot_mask = 2 ^ (k + 1) - 1
      rw [f3]
    · show s2.m_map.length = 2 * s.m_map.length
      rw [f4, hlen]
      simp [pow_succ, Nat.mul_comm]

/-- After a growth in `ensure_can_add`, for a table whose `m_length` is the number of its
Occupied slots: the new table has `m_length` Occupied slots and no Tombstone, and
`m_usable_slots` is the insert budget of the new table minus `m_length`. -/
theorem ensure_can_add_grow_count (GetKey : Item → Key) (Hash : Key → Nat) (fuel : Nat)
    {s s' : ArrayLookup} (array : Int → Item) {amount : Nat} (hwf : WF s)
    (hlength : s.m_length = (occupied_slots s).card) (hgrow : s.m_usable_slots < amount)
    (h : ensure_can_add GetKey Hash fuel s array amount = some s') :
    s'.m_map.length = 2 * s.m_map.length ∧ SlotRange s' ∧
      (occupied_slots s').card = s.m_length ∧ tombstone_slots s' = ∅ ∧
      (non_empty_slots s').card = s.m_length ∧
      s'.m_usable_slots =
        (load_capacity s'.m_map.length + 2 ^ 32 - s.m_length) % 2 ^ 32 := by
  rcases ensure_can_add_cases GetKey Hash fuel array hwf h with
    ⟨hle, -⟩ | ⟨-, k, s2, hk, hlen, hs2, hs'⟩
  · omega
  · obtain ⟨f1, f2, -, f4⟩ := add_new__fast_fold_frame Hash fuel _ _ _ _ hs2
    have hbound : ∀ i ∈ List.range s.m_length, i < 2 ^ 31 := by
      intro i hi
      have h1 := List.mem_range.1 hi
      have h2 := card_occupied_slots_le s
      have h3 : (2 : Nat) ^ k ≤ 2 ^ 30 := Nat.pow_le_pow_right (by norm_num) hk
      omega
    obtain ⟨c1, c2, c3, c4⟩ := add_new__fast_fold_count Hash fuel _ _ _ _ hbound hs2
    rw [occupied_slots_replicate, Finset.card_empty, List.length_range, Nat.zero_add] at c1
    rw [tombstone_slots_replicate] at c2
    rw [non_empty_slots_replicate, Finset.card_empty, List.length_range, Nat.zero_add] at c3
    have hlen2 : s2.m_map.length = 2 ^ (k + 1) := by
      rw [f4]
      simp
    have hmap : s'.m_map = s2.m_map := by rw [hs']
    have husable : s'.m_usable_slots = (s2.m_usable_slots + 2 ^ 32 - s2.m_length) % 2 ^ 32 := by
      rw [hs']
    refine ⟨?_, (c4 (SlotRange.replicate _ _ _ _)).of_map_eq hmap, ?_, ?_, ?_, ?_⟩
    · rw [hmap, hlen2, hlen, pow_succ, Nat.mul_comm]
    · rw [occupied_slots_congr hmap]
      exact c1
    · rw [tombstone_slots_congr hmap]
      exact c2
    · rw [non_empty_slots_congr hmap]
      exact c3
    · rw [husable, hmap, f1, f2, hlen2]
      rfl

/-- One returning call keeps the table well formed and does not shrink it. -/
theorem Step.keeps_shape {GetKey : Item → Key} {Hash : Key → Nat} {bound : Nat} {with_range : Bool}
    {s s' : ArrayLookup} (hwf : WF s) (h : Step GetKey Hash bound with_range s s') :
    WF s' ∧ (s'.m_map.length = s.m_map.length ∨ s'.m_map.length = 2 * s.m_map.length) := by
  cases h with
  | ensure_can_add fuel array amount h =>
    obtain ⟨h1, -, h3⟩ := ensure_can_add_shape GetKey Hash fuel array hwf h
    exact ⟨h1, h3⟩
  | add_new fuel array index _ h =>
    unfold BLI.add_new at h
    obtain ⟨s1, hs1, h⟩ := Option.bind_eq_some.1 h
    obtain ⟨s2, hs2, h⟩ := Option.bind_eq_some.1 h
    cases Option.some.inj h
    obtain ⟨h1, -, h3⟩ := ensure_can_add_shape GetKey Hash fuel array hwf hs1
    obtain ⟨-, -, f3, f4, -⟩ := add_new__fast_frame Hash hs2
    refine ⟨h1.of_eq f4 f3, ?_⟩
    show s2.m_map.length = _ ∨ s2.m_map.length = _
    rw [f4]
    exact h3
  | add_new_range fuel array start stop index _ _ h =>
    unfold BLI.add_new_range at h
    by_cases hle : start ≤ stop
    · rw [if_pos hle] at h
      obtain ⟨s1, hs1, h⟩ := Option.bind_eq_some.1 h
      obtain ⟨s2, hs2, h⟩ := Option.bind_eq_some.1 h
      cases Option.some.inj h
      obtain ⟨h1, -, h3⟩ := ensure_can_add_shape GetKey Hash fuel array hwf hs1
      obtain ⟨-, -, f3, f4⟩ := add_new__fast_fold_frame Hash fuel _ _ _ _ hs2
      refine ⟨h1.of_eq f4 f3, ?_⟩
      show s2.m_map.length = _ ∨ s2.m_map.length = _
      rw [f4]
      exact h3
    · rw [if_neg hle] at h
      exact Option.noConfusion h
  | remove fuel key index _ h =>
    obtain ⟨n, -, -, st, -, -, rfl⟩ := (remove_eq_some_iff Hash fuel s key index s').1 h
    exact ⟨hwf.of_eq (by simp) rfl, Or.inl (by simp)⟩
  | update_index fuel key old_index new_index _ _ h =>
    obtain ⟨n, -, -, st, -, -, rfl⟩ :=
      (update_index_eq_some_iff Hash fuel s key old_index new_index s').1 h
    exact ⟨hwf.of_eq (by simp) rfl, Or.inl (by simp)⟩

/-- Every reached table is well formed and has at least the `2 ^ N_EXP` slots of the
constructed table. -/
theorem Reached.table_shape {GetKey : Item → Key} {Hash : Key → Nat} {N_EXP bound : Nat}
    {with_range : Bool} {s : ArrayLookup}
    (h : Reached GetKey Hash N_EXP bound with_range s) :
    WF s ∧ 2 ^ N_EXP ≤ s.m_map.length := by
  induction h with
  | construct h =>
    obtain ⟨hN, rfl⟩ := construct_eq_some h
    exact ⟨⟨N_EXP, hN, by simp, rfl⟩, by simp⟩
  | step _ hstep ih =>
    obtain ⟨h1, h2⟩ := hstep.keeps_shape ih.1
    refine ⟨h1, ?_⟩
    have := ih.2
    rcases h2 with h2 | h2 <;> omega

/-- The counting invariant of the tables reached with indices below `2 ^ 31`, and its
preservation by one call. -/
theorem Step.keeps_count {GetKey : Item → Key} {Hash : Key → Nat} {with_range : Bool}
    {s s' : ArrayLookup} (hwf : WF s) (hrange : SlotRange s)
    (hlength : s.m_length = (occupied_slots s).card)
    (h : Step GetKey Hash (2 ^ 31) with_range s s') :
    SlotRange s' ∧ s'.m_length = (occupied_slots s').card := by
  have hlen31 : s.m_map.length ≤ 2 ^ 31 := by
    obtain ⟨k, hk, hlen, -⟩ := hwf
    rw [hlen]
    exact two_pow_le_of_le_31 hk
  have hens : ∀ {fuel : Nat} {array : Int → Item} {amount : Nat} {s1 : ArrayLookup},
      BLI.ensure_can_add GetKey Hash fuel s array amount = some s1 →
      WF s1 ∧ SlotRange s1 ∧ s1.m_length = (occupied_slots s1).card ∧ s1.m_length = s.m_length := by
    intro fuel array amount s1 hs1
    obtain ⟨w1, w2, -⟩ := ensure_can_add_shape GetKey Hash fuel array hwf hs1
    by_cases hle : amount ≤ s.m_usable_slots
    · rw [ensure_can_add_noop GetKey Hash fuel s array hle] at hs1
      cases Option.some.inj hs1
      exact ⟨hwf, hrange, hlength, rfl⟩
    · obtain ⟨-, g2, g3, -⟩ :=
        ensure_can_add_grow_count GetKey Hash fuel array hwf hlength (by omega) hs1
      exact ⟨w1, g2, by rw [w2, g3], w2⟩
  cases h with
  | ensure_can_add fuel array amount h =>
    obtain ⟨-, h2, h3, -⟩ := hens h
    exact ⟨h2, h3⟩
  | add_new fuel array index hindex h =>
    unfold BLI.add_new at h
    obtain ⟨s1, hs1, h⟩ := Option.bind_eq_some.1 h
    obtain ⟨s2, hs2, h⟩ := Option.bind_eq_some.1 h
    have hs' := (Option.some.inj h).symm
    have hmap : s'.m_map = s2.m_map := by rw [hs']
    have hlen' : s'.m_length = (s2.m_length + 1) % 2 ^ 32 := by rw [hs']
    obtain ⟨w1, w2, w3, -⟩ := hens hs1
    obtain ⟨f1, -, f3, f4, -⟩ := add_new__fast_frame Hash hs2
    obtain ⟨c1, -, -, c4⟩ := add_new__fast_count Hash hindex hs2
    refine ⟨(c4 w2).of_map_eq hmap, ?_⟩
    rw [occupied_slots_congr hmap, c1, hlen', f1, w3]
    have hle := card_occupied_slots_le s2
    obtain ⟨k, hk, hlen, -⟩ := w1.of_eq f4 f3
    have := two_pow_le_of_le_31 hk
    rw [c1] at hle
    exact Nat.mod_eq_of_lt (by omega)
  | add_new_range fuel array start stop index _ hstop h =>
    unfold BLI.add_new_range at h
    by_cases hle : start ≤ stop
    · rw [if_pos hle] at h
      obtain ⟨s1, hs1, h⟩ := Option.bind_eq_some.1 h
      obtain ⟨s2, hs2, h⟩ := Option.bind_eq_some.1 h
      have hs' := (Option.some.inj h).symm
      have hmap : s'.m_map = s2.m_map := by rw [hs']
      have hlen' : s'.m_length = (s2.m_length + (stop - start)) % 2 ^ 32 := by rw [hs']
      obtain ⟨w1, w2, w3, -⟩ := hens hs1
      obtain ⟨f1, -, f3, f4⟩ := add_new__fast_fold_frame Hash fuel _ _ _ _ hs2
      have hbound : ∀ i ∈ List.range' start (stop - start), i < 2 ^ 31 := by
        intro i hi
        have := (List.mem_range'_1.1 hi).2
        omega
      obtain ⟨c1, -, -, c4⟩ := add_new__fast_fold_count Hash fuel _ _ _ _ hbound hs2
      rw [List.length_range'] at c1
      refine ⟨(c4 w2).of_map_eq hmap, ?_⟩
      rw [occupied_slots_congr hmap, c1, hlen', f1, w3]
      have hle2 := card_occupied_slots_le s2
      obtain ⟨k, hk, hlen, -⟩ := w1.of_eq f4 f3
      have := two_pow_le_of_le_31 hk
      rw [c1] at hle2
      exact Nat.mod_eq_of_lt (by omega)
    · rw [if_neg hle] at h
      exact Option.noConfusion h
  | remove fuel key index hindex h =>
    obtain ⟨n, -, -, st, hst, heq, hs'⟩ := (remove_eq_some_iff Hash fuel s key index s').1 h
    have hmap : s'.m_map = s.m_map.set (slot_at Hash s key n) SLOT_DUMMY := by rw [hs']
    have hlen' : s'.m_length = (s.m_length + 2 ^ 32 - 1) % 2 ^ 32 := by rw [hs']
    have hsteq := eq_of_to_index_eq (hrange.get hst) hindex heq
    obtain ⟨hv1, hv2, -⟩ := index_range hindex
    rw [hsteq] at hst
    obtain ⟨c1, -, -⟩ := count_set_dummy hmap hst hv1 hv2
    refine ⟨hrange.set hmap (by decide), ?_⟩
    rw [hlen']
    have hle := card_occupied_slots_le s
    omega
  | update_index fuel key old_index new_index hold hnew h =>
    obtain ⟨n, -, -, st, hst, heq, hs'⟩ :=
      (update_index_eq_some_iff Hash fuel s key old_index new_index s').1 h
    have hmap : s'.m_map = s.m_map.set (slot_at Hash s key n) (new_index : Int) := by
      rw [hs', to_state_of_lt hnew]
    have hlen' : s'.m_length = s.m_length := by rw [hs']
    have hsteq := eq_of_to_index_eq (hrange.get hst) hold heq
    obtain ⟨hv1, hv2, -⟩ := index_range hold
    obtain ⟨hn1, hn2, hn3⟩ := index_range hnew
    rw [hsteq] at hst
    obtain ⟨c1, -, -⟩ := count_set_index hmap hst hv1 hv2 hn1 hn2
    refine ⟨hrange.set hmap hn3, ?_⟩
    rw [c1, hlen']
    exact hlength

/-- In every table reached with indices below `2 ^ 31`, `m_length` is the number of Occupied
slots, and every slot holds a sentinel or a non-negative value below `2 ^ 31`. -/
theorem Reached.counted {GetKey : Item → Key} {Hash : Key → Nat} {N_EXP : Nat}
    {with_range : Bool} {s : ArrayLookup}
    (h : Reached GetKey Hash N_EXP (2 ^ 31) with_range s) :
    WF s ∧ SlotRange s ∧ s.m_length = (occupied_slots s).card := by
  induction h with
  | construct h =>
    obtain ⟨hN, rfl⟩ := construct_eq_some h
    refine ⟨⟨N_EXP, hN, by simp, rfl⟩, SlotRange.replicate _ _ _ _, ?_⟩
    rw [occupied_slots_replicate]
    rfl
  | step hreach hstep ih =>
    obtain ⟨h1, h2⟩ := hstep.keeps_count ih.1 ih.2.1 ih.2.2
    exact ⟨(hstep.keeps_shape ih.1).1, h1, h2⟩

end Invariants

section Budget

variable {Key Item : Type}

/-- The counting invariant after `ensure_can_add`: `m_length` and the number of Occupied slots
are as before. -/
theorem ensure_can_add_count (GetKey : Item → Key) (Hash : Key → Nat) (fuel : Nat)
    {s s1 : ArrayLookup} (array : Int → Item) {amount : Nat} (hwf : WF s) (hrange : SlotRange s)
    (hlength : s.m_length = (occupied_slots s).card)
    (h : ensure_can_add GetKey Hash fuel s array amount = some s1) :
    WF s1 ∧ SlotRange s1 ∧ s1.m_length = s.m_length ∧
      (occupied_slots s1).card = (occupied_slots s).card := by
  obtain ⟨w1, w2, -⟩ := ensure_can_add_shape GetKey Hash fuel array hwf h
  by_cases hle : amount ≤ s.m_usable_slots
  · rw [ensure_can_add_noop GetKey Hash fuel s array hle] at h
    cases Option.some.inj h
    exact ⟨hwf, hrange, rfl, rfl⟩
  · obtain ⟨-, g2, g3, -⟩ :=
      ensure_can_add_grow_count GetKey Hash fuel array hwf hlength (by omega) h
    exact ⟨w1, g2, w2, by rw [g3, hlength]⟩

theorem load_capacity_lt {s : ArrayLookup} (hwf : WF s) :
    load_capacity s.m_map.length < s.m_map.length ∧ s.m_map.length ≤ 2 ^ 31 := by
  obtain ⟨k, hk, hlen, -⟩ := hwf
  rw [hlen]
  exact ⟨(load_capacity_two_pow k (by omega)).1, two_pow_le_of_le_31 hk⟩

theorem card_occupied_le_non_empty (s : ArrayLookup) :
    (occupied_slots s).card ≤ (non_empty_slots s).card := by
  rw [card_non_empty_slots]
  omega

/-- The insert budget after `ensure_can_add`: the budget invariant holds again, and the budget
left is at least the requested amount if that is `1`. -/
theorem ensure_can_add_budget (GetKey : Item → Key) (Hash : Key → Nat) (fuel : Nat)
    {s s1 : ArrayLookup} (array : Int → Item) {amount : Nat} (hwf : WF s)
    (hlength : s.m_length = (occupied_slots s).card)
    (hbudget : s.m_usable_slots + (non_empty_slots s).card = load_capacity s.m_map.length)
    (h : ensure_can_add GetKey Hash fuel s array amount = some s1) :
    s1.m_usable_slots + (non_empty_slots s1).card = load_capacity s1.m_map.length ∧
      (amount ≤ 1 → amount ≤ s1.m_usable_slots) := by
  by_cases hle : amount ≤ s.m_usable_slots
  · rw [ensure_can_add_noop GetKey Hash fuel s array hle] at h
    cases Option.some.inj h
    exact ⟨hbudget, fun _ => hle⟩
  · obtain ⟨g1, -, -, -, g5, g6⟩ :=
      ensure_can_add_grow_count GetKey Hash fuel array hwf hlength (by omega) h
    obtain ⟨k, hk, hlen, hmask⟩ := hwf
    have hk30 : k ≤ 30 := by
      rcases ensure_can_add_cases GetKey Hash fuel array ⟨k, hk, hlen, hmask⟩ h with
        ⟨h1, -⟩ | ⟨-, k', -, hk', hlen', -, -⟩
      · omega
      · rw [hlen] at hlen'
        have := Nat.pow_right_injective (le_refl 2) hlen'
        omega
    have hlen1 : s1.m_map.length = 2 ^ (k + 1) := by
      rw [g1, hlen, pow_succ, Nat.mul_comm]
    have hmono := (load_capacity_two_pow k (by omega)).2
    have hlt := (load_capacity_two_pow (k + 1) (by omega)).1
    have hpow : (2 : Nat) ^ (k + 1) ≤ 2 ^ 31 := two_pow_le_of_le_31 (by omega)
    have hocc := card_occupied_le_non_empty s
    rw [hlen] at hbudget
    rw [hlen1] at g6
    rw [hlen1, g5, g6]
    have hmod : (load_capacity (2 ^ (k + 1)) + 2 ^ 32 - s.m_length) % 2 ^ 32 =
        load_capacity (2 ^ (k + 1)) - s.m_length := by
      have : load_capacity (2 ^ (k + 1)) + 2 ^ 32 - s.m_length =
          (load_capacity (2 ^ (k + 1)) - s.m_length) + 2 ^ 32 := by omega
      rw [this, Nat.add_mod_right]
      exact Nat.mod_eq_of_lt (by omega)
    rw [hmod]
    exact ⟨by omega, fun _ => by omega⟩

/-- The budget invariant is kept by one call other than `add_new_range`. -/
theorem Step.keeps_budget {GetKey : Item → Key} {Hash : Key → Nat} {s s' : ArrayLookup}
    (hwf : WF s) (hrange : SlotRange s) (hlength : s.m_length = (occupied_slots s).card)
    (hbudget : s.m_usable_slots + (non_empty_slots s).card = load_capacity s.m_map.length)
    (h : Step GetKey Hash (2 ^ 31) false s s') :
    s'.m_usable_slots + (non_empty_slots s').card = load_capacity s'.m_map.length := by
  cases h with
  | ensure_can_add fuel array amount h =>
    exact (ensure_can_add_budget GetKey Hash fuel array hwf hlength hbudget h).1
  | add_new fuel array index hindex h =>
    unfold BLI.add_new at h
    obtain ⟨s1, hs1, h⟩ := Option.bind_eq_some.1 h
    obtain ⟨s2, hs2, h⟩ := Option.bind_eq_some.1 h
    have hs' := (Option.some.inj h).symm
    have hmap : s'.m_map = s2.m_map := by rw [hs']
    have husable : s'.m_usable_slots = (s2.m_usable_slots + 2 ^ 32 - 1) % 2 ^ 32 := by rw [hs']
    obtain ⟨b1, b2⟩ := ensure_can_add_budget GetKey Hash fuel array hwf hlength hbudget hs1
    obtain ⟨w1, -, -⟩ := ensure_can_add_shape GetKey Hash fuel array hwf hs1
    obtain ⟨-, f2, -, f4, -⟩ := add_new__fast_frame Hash hs2
    obtain ⟨-, -, c3, -⟩ := add_new__fast_count Hash hindex hs2
    have hlt := load_capacity_lt w1
    have h1 := b2 (le_refl 1)
    rw [non_empty_slots_congr hmap, hmap, c3, husable, f2, f4]
    have hmod : (s1.m_usable_slots + 2 ^ 32 - 1) % 2 ^ 32 = s1.m_usable_slots - 1 := by
      have : s1.m_usable_slots + 2 ^ 32 - 1 = (s1.m_usable_slots - 1) + 2 ^ 32 := by omega
      rw [this, Nat.add_mod_right]
      exact Nat.mod_eq_of_lt (by omega)
    rw [hmod]
    omega
  | add_new_range fuel array start stop index hwith _ _ =>
    exact Bool.noConfusion hwith
  | remove fuel key index hindex h =>
    obtain ⟨n, -, -, st, hst, heq, hs'⟩ := (remove_eq_some_iff Hash fuel s key index s').1 h
    have hmap : s'.m_map = s.m_map.set (slot_at Hash s key n) SLOT_DUMMY := by rw [hs']
    have husable : s'.m_usable_slots = s.m_usable_slots := by rw [hs']
    have hsteq := eq_of_to_index_eq (hrange.get hst) hindex heq
    obtain ⟨hv1, hv2, -⟩ := index_range hindex
    rw [hsteq] at hst
    obtain ⟨-, -, c3⟩ := count_set_dummy hmap hst hv1 hv2
    rw [c3, husable, hmap, List.length_set]
    exact hbudget
  | update_index fuel key old_index new_index hold hnew h =>
    obtain ⟨n, -, -, st, hst, heq, hs'⟩ :=
      (update_index_eq_some_iff Hash fuel s key old_index new_index s').1 h
    have hmap : s'.m_map = s.m_map.set (slot_at Hash s key n) (new_index : Int) := by
      rw [hs', to_state_of_lt hnew]
    have husable : s'.m_usable_slots = s.m_usable_slots := by rw [hs']
    have hsteq := eq_of_to_index_eq (hrange.get hst) hold heq
    obtain ⟨hv1, hv2, -⟩ := index_range hold
    obtain ⟨hn1, hn2, -⟩ := index_range hnew
    rw [hsteq] at hst
    obtain ⟨-, -, c3⟩ := count_set_index hmap hst hv1 hv2 hn1 hn2
    rw [c3, husable, hmap, List.length_set]
    exact hbudget

/-- In every table reached by calls other than `add_new_range` with indices below `2 ^ 31`,
the budget left and the number of non-empty slots add up to the insert budget of the table. -/
theorem Reached.budgeted {GetKey : Item → Key} {Hash : Key → Nat} {N_EXP : Nat}
    {s : ArrayLookup} (h : Reached GetKey Hash N_EXP (2 ^ 31) false s) :
    s.m_usable_slots + (non_empty_slots s).card = load_capacity s.m_map.length := by
  induction h with
  | construct h =>
    obtain ⟨hN, rfl⟩ := construct_eq_some h
    rw [non_empty_slots_replicate]
    simp [load_capacity]
  | step hreach hstep ih =>
    obtain ⟨h1, h2, h3⟩ := hreach.counted
    exact hstep.keeps_budget h1 h2 h3 ih

/-- A well-formed table with no more non-empty slots than its insert budget has an Empty
slot. -/
theorem exists_empty_slot {s : ArrayLookup} (hwf : WF s)
    (h : (non_empty_slots s).card ≤ load_capacity s.m_map.length) :
    ∃ slot : Nat, s.m_map[slot]? = some SLOT_EMPTY := by
  have hlt := (load_capacity_lt hwf).1
  by_contra hne
  have hall : ∀ slot : Nat, s.m_map[slot]? ≠ some SLOT_EMPTY := fun slot hs => hne ⟨slot, hs⟩
  have hsub : Finset.range s.m_map.length ⊆ non_empty_slots s :=
    fun i hi => Finset.mem_filter.2 ⟨hi, hall i⟩
  have hle := Finset.card_le_card hsub
  rw [Finset.card_range] at hle
  omega

/-- Below `2 ^ 23` slots the insert budget computed with the `float` constant `0.6f` is the
integer part of six tenths of the size. -/
theorem load_capacity_eq_six_tenths :
    ∀ k, k < 23 → load_capacity (2 ^ k) = 2 ^ k * 6 / 10 := by
  decide

/-- The states of the scenario `add_new(array, 0)`, `remove(0, 0)` on the default lookup are
reached. -/
theorem reached_one_removed (bound : Nat) (hbound : 0 < bound) (with_range : Bool) :
    Reached (get_key_from_item : Int → Int) int_hash 3 bound with_range lookup_one_item ∧
      Reached (get_key_from_item : Int → Int) int_hash 3 bound with_range
        lookup_one_removed := by
  have h0 : Reached (get_key_from_item : Int → Int) int_hash 3 bound with_range
      default_lookup := Reached.construct (by decide)
  have h1 : Reached (get_key_from_item : Int → Int) int_hash 3 bound with_range
      lookup_one_item :=
    Reached.step h0 (Step.add_new 20 items_identity 0 hbound (by decide))
  exact ⟨h1, Reached.step h1 (Step.remove 20 0 0 hbound (by decide))⟩

end Budget

section ClaimRemoveFrame

variable {Key Item : Type}

/-- C11 (amended): for every table whose slots hold a sentinel or an index below `2 ^ 31`,
every key and every index below `2 ^ 31`, a call `remove(key, index)` that returns changes
exactly one slot of the mapping table; that slot stored exactly `index`, which is neither
sentinel, and holds the Tombstone marker afterwards; `m_length` is decremented in unsigned
arithmetic, by exactly 1 when it was positive; every other slot, the size of the table,
`m_slot_mask` and `m_usable_slots` are unchanged.  So whatever the key, no slot that records
another index is turned into a Tombstone. -/
theorem remove_changes_one_slot (Hash : Key → Nat) (fuel : Nat) (s s' : ArrayLookup) (key : Key)
    (index : Nat) (hrange : SlotRange s) (hindex : index < 2 ^ 31)
    (h : remove Hash fuel s key index = some s') :
    ∃ slot : Nat, s.m_map[slot]? = some (index : Int) ∧
      (index : Int) ≠ SLOT_EMPTY ∧ (index : Int) ≠ SLOT_DUMMY ∧
      s'.m_map[slot]? = some SLOT_DUMMY ∧
      (∀ a : Nat, a ≠ slot → s'.m_map[a]? = s.m_map[a]?) ∧
      s'.m_length = (s.m_length + 2 ^ 32 - 1) % 2 ^ 32 ∧
      (0 < s.m_length → s.m_length < 2 ^ 32 → s'.m_length + 1 = s.m_length) ∧
      s'.m_map.length = s.m_map.length ∧ s'.m_slot_mask = s.m_slot_mask ∧
      s'.m_usable_slots = s.m_usable_slots := by
  obtain ⟨n, -, -, st, hst, heq, hs'⟩ := (remove_eq_some_iff Hash fuel s key index s').1 h
  have hmap : s'.m_map = s.m_map.set (slot_at Hash s key n) SLOT_DUMMY := by rw [hs']
  have hlen' : s'.m_length = (s.m_length + 2 ^ 32 - 1) % 2 ^ 32 := by rw [hs']
  have hmask : s'.m_slot_mask = s.m_slot_mask := by rw [hs']
  have husable : s'.m_usable_slots = s.m_usable_slots := by rw [hs']
  have hsteq := eq_of_to_index_eq (hrange.get hst) hindex heq
  obtain ⟨hv1, hv2, -⟩ := index_range hindex
  rw [hsteq] at hst
  have hslot : slot_at Hash s key n < s.m_map.length := (List.getElem?_eq_some.1 hst).1
  have hget := getElem?_of_set hmap hslot
  refine ⟨slot_at Hash s key n, hst, hv1, hv2, ?_, ?_, hlen', ?_, ?_, hmask, husable⟩
  · rw [hget, if_pos rfl]
  · intro a ha
    rw [hget, if_neg ha]
  · intro h0 h32
    rw [hlen']
    omega
  · rw [hmap, List.length_set]

/-- C11, witness: `remove(0, 0)` on the lookup that records the indices `0` and `1`. -/
theorem remove_changes_one_slot_witness :
    SlotRange lookup_two_items ∧
      remove int_hash 20 lookup_two_items (0 : Int) 0 = some lookup_tombstone_one ∧
      ∃ slot : Nat, lookup_two_items.m_map[slot]? = some ((0 : Nat) : Int) ∧
        (((0 : Nat) : Int)) ≠ SLOT_EMPTY ∧ (((0 : Nat) : Int)) ≠ SLOT_DUMMY ∧
        lookup_tombstone_one.m_map[slot]? = some SLOT_DUMMY ∧
        (∀ a : Nat, a ≠ slot → lookup_tombstone_one.m_map[a]? = lookup_two_items.m_map[a]?) ∧
        lookup_tombstone_one.m_length = (lookup_two_items.m_length + 2 ^ 32 - 1) % 2 ^ 32 ∧
        (0 < lookup_two_items.m_length → lookup_two_items.m_length < 2 ^ 32 →
          lookup_tombstone_one.m_length + 1 = lookup_two_items.m_length) ∧
        lookup_tombstone_one.m_map.length = lookup_two_items.m_map.length ∧
        lookup_tombstone_one.m_slot_mask = lookup_two_items.m_slot_mask ∧
        lookup_tombstone_one.m_usable_slots = lookup_two_items.m_usable_slots :=
  ⟨by unfold SlotRange; decide, by decide,
    remove_changes_one_slot int_hash 20 lookup_two_items lookup_tombstone_one (0 : Int) 0
      (by unfold SlotRange; decide) (by norm_num) (by decide)⟩

/-- C11, counterexample: the two indices whose slot value is a sentinel.  On the lookup
`lookup_tombstone_one`, whose only Occupied slot stores index `1`, the call
`remove(0, 4294967294)` returns with no slot changed and `m_length` decremented from `1` to `0`:
the index compares equal to the Tombstone in slot `0`.  On the default lookup the call
`remove(0, 4294967295)` turns the Empty slot `0` into a Tombstone. -/
theorem remove_sentinel_index_counterexample :
    (∀ st ∈ lookup_tombstone_one.m_map,
        st = SLOT_EMPTY ∨ st = SLOT_DUMMY ∨ (0 ≤ st ∧ st < 2 ^ 31)) ∧
      lookup_tombstone_one.m_length = 1 ∧
      (remove int_hash 20 lookup_tombstone_one (0 : Int) 4294967294).map
          (fun t => (t.m_map, t.m_length)) = some (lookup_tombstone_one.m_map, 0) ∧
      default_lookup.m_map[0]? = some SLOT_EMPTY ∧
      (remove int_hash 20 default_lookup (0 : Int) 4294967295).map
          (fun t => (t.m_map, t.m_length)) =
        some ([-2, -1, -1, -1, -1, -1, -1, -1], 4294967295) := by
  decide

end ClaimRemoveFrame

section ClaimUsableSlots

variable {Key Item : Type}

/-- C12 (amended): in every state reached from a constructed lookup by `ensure_can_add`,
`add_new`, `remove` and `update_index` calls with indices below `2 ^ 31`, `m_usable_slots` is
the insert budget of the table minus `m_length` minus the number of Tombstone slots, where the
insert budget is `floor(capacity * 0.6f)` for the `float` constant `0.6f = 10066330 / 2 ^ 24`,
which is `floor(capacity * 0.6)` below `2 ^ 23` slots.  Without Tombstones, as right after the
construction and right after a growth in `ensure_can_add`, `m_usable_slots` is the insert budget
minus `m_length`. -/
theorem usable_slots_formula {GetKey : Item → Key} {Hash : Key → Nat} {N_EXP : Nat}
    {s : ArrayLookup} (h : Reached GetKey Hash N_EXP (2 ^ 31) false s) :
    s.m_usable_slots + s.m_length + (tombstone_slots s).card = load_capacity s.m_map.length ∧
      s.m_usable_slots =
        load_capacity s.m_map.length - s.m_length - (tombstone_slots s).card ∧
      (tombstone_slots s = ∅ →
        s.m_usable_slots = load_capacity s.m_map.length - s.m_length) ∧
      (s.m_map.length < 2 ^ 23 → load_capacity s.m_map.length = s.m_map.length * 6 / 10) ∧
      (∀ s0 : ArrayLookup, ArrayLookup.construct N_EXP = some s0 →
        tombstone_slots s0 = ∅ ∧
          s0.m_usable_slots = load_capacity s0.m_map.length - s0.m_length) ∧
      (∀ (fuel : Nat) (array : Int → Item) (amount : Nat) (s' : ArrayLookup),
        s.m_usable_slots < amount →
        ensure_can_add GetKey Hash fuel s array amount = some s' →
        tombstone_slots s' = ∅ ∧
          s'.m_usable_slots = load_capacity s'.m_map.length - s'.m_length) := by
  obtain ⟨hwf, hrange, hlength⟩ := h.counted
  have hbudget := h.budgeted
  have hcard := card_non_empty_slots s
  have hsum : s.m_usable_slots + s.m_length + (tombstone_slots s).card =
      load_capacity s.m_map.length := by omega
  refine ⟨hsum, by omega, ?_, ?_, ?_, ?_⟩
  · intro hempty
    rw [hempty, Finset.card_empty] at hsum
    omega
  · intro hlt
    obtain ⟨k, hk, hlen, -⟩ := hwf
    rw [hlen] at hlt ⊢
    have hk23 : k < 23 := (Nat.pow_lt_pow_iff_right (by norm_num)).1 hlt
    exact load_capacity_eq_six_tenths k hk23
  · intro s0 h0
    obtain ⟨hN, rfl⟩ := construct_eq_some h0
    refine ⟨tombstone_slots_replicate _ _ _ _, ?_⟩
    simp [load_capacity]
  · intro fuel array amount s' hgrow hens
    have hstep : Reached GetKey Hash N_EXP (2 ^ 31) false s' :=
      Reached.step h (Step.ensure_can_add fuel array amount hens)
    obtain ⟨-, -, hlength'⟩ := hstep.counted
    have hbudget' := hstep.budgeted
    have hcard' := card_non_empty_slots s'
    obtain ⟨-, -, -, g4, -, -⟩ :=
      ensure_can_add_grow_count GetKey Hash fuel array hwf hlength hgrow hens
    refine ⟨g4, ?_⟩
    rw [g4, Finset.card_empty] at hcard'
    omega

/-- C12, witness: the default lookup after `add_new(array, 0)` and `remove(0, 0)`. -/
theorem usable_slots_formula_witness :
    lookup_one_removed.m_usable_slots + lookup_one_removed.m_length +
        (tombstone_slots lookup_one_removed).card =
      load_capacity lookup_one_removed.m_map.length ∧
      lookup_one_removed.m_usable_slots = 3 ∧ lookup_one_removed.m_length = 0 ∧
      (tombstone_slots lookup_one_removed).card = 1 ∧
      load_capacity lookup_one_removed.m_map.length = 4 :=
  ⟨(usable_slots_formula (reached_one_removed (2 ^ 31) (by norm_num) false).2).1,
    by decide, by decide, by decide, by decide⟩

/-- C12, counterexample: a state after a `remove`, and a large table.  On the default lookup,
`add_new(array, 0)` followed by `remove(0, 0)` leaves `m_usable_slots = 3` with `m_length = 0`
and capacity `8`, where `floor(8 * 0.6) - 0 = 4`.  The lookup constructed with `N_EXP = 23` has
`m_usable_slots = 5033165`, where `floor(8388608 * 0.6) - 0 = 5033164`. -/
theorem usable_slots_counterexample :
    ArrayLookup.construct 3 = some default_lookup ∧
      add_new (get_key_from_item : Int → Int) int_hash 20 default_lookup items_identity 0 =
        some lookup_one_item ∧
      remove int_hash 20 lookup_one_item (0 : Int) 0 = some lookup_one_removed ∧
      lookup_one_removed.m_usable_slots = 3 ∧
      lookup_one_removed.m_map.length * 6 / 10 - lookup_one_removed.m_length = 4 ∧
      (ArrayLookup.construct 23).map
          (fun t => (t.m_usable_slots, t.m_length, t.m_map.length)) =
        some (5033165, 0, 8388608) ∧
      8388608 * 6 / 10 - 0 = 5033164 := by
  refine ⟨by decide, by decide, by decide, by decide, by decide, ?_, by norm_num⟩
  rw [construct_eq (by norm_num : 23 ≤ 31), Option.map_some']
  simp only [List.length_replicate]
  norm_num

end ClaimUsableSlots

section ClaimLength

variable {Key Item : Type}

/-- C13 (amended): in every state reached from a constructed lookup by `ensure_can_add`,
`add_new`, `add_new_range`, `remove` and `update_index` calls with indices below `2 ^ 31`,
`m_length` is the number of Occupied slots; a further `add_new` of an index below `2 ^ 31`
increases both by exactly 1, and a further `remove` of an index below `2 ^ 31` decreases both
by exactly 1. -/
theorem m_length_counts_occupied {GetKey : Item → Key} {Hash : Key → Nat} {N_EXP : Nat}
    {with_range : Bool} {s : ArrayLookup}
    (h : Reached GetKey Hash N_EXP (2 ^ 31) with_range s) :
    s.m_length = (occupied_slots s).card ∧
      (∀ (fuel : Nat) (array : Int → Item) (index : Nat) (s' : ArrayLookup), index < 2 ^ 31 →
        add_new GetKey Hash fuel s array index = some s' →
        s'.m_length = s.m_length + 1 ∧
          (occupied_slots s').card = (occupied_slots s).card + 1) ∧
      (∀ (fuel : Nat) (key : Key) (index : Nat) (s' : ArrayLookup), index < 2 ^ 31 →
        remove Hash fuel s key index = some s' →
        s'.m_length + 1 = s.m_length ∧
          (occupied_slots s').card + 1 = (occupied_slots s).card) := by
  obtain ⟨hwf, hrange, hlength⟩ := h.counted
  refine ⟨hlength, ?_, ?_⟩
  · intro fuel array index s' hindex hadd
    have hstep : Reached GetKey Hash N_EXP (2 ^ 31) with_range s' :=
      Reached.step h (Step.add_new fuel array index hindex hadd)
    obtain ⟨-, -, hlength'⟩ := hstep.counted
    unfold add_new at hadd
    obtain ⟨s1, hs1, hadd⟩ := Option.bind_eq_some.1 hadd
    obtain ⟨s2, hs2, hadd⟩ := Option.bind_eq_some.1 hadd
    have hs' := (Option.some.inj hadd).symm
    have hmap : s'.m_map = s2.m_map := by rw [hs']
    obtain ⟨-, -, -, e4⟩ := ensure_can_add_count GetKey Hash fuel array hwf hrange hlength hs1
    obtain ⟨c1, -, -, -⟩ := add_new__fast_count Hash hindex hs2
    have hocc : (occupied_slots s').card = (occupied_slots s).card + 1 := by
      rw [occupied_slots_congr hmap, c1, e4]
    exact ⟨by omega, hocc⟩
  · intro fuel key index s' hindex hrem
    have hstep : Reached GetKey Hash N_EXP (2 ^ 31) with_range s' :=
      Reached.step h (Step.remove fuel key index hindex hrem)
    obtain ⟨-, -, hlength'⟩ := hstep.counted
    obtain ⟨n, -, -, st, hst, heq, hs'⟩ := (remove_eq_some_iff Hash fuel s key index s').1 hrem
    have hmap : s'.m_map = s.m_map.set (slot_at Hash s key n) SLOT_DUMMY := by rw [hs']
    have hsteq := eq_of_to_index_eq (hrange.get hst) hindex heq
    obtain ⟨hv1, hv2, -⟩ := index_range hindex
    rw [hsteq] at hst
    obtain ⟨c1, -, -⟩ := count_set_dummy hmap hst hv1 hv2
    exact ⟨by omega, c1⟩

/-- C13, witness: the default lookup after `add_new(array, 0)`. -/
theorem m_length_counts_occupied_witness :
    lookup_one_item.m_length = (occupied_slots lookup_one_item).card ∧
      lookup_one_item.m_length = 1 :=
  ⟨(m_length_counts_occupied (reached_one_removed (2 ^ 31) (by norm_num) true).1).1,
    by decide⟩

/-- C13, counterexample: an index whose slot value is a sentinel.  On the default lookup
`add_new(array, 4294967294)` stores `(State)4294967294 = -2`, so that afterwards `m_length` is
`1` while no slot is Occupied. -/
theorem add_new_sentinel_index_counterexample :
    ArrayLookup.construct 3 = some default_lookup ∧
      add_new (get_key_from_item : Int → Int) int_hash 20 default_lookup items_identity
        4294967294 = some lookup_dummy_index ∧
      lookup_dummy_index.m_length = 1 ∧ (occupied_slots lookup_dummy_index).card = 0 := by
  decide

end ClaimLength

section ClaimTableSize

variable {Key Item : Type}

/-- C14: in every state reached from a constructed lookup by any sequence of returning calls of
`ensure_can_add`, `add_new`, `add_new_range`, `remove` and `update_index`, the size of the
mapping table is a power of two `2 ^ k` with `N_EXP ≤ k ≤ 31`, and `m_slot_mask` is the size
minus one; every slot that `first_slot` and `next_slot` produce is below the size, so every
probed slot of the table can be read; and no further call shrinks the table. -/
theorem table_size_power_of_two {GetKey : Item → Key} {Hash : Key → Nat}
    {N_EXP bound : Nat} {with_range : Bool} {s : ArrayLookup}
    (h : Reached GetKey Hash N_EXP bound with_range s) :
    (∃ k, N_EXP ≤ k ∧ k ≤ 31 ∧ s.m_map.length = 2 ^ k ∧ s.m_slot_mask = 2 ^ k - 1) ∧
      (∀ key : Key, (first_slot Hash s key).1 < s.m_map.length) ∧
      (∀ slot perturb : Nat, (next_slot s slot perturb).1 < s.m_map.length) ∧
      (∀ (key : Key) (n : Nat), ∃ st, s.m_map[slot_at Hash s key n]? = some st) ∧
      (∀ s' : ArrayLookup, Step GetKey Hash bound with_range s s' →
        s.m_map.length ≤ s'.m_map.length) := by
  obtain ⟨hwf, hsize⟩ := h.table_shape
  obtain ⟨k, hk, hlen, hmask⟩ := hwf
  have hpos : 0 < 2 ^ k := Nat.two_pow_pos k
  refine ⟨⟨k, ?_, hk, hlen, hmask⟩, ?_, ?_, ?_, ?_⟩
  · rw [hlen] at hsize
    exact (Nat.pow_le_pow_iff_right (by norm_num)).1 hsize
  · intro key
    rw [first_slot_fst Hash hk hmask, hlen]
    exact Nat.mod_lt _ hpos
  · intro slot perturb
    rw [next_slot_fst hk hmask, hlen]
    exact Nat.mod_lt _ hpos
  · intro key n
    have hlt := slot_at_lt Hash ⟨k, hk, hlen, hmask⟩ key n
    exact ⟨_, List.getElem?_eq_getElem hlt⟩
  · intro s' hstep
    rcases (hstep.keeps_shape ⟨k, hk, hlen, hmask⟩).2 with h2 | h2 <;> omega

/-- C14, witness: the default lookup after `add_new(array, 0)` and `remove(0, 0)`. -/
theorem table_size_power_of_two_witness :
    ∃ k, 3 ≤ k ∧ k ≤ 31 ∧ lookup_one_removed.m_map.length = 2 ^ k ∧
      lookup_one_removed.m_slot_mask = 2 ^ k - 1 :=
  (table_size_power_of_two (reached_one_removed (2 ^ 32) (by norm_num) true).2).1

end ClaimTableSize

section ClaimBudget

variable {Key Item : Type}

/-- C19 (amended): in every state reached from a constructed lookup by `ensure_can_add`,
`add_new`, `remove` and `update_index` calls with indices below `2 ^ 31`, `m_usable_slots` plus
the number of Occupied slots plus the number of Tombstone slots is the insert budget
`floor(capacity * 0.6f)` of the table, for the `float` constant `0.6f = 10066330 / 2 ^ 24`
(which is `floor(capacity * 0.6)` below `2 ^ 23` slots).  A `remove` leaves `m_usable_slots` as it
is, a growth in `ensure_can_add` leaves no Tombstone.  So the number of non-empty slots never exceeds
the insert budget, which is below the capacity, and the table has an Empty slot. -/
theorem insert_budget_invariant {GetKey : Item → Key} {Hash : Key → Nat} {N_EXP : Nat}
    {s : ArrayLookup} (h : Reached GetKey Hash N_EXP (2 ^ 31) false s) :
    s.m_usable_slots + (occupied_slots s).card + (tombstone_slots s).card =
        load_capacity s.m_map.length ∧
      (s.m_map.length < 2 ^ 23 → load_capacity s.m_map.length = s.m_map.length * 6 / 10) ∧
      (∀ (fuel : Nat) (key : Key) (index : Nat) (s' : ArrayLookup), index < 2 ^ 31 →
        remove Hash fuel s key index = some s' →
        s'.m_usable_slots = s.m_usable_slots ∧
          (non_empty_slots s').card = (non_empty_slots s).card) ∧
      (∀ (fuel : Nat) (array : Int → Item) (amount : Nat) (s' : ArrayLookup),
        s.m_usable_slots < amount →
        ensure_can_add GetKey Hash fuel s array amount = some s' →
        tombstone_slots s' = ∅ ∧
          s'.m_usable_slots + (occupied_slots s').card = load_capacity s'.m_map.length) ∧
      (non_empty_slots s).card = (occupied_slots s).card + (tombstone_slots s).card ∧
      (non_empty_slots s).card ≤ load_capacity s.m_map.length ∧
      load_capacity s.m_map.length < s.m_map.length ∧
      ∃ slot : Nat, s.m_map[slot]? = some SLOT_EMPTY := by
  obtain ⟨hwf, hrange, hlength⟩ := h.counted
  have hbudget := h.budgeted
  have hcard := card_non_empty_slots s
  refine ⟨by omega, ?_, ?_, ?_, hcard, by omega, (load_capacity_lt hwf).1,
    exists_empty_slot hwf (by omega)⟩
  · intro hlt
    obtain ⟨k, hk, hlen, -⟩ := hwf
    rw [hlen] at hlt ⊢
    have hk23 : k < 23 := (Nat.pow_lt_pow_iff_right (by norm_num)).1 hlt
    exact load_capacity_eq_six_tenths k hk23
  · intro fuel key index s' hindex hrem
    obtain ⟨n, -, -, st, hst, heq, hs'⟩ := (remove_eq_some_iff Hash fuel s key index s').1 hrem
    have hmap : s'.m_map = s.m_map.set (slot_at Hash s key n) SLOT_DUMMY := by rw [hs']
    have husable : s'.m_usable_slots = s.m_usable_slots := by rw [hs']
    have hsteq := eq_of_to_index_eq (hrange.get hst) hindex heq
    obtain ⟨hv1, hv2, -⟩ := index_range hindex
    rw [hsteq] at hst
    obtain ⟨-, -, c3⟩ := count_set_dummy hmap hst hv1 hv2
    exact ⟨husable, c3⟩
  · intro fuel array amount s' hgrow hens
    have hstep : Reached GetKey Hash N_EXP (2 ^ 31) false s' :=
      Reached.step h (Step.ensure_can_add fuel array amount hens)
    have hbudget' := hstep.budgeted
    have hcard' := card_non_empty_slots s'
    obtain ⟨-, -, -, g4, -, -⟩ :=
      ensure_can_add_grow_count GetKey Hash fuel array hwf hlength hgrow hens
    refine ⟨g4, ?_⟩
    rw [g4, Finset.card_empty] at hcard'
    omega

/-- C19, witness: the default lookup after `add_new(array, 0)` and `remove(0, 0)`, with
budget `3` left, no Occupied slot and one Tombstone, for the insert budget `4`. -/
theorem insert_budget_invariant_witness :
    lookup_one_removed.m_usable_slots + (occupied_slots lookup_one_removed).card +
        (tombstone_slots lookup_one_removed).card =
      load_capacity lookup_one_removed.m_map.length ∧
      (occupied_slots lookup_one_removed).card = 0 ∧
      (tombstone_slots lookup_one_removed).card = 1 :=
  ⟨(insert_budget_invariant (reached_one_removed (2 ^ 31) (by norm_num) false).2).1,
    by decide, by decide⟩

/-- C19, counterexample: a large table, and the index `4294967295`.  The lookup
constructed with `N_EXP = 23` has `m_usable_slots = 5033165` and no non-empty slot, where
`floor(8388608 * 0.6) = 5033164`.  On the default lookup `add_new(array, 4294967295)` stores
`(State)4294967295 = -1`: afterwards `m_usable_slots` is `3` and no slot is Occupied or a
Tombstone, where `floor(8 * 0.6) = 4`. -/
theorem insert_budget_counterexample :
    (ArrayLookup.construct 23).map
        (fun t => (t.m_usable_slots, (non_empty_slots t).card, t.m_map.length)) =
      some (5033165, 0, 8388608) ∧
      8388608 * 6 / 10 = 5033164 ∧
      ArrayLookup.construct 3 = some default_lookup ∧
      add_new (get_key_from_item : Int → Int) int_hash 20 default_lookup items_identity
        4294967295 = some lookup_max_index ∧
      lookup_max_index.m_usable_slots + (occupied_slots lookup_max_index).card +
        (tombstone_slots lookup_max_index).card = 3 ∧
      lookup_max_index.m_map.length * 6 / 10 = 4 := by
  refine ⟨?_, by norm_num, by decide, by decide, by decide, by decide⟩
  rw [construct_eq (by norm_num : 23 ≤ 31), Option.map_some']
  simp only [non_empty_slots_replicate, Finset.card_empty, List.length_replicate]
  norm_num

end ClaimBudget

section ProbeFacts

variable {Key Item : Type}

/-- The loop `ITER_SLOTS` is still running after `fuel` iterations if the body continues at
each of the first `fuel` probed slots. -/
theorem ITER_SLOTS_eq_none_of_le {β : Type} (Hash : Key → Nat) (s : ArrayLookup) (key : Key)
    (body : Nat → Int → Option β) {n fuel : Nat} (hle : fuel ≤ n)
    (hpre : ∀ m, m < n → ∃ st, s.m_map[slot_at Hash s key m]? = some st ∧
      body (slot_at Hash s key m) st = none) :
    ITER_SLOTS Hash s key body fuel = none := by
  cases hres : ITER_SLOTS Hash s key body fuel with
  | none => rfl
  | some r =>
    obtain ⟨n', hn', -, st, hst, hb⟩ := (ITER_SLOTS_eq_some_iff Hash s key body fuel r).1 hres
    obtain ⟨st', hst', hb'⟩ := hpre n' (by omega)
    rw [hst] at hst'
    cases Option.some.inj hst'
    rw [hb] at hb'
    exact Option.noConfusion hb'

/-- With perturbation `0` the probed slots keep the parity of the starting slot. -/
theorem probe_parity {s : ArrayLookup} {k : Nat} (hk1 : 1 ≤ k) (hk : k ≤ 31)
    (hm : s.m_slot_mask = 2 ^ k - 1) (a : Nat) (ha : a < 2 ^ k) (n : Nat) :
    (probe s (a, 0) n).1 % 2 = a % 2 := by
  rw [probe_fst_of_perturb_zero hk hm a ha n]
  have hdvd : 2 ∣ 2 ^ k := dvd_pow_self 2 (by omega)
  show (a + 6 * n) % 2 ^ k % 2 = a % 2
  rw [Nat.mod_mod_of_dvd _ hdvd]
  omega

end ProbeFacts

section ClaimProbeSequence

variable {Key Item : Type}

/-- C16: the probe sequence starts at `slot = hash & mask` with `perturb = hash`, and the
perturbation is shifted right by 5 bits in each step, but the step of the code is
`mask & ((5 + slot) + 1 + perturb)`, that is `mask & (slot + 6 + perturb)`, and not
`mask & (5 * slot + 1 + perturb)`: for the default table, `next_slot` maps slot `1` with
perturbation `0` to slot `7`, where the stated recurrence gives `6`, and the second slot probed
for a key of hash value `0` is `6`, where the stated recurrence gives `1`.  The probed slots
depend on the hash value, the mask and the step number only. -/
theorem probe_step_adds_five :
    (∀ (Hash : Key → Nat) (s : ArrayLookup) (key : Key),
        first_slot Hash s key = ((Hash key % 2 ^ 32) &&& s.m_slot_mask, Hash key % 2 ^ 32)) ∧
      (∀ (s : ArrayLookup) (slot perturb : Nat),
        next_slot s slot perturb =
          (s.m_slot_mask &&& ((slot + 6 + perturb) % 2 ^ 32), perturb >>> 5)) ∧
      next_slot default_lookup 1 0 = (7, 0) ∧
      default_lookup.m_slot_mask &&& ((5 * 1 + 1 + 0) % 2 ^ 32) = 6 ∧
      slot_at int_hash default_lookup (0 : Int) 0 = 0 ∧
      slot_at int_hash default_lookup (0 : Int) 1 = 6 ∧
      default_lookup.m_slot_mask &&& ((5 * 0 + 1 + 0) % 2 ^ 32) = 1 ∧
      (∀ (Hash : Key → Nat) (s t : ArrayLookup) (key key' : Key),
        s.m_slot_mask = t.m_slot_mask → Hash key % 2 ^ 32 = Hash key' % 2 ^ 32 →
        ∀ n, slot_at Hash s key n = slot_at Hash t key' n) := by
  refine ⟨fun _ _ _ => rfl, ?_, by decide, by decide, by decide, by decide, by decide, ?_⟩
  · intro s slot perturb
    unfold next_slot PERTURB_SHIFT
    have h : 5 + slot + 1 + perturb = slot + 6 + perturb := by omega
    rw [h]
  · intro Hash s t key key' hmask hhash n
    have hfirst : first_slot Hash s key = first_slot Hash t key' := by
      unfold first_slot
      simp only [hmask, hhash]
    unfold slot_at
    rw [hfirst, probe_congr hmask]

end ClaimProbeSequence

section ClaimPermutation

/-- C17: once the perturbation is `0`, `next_slot` does not run through all the slots.  For
the default table of `2 ^ 3` slots, eight consecutive steps from slot `0` visit the slots
`0, 6, 4, 2, 0, 6, 4, 2`: slot `0` twice and slot `1` never.  For every table of `2 ^ k` slots
with `1 ≤ k ≤ 31` and every starting slot, all the slots visited have the parity of the
starting slot, and the slot visited after `2 ^ (k - 1)` steps is the starting slot again. -/
theorem next_slot_visits_one_parity :
    (List.range 8).map (fun n => (probe default_lookup (0, 0) n).1) = [0, 6, 4, 2, 0, 6, 4, 2] ∧
      (∀ (s : ArrayLookup) (k : Nat), 1 ≤ k → k ≤ 31 → s.m_slot_mask = 2 ^ k - 1 →
        ∀ a : Nat, a < 2 ^ k →
          (∀ n, (probe s (a, 0) n).1 % 2 = a % 2) ∧
          (∀ n, (probe s (a, 0) n).1 ≠ (a + 1) % 2 ^ k) ∧
          (probe s (a, 0) (2 ^ (k - 1))).1 = a) := by
  refine ⟨by decide, ?_⟩
  intro s k hk1 hk hm a ha
  have hpar := probe_parity hk1 hk hm a ha
  have hdvd : 2 ∣ 2 ^ k := dvd_pow_self 2 (by omega)
  refine ⟨hpar, ?_, ?_⟩
  · intro n heq
    have h1 := hpar n
    rw [heq, Nat.mod_mod_of_dvd _ hdvd] at h1
    omega
  · rw [probe_fst_of_perturb_zero hk hm a ha]
    show (a + 6 * 2 ^ (k - 1)) % 2 ^ k = a
    have hpow : 2 ^ k = 2 * 2 ^ (k - 1) := by
      rw [← pow_succ']
      congr 1
      omega
    have h6 : a + 6 * 2 ^ (k - 1) = a + 2 ^ k * 3 := by rw [hpow]; ring
    rw [h6, Nat.add_mul_mod_self_left]
    exact Nat.mod_eq_of_lt ha

end ClaimPermutation

section ClaimSentinels

variable {Key Item : Type}

/-- C18: the slot values of the indices `2 ^ 32 - 1` and `2 ^ 32 - 2` are `SLOT_EMPTY` and
`SLOT_DUMMY`.  So `add_new__fast` of `2 ^ 32 - 1` leaves the lookup as it is, and
`add_new__fast` of `2 ^ 32 - 2` turns an Empty slot into a Tombstone; `find` never returns
`SLOT_DUMMY`, and it returns `-1` exactly when `contains` returns `false`; after
`add_new(array, 4294967295)` and after `add_new(array, 4294967294)` on the default lookup the
written slot reads Empty respectively Tombstone, `find` returns `-1` and `contains` returns
`false` for the key.  For every index below `2 ^ 31` the slot value is non-negative, differs
from both sentinels and converts back to the index. -/
theorem sentinel_index_collision [DecidableEq Key] :
    to_state (2 ^ 32 - 1) = SLOT_EMPTY ∧ to_state (2 ^ 32 - 2) = SLOT_DUMMY ∧
      (∀ (Hash : Key → Nat) (fuel : Nat) (s s' : ArrayLookup) (key : Key),
        add_new__fast Hash fuel s key (2 ^ 32 - 1) = some s' → s' = s) ∧
      (∀ (Hash : Key → Nat) (fuel : Nat) (s s' : ArrayLookup) (key : Key),
        add_new__fast Hash fuel s key (2 ^ 32 - 2) = some s' →
        ∃ slot : Nat, s.m_map[slot]? = some SLOT_EMPTY ∧
          s'.m_map = s.m_map.set slot SLOT_DUMMY ∧ s'.m_map[slot]? = some SLOT_DUMMY) ∧
      (∀ (GetKey : Item → Key) (Hash : Key → Nat) (fuel : Nat) (s : ArrayLookup)
        (array : Int → Item) (key : Key),
        find GetKey Hash fuel s array key ≠ some SLOT_DUMMY ∧
          (find GetKey Hash fuel s array key = some (-1) ↔
            contains GetKey Hash fuel s array key = some false)) ∧
      add_new (get_key_from_item : Int → Int) int_hash 20 default_lookup items_identity
        4294967295 = some lookup_max_index ∧
      lookup_max_index.m_map = default_lookup.m_map ∧
      lookup_max_index.m_map[7]? = some SLOT_EMPTY ∧
      find (get_key_from_item : Int → Int) int_hash 20 lookup_max_index items_identity
        4294967295 = some (-1) ∧
      contains (get_key_from_item : Int → Int) int_hash 20 lookup_max_index items_identity
        4294967295 = some false ∧
      add_new (get_key_from_item : Int → Int) int_hash 20 default_lookup items_identity
        4294967294 = some lookup_dummy_index ∧
      lookup_dummy_index.m_map[6]? = some SLOT_DUMMY ∧
      find (get_key_from_item : Int → Int) int_hash 20 lookup_dummy_index items_identity
        4294967294 = some (-1) ∧
      contains (get_key_from_item : Int → Int) int_hash 20 lookup_dummy_index items_identity
        4294967294 = some false ∧
      (∀ index : Nat, index < 2 ^ 31 →
        0 ≤ to_state index ∧ to_state index ≠ SLOT_EMPTY ∧ to_state index ≠ SLOT_DUMMY ∧
          to_index (to_state index) = index) := by
  refine ⟨by decide, by decide, ?_, ?_, ?_, by decide, by decide, by decide, by decide,
    by decide, by decide, by decide, by decide, by decide, ?_⟩
  · intro Hash fuel s s' key h
    obtain ⟨n, -, -, hn, hs'⟩ := (add_new__fast_eq_some_iff Hash fuel s key _ s').1 h
    have hstate : to_state (2 ^ 32 - 1) = SLOT_EMPTY := by decide
    rw [hstate] at hs'
    have hset : s.m_map.set (slot_at Hash s key n) SLOT_EMPTY = s.m_map := by
      apply List.ext_getElem?
      intro a
      rw [List.getElem?_set]
      by_cases ha : slot_at Hash s key n = a
      · rw [if_pos ha, ← ha, hn]
        simp [(List.getElem?_eq_some.1 hn).1]
      · rw [if_neg ha]
    rw [hset] at hs'
    exact hs'
  · intro Hash fuel s s' key h
    obtain ⟨n, -, -, hn, hs'⟩ := (add_new__fast_eq_some_iff Hash fuel s key _ s').1 h
    have hstate : to_state (2 ^ 32 - 2) = SLOT_DUMMY := by decide
    rw [hstate] at hs'
    have hmap : s'.m_map = s.m_map.set (slot_at Hash s key n) SLOT_DUMMY := by rw [hs']
    refine ⟨_, hn, hmap, ?_⟩
    rw [getElem?_of_set hmap (List.getElem?_eq_some.1 hn).1, if_pos rfl]
  · intro GetKey Hash fuel s array key
    constructor
    · intro hf
      exact (find_sound GetKey Hash fuel s array key SLOT_DUMMY hf (by decide)).2.2.1 rfl
    · rw [contains_eq_some_iff]
      constructor
      · intro hf
        exact ⟨-1, hf, by simp⟩
      · rintro ⟨r, hr, hbr⟩
        have : r = -1 := by
          by_contra hne
          exact Bool.noConfusion (hbr.2 hne)
        rw [← this]
        exact hr
  · intro index hindex
    rw [to_state_of_lt hindex]
    obtain ⟨h1, h2, -, -⟩ := index_range hindex
    exact ⟨Int.natCast_nonneg _, h1, h2, to_index_natCast (by omega)⟩

end ClaimSentinels

section ClaimContainsFind

variable {Key Item : Type}

/-- C20: for every state, array, key and fuel, `contains` returns `true` exactly when `find`
returns a value other than `-1`, and `false` exactly when `find` returns `-1`; neither returns
if the other does not.  When they return they have walked the same slots and stop at the same
slot: there is a step number `n` such that with at most `n` iterations neither of them has
returned, with more than `n` iterations both have returned, and the slot probed in step `n` is
Empty or stores an index whose array item has the key, while each slot probed before is a
Tombstone or stores an index whose array item has another key. -/
theorem contains_iff_find [DecidableEq Key] (GetKey : Item → Key) (Hash : Key → Nat)
    (fuel : Nat) (s : ArrayLookup) (array : Int → Item) (key : Key) :
    (∀ b : Bool, contains GetKey Hash fuel s array key = some b ↔
        ∃ r, find GetKey Hash fuel s array key = some r ∧ (b = true ↔ r ≠ -1)) ∧
      (contains GetKey Hash fuel s array key = none ↔
        find GetKey Hash fuel s array key = none) ∧
      (∀ b : Bool, contains GetKey Hash fuel s array key = some b →
        ∃ (n : Nat) (r : Int), n < fuel ∧ find GetKey Hash fuel s array key = some r ∧
          (∀ fuel', fuel' ≤ n → contains GetKey Hash fuel' s array key = none ∧
            find GetKey Hash fuel' s array key = none) ∧
          (∀ fuel', n < fuel' → contains GetKey Hash fuel' s array key = some b ∧
            find GetKey Hash fuel' s array key = some r) ∧
          (∃ st, s.m_map[slot_at Hash s key n]? = some st ∧
            (st = SLOT_EMPTY ∨ (st ≠ SLOT_DUMMY ∧ GetKey (array st) = key))) ∧
          (∀ m, m < n → ∃ st, s.m_map[slot_at Hash s key m]? = some st ∧
            st ≠ SLOT_EMPTY ∧ (st = SLOT_DUMMY ∨ GetKey (array st) ≠ key))) := by
  have hiff := contains_eq_some_iff GetKey Hash fuel s array key
  refine ⟨hiff, ?_, ?_⟩
  · constructor
    · intro hc
      cases hf : find GetKey Hash fuel s array key with
      | none => rfl
      | some r =>
        have := (hiff (decide (r ≠ -1))).2 ⟨r, hf, by simp⟩
        rw [hc] at this
        exact Option.noConfusion this
    · intro hf
      cases hc : contains GetKey Hash fuel s array key with
      | none => rfl
      | some b =>
        obtain ⟨r, hr, -⟩ := (hiff b).1 hc
        rw [hf] at hr
        exact Option.noConfusion hr
  · intro b hc
    obtain ⟨r, hr, hbr⟩ := (hiff b).1 hc
    unfold contains at hc
    obtain ⟨n, hn, hpre, st, hst, hb⟩ := (ITER_SLOTS_eq_some_iff Hash s key _ fuel b).1 hc
    have hpre' : ∀ m, m < n → ∃ st', s.m_map[slot_at Hash s key m]? = some st' ∧
        (if st' = SLOT_EMPTY then some (-1 : Int)
          else if st' = SLOT_DUMMY then none
          else if GetKey (array st') = key then some st' else none) = none := by
      intro m hm
      obtain ⟨st', hst', hb'⟩ := hpre m hm
      exact ⟨st', hst', (contains_body_eq_none_iff GetKey array key st').1 hb'⟩
    obtain ⟨r', hr', -⟩ := (contains_body_eq_some_iff GetKey array key st b).1 hb
    have hfind : ∀ fuel', n < fuel' → find GetKey Hash fuel' s array key = some r' := by
      intro fuel' hlt
      unfold find
      exact (ITER_SLOTS_eq_some_iff Hash s key _ fuel' r').2 ⟨n, hlt, hpre', st, hst, hr'⟩
    have hrr : r' = r := by
      have := hfind fuel hn
      rw [hr] at this
      exact (Option.some.inj this).symm
    rw [hrr] at hfind
    refine ⟨n, r, hn, hr, ?_, ?_, ?_, ?_⟩
    · intro fuel' hle
      exact ⟨ITER_SLOTS_eq_none_of_le Hash s key _ hle hpre,
        ITER_SLOTS_eq_none_of_le Hash s key _ hle hpre'⟩
    · intro fuel' hlt
      exact ⟨(ITER_SLOTS_eq_some_iff Hash s key _ fuel' b).2 ⟨n, hlt, hpre, st, hst, hb⟩,
        hfind fuel' hlt⟩
    · refine ⟨st, hst, ?_⟩
      by_cases h1 : st = SLOT_EMPTY
      · exact Or.inl h1
      · refine Or.inr ?_
        rw [if_neg h1] at hb
        by_cases h2 : st = SLOT_DUMMY
        · rw [if_pos h2] at hb
          exact Option.noConfusion hb
        · rw [if_neg h2] at hb
          by_cases h3 : GetKey (array st) = key
          · exact ⟨h2, h3⟩
          · rw [if_neg h3] at hb
            exact Option.noConfusion hb
    · intro m hm
      obtain ⟨st', hst', hb'⟩ := hpre m hm
      refine ⟨st', hst', ?_⟩
      by_cases h1 : st' = SLOT_EMPTY
      · rw [if_pos h1] at hb'
        exact Option.noConfusion hb'
      · refine ⟨h1, ?_⟩
        rw [if_neg h1] at hb'
        by_cases h2 : st' = SLOT_DUMMY
        · exact Or.inl h2
        · rw [if_neg h2] at hb'
          by_cases h3 : GetKey (array st') = key
          · rw [if_pos h3] at hb'
            exact Option.noConfusion hb'
          · exact Or.inr h3

end ClaimContainsFind

end BLI

namespace FN

section Batched

variable {Memory : Type}

/-- The loop `for_uint` from counter `i` performs the body for `i, i + 1, ..., n - 1` in
order. -/
theorem for_uint_eq_foldl (n : Nat) (body : Nat → Memory → Memory) :
    ∀ (c i : Nat) (mem : Memory), i + c = n →
      for_uint n body i mem = (List.range' i c).foldl (fun m j => body j m) mem := by
  intro c
  induction c with
  | zero =>
    intro i mem h
    unfold for_uint
    rw [if_neg (by omega)]
    rfl
  | succ c ih =>
    intro i mem h
    unfold for_uint
    rw [if_pos (by omega), ih (i + 1) (body i mem) (by omega)]
    rfl

/-- The loop `for_uint` from counter `0` invokes the body for the slots `0, ..., n - 1` in
order. -/
theorem for_uint_eq_invoke_in_order (n : Nat) (body : Nat → Memory → Memory) (mem : Memory) :
    for_uint n body 0 mem = invoke_in_order n body mem := by
  rw [for_uint_eq_foldl n body n 0 mem (by omega)]
  unfold invoke_in_order
  rw [List.range_eq_range']

end Batched

section ClaimBatched

variable {Memory : Type}

/-- C15: for every element type, every `n` and all addresses, each batched method of
`CPPTypeInfoForType` has the effect of invoking its one-element counterpart `n` times in order
on the slots `0, 1, ..., n - 1`, slot `i` being at the address `ptr + i * sizeof(T)`; and
`construct_default_n(ptr, 0)` leaves the memory as it is. -/
theorem batched_eq_invoke_in_order (T : ElementType Memory) (ptr src dst n : Nat)
    (mem : Memory) :
    CPPTypeInfoForType.construct_default_n T ptr n mem =
        invoke_in_order n (fun i => CPPTypeInfoForType.construct_default T (ptr + i * T.size))
          mem ∧
      CPPTypeInfoForType.construct_default_n T ptr 0 mem = mem ∧
      CPPTypeInfoForType.destruct_n T ptr n mem =
        invoke_in_order n (fun i => CPPTypeInfoForType.destruct T (ptr + i * T.size)) mem ∧
      CPPTypeInfoForType.copy_to_initialized_n T src dst n mem =
        invoke_in_order n
          (fun i => CPPTypeInfoForType.copy_to_initialized T (src + i * T.size)
            (dst + i * T.size)) mem ∧
      CPPTypeInfoForType.copy_to_uninitialized_n T src dst n mem =
        invoke_in_order n
          (fun i => CPPTypeInfoForType.copy_to_uninitialized T (src + i * T.size)
            (dst + i * T.size)) mem ∧
      CPPTypeInfoForType.relocate_to_initialized_n T src dst n mem =
        invoke_in_order n
          (fun i => CPPTypeInfoForType.relocate_to_initialized T (src + i * T.size)
            (dst + i * T.size)) mem ∧
      CPPTypeInfoForType.relocate_to_uninitialized_n T src dst n mem =
        invoke_in_order n
          (fun i => CPPTypeInfoForType.relocate_to_uninitialized T (src + i * T.size)
            (dst + i * T.size)) mem := by
  refine ⟨for_uint_eq_invoke_in_order n _ mem, ?_, for_uint_eq_invoke_in_order n _ mem,
    for_uint_eq_invoke_in_order n _ mem, for_uint_eq_invoke_in_order n _ mem,
    for_uint_eq_invoke_in_order n _ mem, for_uint_eq_invoke_in_order n _ mem⟩
  unfold CPPTypeInfoForType.construct_default_n for_uint
  rw [if_neg (by omega)]

end ClaimBatched

end FN
